import Mathlib

/-!
Verification of the CPU scheduling engine in `src/script.js`.

Shallow embedding of the five scheduling algorithms (`fcfs`, `sjf`, `srtf`,
`prioritySchedule`, `roundRobin`) and of the caller-side validation logic of
`readProcesses`.  JavaScript numbers that reach the algorithms are finite
(validated), so times are modelled as `ℚ`; raw form values, which can be
`NaN` or `±Infinity`, are modelled by `JSNum`.  The JavaScript `while` loops
are modelled as fuel-indexed loops over an explicit state record, one fuel
unit per loop iteration; `none` means the fuel ran out.
-/

set_option maxHeartbeats 1000000

/-- A process record as produced by `readProcesses` (src/script.js line 29):
`{ pid, arrival, burst, priority, color }`.  The `color` field is only used
for rendering and is omitted. -/
structure Process where
  pid : String
  arrival : ℚ
  burst : ℚ
  priority : ℚ
deriving Repr, DecidableEq

/-- A Gantt block `{ pid, start, end, color }` (src/script.js, e.g. line 103);
`color` is omitted and the field `end` is renamed `stop` (`end` is a Lean
keyword).  Idle blocks carry the reserved pid `"IDLE"`. -/
structure Block where
  pid : String
  start : ℚ
  stop : ℚ
deriving Repr, DecidableEq

/-- The per-process result record `res.set(p.pid, {...})` (src/script.js
line 108 and friends). -/
structure PResult where
  start : ℚ
  completion : ℚ
  tat : ℚ
  wt : ℚ
  response : ℚ
  arrival : ℚ
  burst : ℚ
  priority : ℚ
deriving Repr, DecidableEq

/-- The JavaScript `Map` keyed by pid, as an association list in insertion
order.  `mapSet` models `Map.prototype.set`: overwrite in place when the key
is present, append otherwise. -/
def mapSet (m : List (String × PResult)) (k : String) (v : PResult) :
    List (String × PResult) :=
  match m with
  | [] => [(k, v)]
  | (k', v') :: rest => if k' = k then (k, v) :: rest else (k', v') :: mapSet rest k v

/-- `Map.prototype.get`. -/
def mapGet (m : List (String × PResult)) (k : String) : Option PResult :=
  match m with
  | [] => none
  | (k', v') :: rest => if k' = k then some v' else mapGet rest k

/-- The value `{ blocks, results, endTime }` returned by every algorithm. -/
structure SimResult where
  blocks : List Block
  results : List (String × PResult)
  endTime : ℚ
deriving Repr, DecidableEq

instance {ε α : Type} [DecidableEq ε] [DecidableEq α] : DecidableEq (Except ε α) :=
  fun x y =>
    match x, y with
    | .ok a, .ok b => if h : a = b then isTrue (by rw [h]) else isFalse (by simp [h])
    | .error a, .error b => if h : a = b then isTrue (by rw [h]) else isFalse (by simp [h])
    | .ok _, .error _ => isFalse (by simp)
    | .error _, .ok _ => isFalse (by simp)

/-- `Math.min(...processes.map(p=>p.arrival))`.  On the empty list JavaScript
returns `Infinity`; the algorithms are only analysed on nonempty input, and
we return `0` there. -/
def minArrival (ps : List Process) : ℚ :=
  match ps with
  | [] => 0
  | p :: rest => rest.foldl (fun acc x => min acc x.arrival) p.arrival

/-- Largest arrival time (used only for termination measures). -/
def maxArrival (ps : List Process) : ℚ :=
  match ps with
  | [] => 0
  | p :: rest => rest.foldl (fun acc x => max acc x.arrival) p.arrival

/-- Indexing `processes[i]`; all accesses in the algorithms are in bounds,
the default is never read. -/
def getP (ps : List Process) (i : ℕ) : Process :=
  ps.getD i ⟨"", 0, 0, 0⟩

/-- A JavaScript number as it comes out of `Number(inputField.value)`:
finite, `NaN`, or `±Infinity`. -/
inductive JSNum where
  | num (q : ℚ)
  | nan
  | posInf
  | negInf
deriving Repr, DecidableEq

/-- `Number.isFinite`. -/
def JSNum.isFiniteNum : JSNum → Bool
  | .num _ => true
  | _ => false

/-- The finite value of a `JSNum`; only consulted after an `isFiniteNum`
check. -/
def JSNum.toQ : JSNum → ℚ
  | .num q => q
  | _ => 0

/-- The JavaScript test `q > 0` (false for `NaN` and `-Infinity`, true for
`Infinity`), used by the `roundRobin` quantum guard (src/script.js
line 239). -/
def JSNum.gtZero : JSNum → Bool
  | .num q => decide (0 < q)
  | .posInf => true
  | .nan => false
  | .negInf => false

/-- `Math.min(q, rem[i])` for the quantum (src/script.js line 262).  The
`nan`/`negInf` cases are unreachable behind the quantum guard. -/
def JSNum.minWith : JSNum → ℚ → ℚ
  | .num q, r => min q r
  | .posInf, r => r
  | .nan, _ => 0
  | .negInf, _ => 0

/-! ## FCFS (src/script.js lines 95-114) -/

/-- The `while(i < processes.length)` loop of `fcfs`, recursing over the
still-unscheduled suffix of the process list with the accumulated blocks,
results map and clock. -/
def fcfsLoop : List Process → List Block → List (String × PResult) → ℚ → SimResult
  | [], blocks, res, time => ⟨blocks, res, time⟩
  | p :: rest, blocks, res, time =>
    let blocks1 := if time < p.arrival then blocks ++ [⟨"IDLE", time, p.arrival⟩] else blocks
    let time1 := if time < p.arrival then p.arrival else time
    let stop := time1 + p.burst
    fcfsLoop rest (blocks1 ++ [⟨p.pid, time1, stop⟩])
      (mapSet res p.pid
        ⟨time1, stop, stop - p.arrival, time1 - p.arrival, time1 - p.arrival,
          p.arrival, p.burst, p.priority⟩)
      stop

/-- `fcfs(processes)` (src/script.js lines 95-114). -/
def fcfs (ps : List Process) : SimResult :=
  fcfsLoop ps [] [] (minArrival ps)

/-! ## The tiling predicate (spec section 8, "Timeline coverage") -/

/-- `chainFrom t0 bs t1`: the blocks `bs`, in emitted order, exactly tile the
interval `[t0, t1)`: the first block starts at `t0`, every block satisfies
`start < stop`, each block's `stop` equals the next block's `start`, and the
last block's `stop` is `t1`.  (For the empty list this forces `t0 = t1`.) -/
def chainFrom : ℚ → List Block → ℚ → Prop
  | t0, [], t1 => t0 = t1
  | t0, b :: bs, t1 => b.start = t0 ∧ t0 < b.stop ∧ chainFrom b.stop bs t1

def chainFromDecidable : ∀ (t0 : ℚ) (bs : List Block) (t1 : ℚ),
    Decidable (chainFrom t0 bs t1)
  | _, [], _ => by unfold chainFrom; infer_instance
  | _, b :: bs, t1 => by
      unfold chainFrom
      have := chainFromDecidable b.stop bs t1
      infer_instance

instance instDecChainFrom (t0 : ℚ) (bs : List Block) (t1 : ℚ) :
    Decidable (chainFrom t0 bs t1) :=
  chainFromDecidable t0 bs t1

/-! ## SJF and Priority (src/script.js lines 117-149 and 212-235)

The two non-preemptive algorithms are literally the same loop except for the
comparator passed to `ready.sort`, so they are embedded as one loop `npLoop`
instantiated with `sjfLe` (lines 136-139) resp. `prLe` (lines 225-228). -/

/-- State of the non-preemptive `while(completed < n)` loop.  The JavaScript
`used`/`added` `Set` is modelled as a list of indices with membership
queries. -/
structure NPState where
  time : ℚ
  completed : ℕ
  ready : List ℕ
  used : List ℕ
  blocks : List Block
  res : List (String × PResult)
deriving Repr, DecidableEq

/-- The admission sweep at the top of each loop iteration (src/script.js
lines 125-128 resp. 217-219): all indices not yet in `used` whose arrival is
`≤ time`, in index order.  (The JavaScript loop mutates `used` while
scanning, but an index is never compared against its own insertion, so the
sweep equals this filter over the pre-sweep `used`.) -/
def npAdmit (ps : List Process) (time : ℚ) (used : List ℕ) : List ℕ :=
  (List.range ps.length).filter
    (fun i => !(used.contains i) && decide ((getP ps i).arrival ≤ time))

/-- The SJF comparator (src/script.js lines 136-139):
`a.burst - b.burst || a.arrival - b.arrival || a.pid.localeCompare(b.pid)`.
`localeCompare` is modelled by the lexicographic order on `String`. -/
def sjfLe (ps : List Process) (ia ib : ℕ) : Prop :=
  (getP ps ia).burst < (getP ps ib).burst ∨
    ((getP ps ia).burst = (getP ps ib).burst ∧
      ((getP ps ia).arrival < (getP ps ib).arrival ∨
        ((getP ps ia).arrival = (getP ps ib).arrival ∧ (getP ps ia).pid ≤ (getP ps ib).pid)))

instance (ps : List Process) : DecidableRel (sjfLe ps) := fun _ _ => by
  unfold sjfLe; infer_instance

/-- The Priority comparator (src/script.js lines 225-228):
`a.priority - b.priority || a.arrival - b.arrival || a.pid.localeCompare(b.pid)`. -/
def prLe (ps : List Process) (ia ib : ℕ) : Prop :=
  (getP ps ia).priority < (getP ps ib).priority ∨
    ((getP ps ia).priority = (getP ps ib).priority ∧
      ((getP ps ia).arrival < (getP ps ib).arrival ∨
        ((getP ps ia).arrival = (getP ps ib).arrival ∧ (getP ps ia).pid ≤ (getP ps ib).pid)))

instance (ps : List Process) : DecidableRel (prLe ps) := fun _ _ => by
  unfold prLe; infer_instance

/-- One iteration of the non-preemptive loop body.  `none` is the `break` on
the unreachable `else` branch (src/script.js line 134 resp. 223), after which
the function returns.  `ready.sort(...)` (a stable sort under a total
comparator) is modelled by `insertionSort`; for unique pids the comparator is
antisymmetric, so the result agrees with any stable sort. -/
def npBody (ps : List Process) (cmp : ℕ → ℕ → Prop) [DecidableRel cmp]
    (st : NPState) : Option NPState :=
  let admitted := npAdmit ps st.time st.used
  let used1 := st.used ++ admitted
  let ready1 := st.ready ++ admitted
  if ready1.isEmpty then
    match (((List.range ps.length).filter (fun i => !(used1.contains i))).map
        (fun i => (getP ps i).arrival)).min? with
    | some next =>
        some { st with time := next, ready := ready1, used := used1,
                       blocks := st.blocks ++ [⟨"IDLE", st.time, next⟩] }
    | none => none
  else
    match List.insertionSort cmp ready1 with
    | [] => none   -- unreachable: `ready1` is nonempty and sorting permutes it
    | idx :: rest =>
      let p := getP ps idx
      let stop := st.time + p.burst
      some { time := stop, completed := st.completed + 1, ready := rest, used := used1,
             blocks := st.blocks ++ [⟨p.pid, st.time, stop⟩],
             res := mapSet st.res p.pid
               ⟨st.time, stop, stop - p.arrival, st.time - p.arrival, st.time - p.arrival,
                 p.arrival, p.burst, p.priority⟩ }

/-- The fuel-indexed `while(completed < n)` loop (src/script.js line 124
resp. 216); one fuel unit per iteration, `none` when the fuel runs out. -/
def npLoop (ps : List Process) (cmp : ℕ → ℕ → Prop) [DecidableRel cmp] :
    ℕ → NPState → Option SimResult
  | 0, _ => none
  | fuel + 1, st =>
    if st.completed < ps.length then
      match npBody ps cmp st with
      | some st' => npLoop ps cmp fuel st'
      | none => some ⟨st.blocks, st.res, st.time⟩
    else
      some ⟨st.blocks, st.res, st.time⟩

def npInit (ps : List Process) : NPState :=
  ⟨minArrival ps, 0, [], [], [], []⟩

/-- `sjf(processes)` (src/script.js lines 117-149). -/
def sjf (ps : List Process) (fuel : ℕ) : Option SimResult :=
  npLoop ps (sjfLe ps) fuel (npInit ps)

/-- `prioritySchedule(processes)` (src/script.js lines 212-235). -/
def prioritySchedule (ps : List Process) (fuel : ℕ) : Option SimResult :=
  npLoop ps (prLe ps) fuel (npInit ps)

/-! ## SRTF (src/script.js lines 152-209) -/

/-- State of the `while(done.size < n)` loop.  `done` (a JavaScript `Set` of
indices) and `started` are boolean arrays indexed like `processes`. -/
structure SrtfState where
  time : ℚ
  rem : List ℚ
  started : List Bool
  lastPID : Option String
  blockStart : ℚ
  done : List Bool
  blocks : List Block
  res : List (String × PResult)
deriving Repr, DecidableEq

/-- The candidate test of the selection scan (src/script.js lines 163-164):
not done, arrived, and positive remaining burst. -/
def srtfCand (ps : List Process) (rem : List ℚ) (done : List Bool) (time : ℚ)
    (i : ℕ) : Prop :=
  done.getD i false = false ∧ (getP ps i).arrival ≤ time ∧ 0 < rem.getD i 0

instance (ps : List Process) (rem : List ℚ) (done : List Bool) (time : ℚ) (i : ℕ) :
    Decidable (srtfCand ps rem done time i) := by
  unfold srtfCand; infer_instance

/-- The selection scan (src/script.js lines 160-171), folding over the index
list with the current `best`.  The JavaScript code keeps `bestRem` alongside
`best`; they satisfy `bestRem = rem[best]` (`Infinity` for `best = -1`)
throughout, so only `best` is carried here.  When `best = -1` the first
disjunct `rem[i] < bestRem = Infinity` is true for every candidate (and the
two tie-break clauses are false thanks to `processes[-1]?.`, which makes
`p.arrival - undefined || 0` evaluate to `0` and `localeCompare(undefined ??
'') < 0` false for nonempty pids), so any candidate replaces it.  Note that
the third clause compares pids whenever the remaining bursts are equal,
without requiring equal arrivals. -/
def srtfPickAux (ps : List Process) (rem : List ℚ) (done : List Bool) (time : ℚ) :
    List ℕ → Option ℕ → Option ℕ
  | [], best => best
  | i :: is, best =>
    if srtfCand ps rem done time i then
      match best with
      | none => srtfPickAux ps rem done time is (some i)
      | some b =>
        if rem.getD i 0 < rem.getD b 0
            ∨ (rem.getD i 0 = rem.getD b 0 ∧ (getP ps i).arrival < (getP ps b).arrival)
            ∨ (rem.getD i 0 = rem.getD b 0 ∧ (getP ps i).pid < (getP ps b).pid) then
          srtfPickAux ps rem done time is (some i)
        else
          srtfPickAux ps rem done time is (some b)
    else
      srtfPickAux ps rem done time is best

def srtfPick (ps : List Process) (rem : List ℚ) (done : List Bool) (time : ℚ) :
    Option ℕ :=
  srtfPickAux ps rem done time (List.range ps.length) none

/-- One iteration of the SRTF loop body (src/script.js lines 160-202). -/
def srtfBody (ps : List Process) (st : SrtfState) : SrtfState :=
  match srtfPick ps st.rem st.done st.time with
  | none =>
    if st.lastPID = some "IDLE" then
      { st with time := st.time + 1 }
    else
      { st with
        blocks := match st.lastPID with
          | some s => st.blocks ++ [⟨s, st.blockStart, st.time⟩]
          | none => st.blocks,
        lastPID := some "IDLE", blockStart := st.time, time := st.time + 1 }
  | some best =>
    let p := getP ps best
    let started1 := if st.started.getD best false then st.started
      else st.started.set best true
    let res1 := if st.started.getD best false then st.res
      else mapSet st.res p.pid
        ⟨st.time, 0, 0, 0, st.time - p.arrival, p.arrival, p.burst, p.priority⟩
    let pushed := if st.lastPID = some p.pid then st.blocks
      else match st.lastPID with
        | some s => st.blocks ++ [⟨s, st.blockStart, st.time⟩]
        | none => st.blocks
    let bstart := if st.lastPID = some p.pid then st.blockStart else st.time
    let rem1 := st.rem.set best (st.rem.getD best 0 - 1)
    let time1 := st.time + 1
    if rem1.getD best 0 = 0 then
      let res2 := match mapGet res1 p.pid with
        | some r => mapSet res1 p.pid
            { r with completion := time1, tat := time1 - p.arrival,
                     wt := time1 - p.arrival - p.burst }
        | none => res1   -- unreachable: the entry was inserted at first dispatch
      { time := time1, rem := rem1, started := started1, lastPID := some p.pid,
        blockStart := bstart, done := st.done.set best true, blocks := pushed,
        res := res2 }
    else
      { time := time1, rem := rem1, started := started1, lastPID := some p.pid,
        blockStart := bstart, done := st.done, blocks := pushed, res := res1 }

/-- The fuel-indexed `while(done.size < n)` loop (src/script.js line 159). -/
def srtfLoop (ps : List Process) : ℕ → SrtfState → Option SrtfState
  | 0, _ => none
  | fuel + 1, st =>
    if st.done.count true < ps.length then srtfLoop ps fuel (srtfBody ps st)
    else some st

def srtfInit (ps : List Process) : SrtfState :=
  ⟨minArrival ps, ps.map (·.burst), List.replicate ps.length false, none,
    minArrival ps, List.replicate ps.length false, [], []⟩

/-- The epilogue (src/script.js lines 204-208): push the open block and drop
zero-length blocks. -/
def srtfFinish (st : SrtfState) : SimResult :=
  let blocks : List Block := match st.lastPID with
    | some s => st.blocks ++ [⟨s, st.blockStart, st.time⟩]
    | none => st.blocks
  ⟨blocks.filter (fun b => decide (b.start < b.stop)), st.res, st.time⟩

/-- `srtf(processes)` (src/script.js lines 152-209). -/
def srtf (ps : List Process) (fuel : ℕ) : Option SimResult :=
  (srtfLoop ps fuel (srtfInit ps)).map srtfFinish

/-! ## Round Robin (src/script.js lines 238-272) -/

structure RRState where
  time : ℚ
  rem : List ℚ
  firstStart : List (Option ℚ)
  queue : List ℕ
  arrived : List Bool
  blocks : List Block
  res : List (String × PResult)
deriving Repr, DecidableEq

/-- The Round-Robin admission sweep (src/script.js lines 245, 254 and 265):
all indices not yet `arrived` with arrival `≤ time`, in index order. -/
def rrAdmit (ps : List Process) (time : ℚ) (arrived : List Bool) : List ℕ :=
  (List.range ps.length).filter
    (fun k => !(arrived.getD k false) && decide ((getP ps k).arrival ≤ time))

/-- Mark a list of indices as arrived. -/
def setTrues (arrived : List Bool) (l : List ℕ) : List Bool :=
  l.foldl (fun a k => a.set k true) arrived

/-- One iteration of the Round-Robin loop body (src/script.js lines 248-269).
`none` is the `break` at line 250. -/
def rrBody (ps : List Process) (q : JSNum) (st : RRState) : Option RRState :=
  match st.queue with
  | [] =>
    match (List.range ps.length).find? (fun i => !(st.arrived.getD i false)) with
    | none => none
    | some nextIdx =>
      let nextTime := (getP ps nextIdx).arrival
      let admitted := rrAdmit ps nextTime st.arrived
      some { st with time := nextTime,
                     blocks := st.blocks ++ [⟨"IDLE", st.time, nextTime⟩],
                     queue := st.queue ++ admitted,
                     arrived := setTrues st.arrived admitted }
  | i :: rest =>
    let p := getP ps i
    let fs1 := if (st.firstStart.getD i none).isSome then st.firstStart
      else st.firstStart.set i (some st.time)
    let res1 := if (st.firstStart.getD i none).isSome then st.res
      else mapSet st.res p.pid
        ⟨st.time, 0, 0, 0, st.time - p.arrival, p.arrival, p.burst, p.priority⟩
    let run := q.minWith (st.rem.getD i 0)
    let stop := st.time + run
    let rem1 := st.rem.set i (st.rem.getD i 0 - run)
    let admitted := rrAdmit ps stop st.arrived
    let queue1 := rest ++ admitted
    let arrived1 := setTrues st.arrived admitted
    if 0 < rem1.getD i 0 then
      some { time := stop, rem := rem1, firstStart := fs1, queue := queue1 ++ [i],
             arrived := arrived1, blocks := st.blocks ++ [⟨p.pid, st.time, stop⟩],
             res := res1 }
    else
      let res2 := match mapGet res1 p.pid with
        | some r => mapSet res1 p.pid
            { r with completion := stop, tat := stop - p.arrival,
                     wt := stop - p.arrival - p.burst }
        | none => res1   -- unreachable: the entry was inserted at first dispatch
      some { time := stop, rem := rem1, firstStart := fs1, queue := queue1,
             arrived := arrived1, blocks := st.blocks ++ [⟨p.pid, st.time, stop⟩],
             res := res2 }

/-- The fuel-indexed `while(queue.length>0 || arrived.size < n)` loop
(src/script.js line 247). -/
def rrLoop (ps : List Process) (q : JSNum) : ℕ → RRState → Option SimResult
  | 0, _ => none
  | fuel + 1, st =>
    if 0 < st.queue.length ∨ st.arrived.count true < ps.length then
      match rrBody ps q st with
      | some st' => rrLoop ps q fuel st'
      | none => some ⟨st.blocks, st.res, st.time⟩
    else some ⟨st.blocks, st.res, st.time⟩

/-- Initial state (src/script.js lines 240-246). -/
def rrInit (ps : List Process) : RRState :=
  let time := minArrival ps
  let initQ := rrAdmit ps time (List.replicate ps.length false)
  ⟨time, ps.map (·.burst), List.replicate ps.length none, initQ,
    setTrues (List.replicate ps.length false) initQ, [], []⟩

/-- `roundRobin(processes, q)` (src/script.js lines 238-272), including the
quantum guard `if(!(q>0)) throw ...` at line 239. -/
def roundRobin (ps : List Process) (q : JSNum) (fuel : ℕ) :
    Except String (Option SimResult) :=
  if q.gtZero then .ok (rrLoop ps q fuel (rrInit ps))
  else .error "Quantum must be a positive number for Round Robin"

/-! ## Caller-side validation (`readProcesses`, src/script.js lines 13-32)

The DOM extraction is abstracted into a list of raw rows; the validation and
the final sort are embedded faithfully.  Raw numeric fields are `JSNum`
(`Number(...)` of a text field can be `NaN` or `±Infinity`). -/

structure RawRow where
  pid : String
  atN : JSNum
  btN : JSNum
  prN : JSNum
deriving Repr, DecidableEq

/-- The sort comparator of `readProcesses` (src/script.js line 31):
`a.arrival - b.arrival || a.pid.localeCompare(b.pid)`. -/
def procLe (a b : Process) : Prop :=
  a.arrival < b.arrival ∨ (a.arrival = b.arrival ∧ a.pid ≤ b.pid)

instance : DecidableRel procLe := fun _ _ => by unfold procLe; infer_instance

/-- The row loop of `readProcesses` (src/script.js lines 17-30): fail on the
first invalid row, otherwise collect the process records in row order. -/
def readProcessesGo : List RawRow → List String → Except String (List Process)
  | [], _ => .ok []
  | r :: rest, seen =>
    if r.pid = "" then .error "PID missing in one of the rows."
    else if seen.contains r.pid then .error ("Duplicate PID: " ++ r.pid)
    else if !(r.atN.isFiniteNum && decide (0 ≤ r.atN.toQ)) then
      .error ("Invalid arrival for " ++ r.pid)
    else if !(r.btN.isFiniteNum && decide (0 < r.btN.toQ)) then
      .error ("Invalid burst for " ++ r.pid)
    else if !r.prN.isFiniteNum then .error ("Invalid priority for " ++ r.pid)
    else
      match readProcessesGo rest (seen ++ [r.pid]) with
      | .ok ps => .ok (⟨r.pid, r.atN.toQ, r.btN.toQ, r.prN.toQ⟩ :: ps)
      | .error e => .error e

/-- `readProcesses()` (src/script.js lines 13-32) up to DOM access: validate
row by row, then sort by arrival, tie-broken by pid (a stable sort under a
comparator that is a total order once pids are unique). -/
def readProcesses (rows : List RawRow) : Except String (List Process) :=
  (readProcessesGo rows []).map (fun ps => List.insertionSort procLe ps)

/-- The validity assumption of the claims (spec sections 3, 4.1, 6): nonempty
input, unique nonempty pids distinct from the reserved `IDLE` marker,
arrivals `≥ 0`, bursts `> 0`. -/
def ValidInput (ps : List Process) : Prop :=
  ps ≠ [] ∧ (ps.map (·.pid)).Nodup ∧
    ∀ p ∈ ps, 0 ≤ p.arrival ∧ 0 < p.burst ∧ p.pid ≠ "IDLE" ∧ p.pid ≠ ""

instance (ps : List Process) : Decidable (ValidInput ps) := by
  unfold ValidInput; infer_instance

/-! ## Per-pid accounting over blocks (spec section 8, "Conservation") -/

/-- Total length of the blocks carrying pid `s`. -/
def sumLenFor (s : String) (bs : List Block) : ℚ :=
  ((bs.filter (fun b => decide (b.pid = s))).map (fun b => b.stop - b.start)).sum

/-- Number of blocks carrying pid `s`. -/
def countFor (s : String) (bs : List Block) : ℕ :=
  (bs.filter (fun b => decide (b.pid = s))).length

/-- Total burst of the processes with pid `s`. -/
def burstsFor (s : String) (ps : List Process) : ℚ :=
  ((ps.filter (fun p => decide (p.pid = s))).map (·.burst)).sum

/-- Loop invariant for `npLoop`: the accumulated blocks tile
`[min(arrival), time)`, the bookkeeping sets are well-formed, and the blocks
so far account exactly for the bursts of the dispatched processes
(`used \ ready`). -/
structure NPInv (ps : List Process) (st : NPState) : Prop where
  chain : chainFrom (minArrival ps) st.blocks st.time
  ready_sub : ∀ i ∈ st.ready, i ∈ st.used
  used_lt : ∀ i ∈ st.used, i < ps.length
  used_nd : st.used.Nodup
  ready_nd : st.ready.Nodup
  card : st.completed + st.ready.length = st.used.length
  sums : ∀ i, i < ps.length → sumLenFor (getP ps i).pid st.blocks =
    (if i ∈ st.used ∧ i ∉ st.ready then (getP ps i).burst else 0)
  counts : ∀ i, i < ps.length → countFor (getP ps i).pid st.blocks =
    (if i ∈ st.used ∧ i ∉ st.ready then 1 else 0)

/-- Termination measure for the non-preemptive loop: two units per pending
process plus one unit when an idle jump is needed first. -/
def npMeasure (ps : List Process) (st : NPState) : ℕ :=
  2 * (ps.length - st.completed) +
    (if st.ready ++ npAdmit ps st.time st.used = [] then 1 else 0)

/-- Loop invariant for `srtfLoop` driving tiling and conservation: the pushed
blocks tile `[min(arrival), blockStart)` and the open block `[blockStart,
time)` belongs to `lastPID`; blocks pushed so far, the open block and the
remaining burst account exactly for each process's burst. -/
structure SrtfInv (ps : List Process) (st : SrtfState) : Prop where
  remlen : st.rem.length = ps.length
  donelen : st.done.length = ps.length
  chain : (st.lastPID = none ∧ st.blocks = [] ∧ st.blockStart = st.time ∧
            st.time = minArrival ps)
          ∨ (∃ s, st.lastPID = some s ∧
              chainFrom (minArrival ps) st.blocks st.blockStart ∧
              st.blockStart < st.time)
  sums : ∀ i, i < ps.length →
    sumLenFor (getP ps i).pid st.blocks
      + (if st.lastPID = some (getP ps i).pid then st.time - st.blockStart else 0)
      + st.rem.getD i 0 = (getP ps i).burst
  done_rem : ∀ i, i < ps.length → st.done.getD i false = true → st.rem.getD i 0 = 0

/-! ## SRTF: termination for integer bursts, divergence otherwise -/

/-- Sum of the remaining bursts. -/
def sumRem (ps : List Process) (st : SrtfState) : ℚ :=
  ∑ i ∈ Finset.range ps.length, st.rem.getD i 0

/-- Termination measure for SRTF over integer bursts: ticks until the last
arrival plus the total remaining work; both decrease tick by tick. -/
def srtfMeasure (ps : List Process) (st : SrtfState) : ℕ :=
  (⌈maxArrival ps - st.time⌉).toNat + (⌈sumRem ps st⌉).toNat

/-- The state properties that make the SRTF tick loop terminate: every
remaining burst is a natural number, positive while the process is not
done. -/
structure SrtfNat (ps : List Process) (st : SrtfState) : Prop where
  remlen : st.rem.length = ps.length
  donelen : st.done.length = ps.length
  natRem : ∀ i, i < ps.length → ∃ k : ℕ, st.rem.getD i 0 = (k : ℚ)
  posRem : ∀ i, i < ps.length → st.done.getD i false = false → 1 ≤ st.rem.getD i 0

/-! ## SRTF: what the tie-break actually computes on sorted input -/

/-- The order the selection scan minimises on input sorted by (arrival, pid):
remaining burst, ties broken by pid alone. -/
def remLex (ps : List Process) (rem : List ℚ) (c x : ℕ) : Prop :=
  rem.getD c 0 < rem.getD x 0 ∨
    (rem.getD c 0 = rem.getD x 0 ∧ (getP ps c).pid ≤ (getP ps x).pid)

/-! ## Round Robin: invariants -/

/-- Loop invariant of the Round-Robin loop: tiling, queue bookkeeping,
conservation (`sums`) and finalisation of completed processes (`fin`). -/
structure RRInv (ps : List Process) (st : RRState) : Prop where
  remlen : st.rem.length = ps.length
  arrlen : st.arrived.length = ps.length
  fslen : st.firstStart.length = ps.length
  chain : chainFrom (minArrival ps) st.blocks st.time
  queue_lt : ∀ i ∈ st.queue, i < ps.length
  queue_nd : st.queue.Nodup
  queue_arr : ∀ i ∈ st.queue, st.arrived.getD i false = true
  queue_pos : ∀ i ∈ st.queue, 0 < st.rem.getD i 0
  unarr : ∀ i, i < ps.length → st.arrived.getD i false = false →
    st.rem.getD i 0 = (getP ps i).burst ∧ st.time < (getP ps i).arrival
  sums : ∀ i, i < ps.length →
    sumLenFor (getP ps i).pid st.blocks + st.rem.getD i 0 = (getP ps i).burst
  fin : ∀ i, i < ps.length → st.arrived.getD i false = true → i ∉ st.queue →
    st.rem.getD i 0 = 0 ∧ (mapGet st.res (getP ps i).pid).isSome = true
  fs_res : ∀ i, i < ps.length → (st.firstStart.getD i none).isSome = true →
    (mapGet st.res (getP ps i).pid).isSome = true

/-! ## Round Robin: termination -/

/-- Number of dispatches a process with remaining burst `r` still needs under
quantum `q`. -/
def rrPhi (q : JSNum) (r : ℚ) : ℕ :=
  if r ≤ 0 then 0
  else match q with
    | .num qq => (⌈r / qq⌉).toNat
    | .posInf => 1
    | .nan => 0
    | .negInf => 0

/-- Termination measure for the Round-Robin loop: every dispatch removes one
pending dispatch; every idle jump admits a process. -/
def rrMeasure (ps : List Process) (q : JSNum) (st : RRState) : ℕ :=
  (∑ i ∈ Finset.range ps.length, rrPhi q (st.rem.getD i 0)) * (ps.length + 1) +
    (ps.length - st.arrived.count true)

/-- Strict version of `procLe`, antisymmetric outright. -/
def procLt (a b : Process) : Prop :=
  a.arrival < b.arrival ∨ (a.arrival = b.arrival ∧ a.pid < b.pid)

instance : IsTotal Process procLe := by
  constructor
  intro a b
  rcases lt_trichotomy a.arrival b.arrival with h | h | h
  · exact Or.inl (Or.inl h)
  · rcases le_total a.pid b.pid with hp | hp
    · exact Or.inl (Or.inr ⟨h, hp⟩)
    · exact Or.inr (Or.inr ⟨h.symm, hp⟩)
  · exact Or.inr (Or.inl h)

instance : IsTrans Process procLe := by
  constructor
  intro a b c hab hbc
  rcases hab with h1 | ⟨e1, p1⟩ <;> rcases hbc with h2 | ⟨e2, p2⟩
  · exact Or.inl (lt_trans h1 h2)
  · exact Or.inl (e2 ▸ h1)
  · exact Or.inl (e1 ▸ h2)
  · exact Or.inr ⟨e1.trans e2, le_trans p1 p2⟩

instance : IsAntisymm Process procLt := by
  constructor
  intro a b hab hba
  exfalso
  rcases hab with h1 | ⟨e1, p1⟩ <;> rcases hba with h2 | ⟨e2, p2⟩
  · exact absurd h2 (not_lt.mpr (le_of_lt h1))
  · rw [e2] at h1; exact lt_irrefl _ h1
  · rw [e1] at h2; exact lt_irrefl _ h2
  · exact absurd p2 (not_lt.mpr (le_of_lt p1))

/-! ## Theorems -/

theorem chainFrom_append_one {t0 t1 : ℚ} {bs : List Block}
    (h : chainFrom t0 bs t1) {t2 : ℚ} (ht : t1 < t2) (s : String) :
    chainFrom t0 (bs ++ [⟨s, t1, t2⟩]) t2 := by
  induction bs generalizing t0 with
  | nil =>
      have h' : t0 = t1 := h
      subst h'
      exact ⟨rfl, ht, rfl⟩
  | cons b bs ih =>
      obtain ⟨h1, h2, h3⟩ := h
      exact ⟨h1, h2, ih h3⟩

theorem chainFrom_pos {t0 t1 : ℚ} {bs : List Block}
    (h : chainFrom t0 bs t1) : ∀ b ∈ bs, b.start < b.stop := by
  induction bs generalizing t0 with
  | nil => simp
  | cons b bs ih =>
      obtain ⟨h1, h2, h3⟩ := h
      intro c hc
      rcases List.mem_cons.mp hc with rfl | hc
      · simpa [h1] using h2
      · exact ih h3 _ hc

theorem chainFrom_mono {t0 t1 : ℚ} {bs : List Block}
    (h : chainFrom t0 bs t1) : t0 ≤ t1 := by
  induction bs generalizing t0 with
  | nil => exact le_of_eq h
  | cons b bs ih =>
      obtain ⟨_, h2, h3⟩ := h
      exact le_trans (le_of_lt h2) (ih h3)

/-! ## Generic list helpers -/

theorem getD_set_self {α : Type} {l : List α} {i : ℕ} (h : i < l.length) (v d : α) :
    (l.set i v).getD i d = v := by
  simp [List.getD_eq_getElem?_getD, List.getElem?_set_self, h]

theorem getD_set_ne {α : Type} {l : List α} {i j : ℕ} (h : i ≠ j) (v d : α) :
    (l.set i v).getD j d = l.getD j d := by
  simp [List.getD_eq_getElem?_getD, List.getElem?_set_ne, h]

theorem exists_false_of_count_lt {l : List Bool} (h : l.count true < l.length) :
    ∃ i, i < l.length ∧ l.getD i false = false := by
  induction l with
  | nil => simp at h
  | cons b t ih =>
      cases b with
      | false => exact ⟨0, by simp⟩
      | true =>
          have h' : t.count true < t.length := by simpa using h
          obtain ⟨i, hi, hv⟩ := ih h'
          exact ⟨i + 1, by simpa using hi, by simpa using hv⟩

theorem count_true_set_true {l : List Bool} {i : ℕ} (h : i < l.length) :
    (l.set i true).count true =
      l.count true + (if l.getD i false then 0 else 1) := by
  induction l generalizing i with
  | nil => simp at h
  | cons b t ih =>
      cases i with
      | zero => cases b <;> simp [List.count_cons]
      | succ i =>
          have h' : i < t.length := by simpa using h
          cases b <;> simp [List.count_cons, ih h', List.getD_cons_succ] <;> ring

theorem all_true_of_count_eq {l : List Bool} (h : l.count true = l.length) :
    ∀ i, i < l.length → l.getD i false = true := by
  induction l with
  | nil => simp
  | cons b t ih =>
      cases b with
      | false =>
          exfalso
          have := List.count_le_length (l := t) (a := true)
          simp [List.count_cons] at h
          omega
      | true =>
          have h' : t.count true = t.length := by simpa using h
          intro i hi
          cases i with
          | zero => simp
          | succ i => simpa using ih h' i (by simpa using hi)

theorem count_true_le_length (l : List Bool) : l.count true ≤ l.length :=
  List.count_le_length _ _

theorem foldl_min_le_init (xs : List Process) (a : ℚ) :
    xs.foldl (fun acc x => min acc x.arrival) a ≤ a := by
  induction xs generalizing a with
  | nil => simp
  | cons x t ih => exact le_trans (ih (min a x.arrival)) (min_le_left _ _)

theorem foldl_min_le_mem {xs : List Process} {x : Process} (hx : x ∈ xs) (a : ℚ) :
    xs.foldl (fun acc y => min acc y.arrival) a ≤ x.arrival := by
  induction xs generalizing a with
  | nil => simp at hx
  | cons y t ih =>
      rcases List.mem_cons.mp hx with rfl | hx
      · exact le_trans (foldl_min_le_init t _) (min_le_right _ _)
      · exact ih hx _

theorem minArrival_le {ps : List Process} {p : Process} (hp : p ∈ ps) :
    minArrival ps ≤ p.arrival := by
  cases ps with
  | nil => simp at hp
  | cons q rest =>
      rcases List.mem_cons.mp hp with rfl | hp
      · exact foldl_min_le_init rest _
      · exact foldl_min_le_mem hp _

theorem init_le_foldl_max (xs : List Process) (a : ℚ) :
    a ≤ xs.foldl (fun acc x => max acc x.arrival) a := by
  induction xs generalizing a with
  | nil => simp
  | cons x t ih => exact le_trans (le_max_left _ _) (ih (max a x.arrival))

theorem mem_le_foldl_max {xs : List Process} {x : Process} (hx : x ∈ xs) (a : ℚ) :
    x.arrival ≤ xs.foldl (fun acc y => max acc y.arrival) a := by
  induction xs generalizing a with
  | nil => simp at hx
  | cons y t ih =>
      rcases List.mem_cons.mp hx with rfl | hx
      · exact le_trans (le_max_right _ _) (init_le_foldl_max t _)
      · exact ih hx _

theorem le_maxArrival {ps : List Process} {p : Process} (hp : p ∈ ps) :
    p.arrival ≤ maxArrival ps := by
  cases ps with
  | nil => simp at hp
  | cons q rest =>
      rcases List.mem_cons.mp hp with rfl | hp
      · exact init_le_foldl_max rest _
      · exact mem_le_foldl_max hp _

theorem sumLenFor_append (s : String) (bs cs : List Block) :
    sumLenFor s (bs ++ cs) = sumLenFor s bs + sumLenFor s cs := by
  simp [sumLenFor, List.filter_append]

theorem sumLenFor_one (s : String) (b : Block) :
    sumLenFor s [b] = if b.pid = s then b.stop - b.start else 0 := by
  by_cases h : b.pid = s <;> simp [sumLenFor, h]

theorem sumLenFor_nil (s : String) : sumLenFor s [] = 0 := rfl

theorem sumLenFor_cons (s : String) (b : Block) (bs : List Block) :
    sumLenFor s (b :: bs) =
      (if b.pid = s then b.stop - b.start else 0) + sumLenFor s bs := by
  by_cases h : b.pid = s <;> simp [sumLenFor, List.filter_cons, h]

theorem countFor_append (s : String) (bs cs : List Block) :
    countFor s (bs ++ cs) = countFor s bs + countFor s cs := by
  simp [countFor, List.filter_append]

theorem countFor_one (s : String) (b : Block) :
    countFor s [b] = if b.pid = s then 1 else 0 := by
  by_cases h : b.pid = s <;> simp [countFor, h]

theorem countFor_nil (s : String) : countFor s [] = 0 := rfl

theorem sumLenFor_one_mk (s pid : String) (a b : ℚ) :
    sumLenFor s [⟨pid, a, b⟩] = if pid = s then b - a else 0 := by
  by_cases h : pid = s <;> simp [sumLenFor, h]

theorem countFor_cons (s : String) (b : Block) (bs : List Block) :
    countFor s (b :: bs) = (if b.pid = s then 1 else 0) + countFor s bs := by
  by_cases h : b.pid = s <;> simp [countFor, List.filter_cons, h] <;> omega

theorem filter_pid_eq_single {ps : List Process} (hnd : (ps.map (·.pid)).Nodup)
    {p : Process} (hp : p ∈ ps) :
    ps.filter (fun q => decide (q.pid = p.pid)) = [p] := by
  induction ps with
  | nil => simp at hp
  | cons q rest ih =>
      have hnd' : (rest.map (·.pid)).Nodup := (List.nodup_cons.mp hnd).2
      have hqn : q.pid ∉ rest.map (·.pid) := (List.nodup_cons.mp hnd).1
      rcases List.mem_cons.mp hp with rfl | hp
      · have hrest : rest.filter (fun r => decide (r.pid = p.pid)) = [] := by
          apply List.filter_eq_nil_iff.mpr
          intro r hr
          simp only [decide_eq_true_eq]
          intro hcontra
          exact hqn (by simpa [hcontra] using List.mem_map_of_mem (·.pid) hr)
        simp [List.filter_cons, hrest]
      · have hq : ¬(q.pid = p.pid) := by
          intro hcontra
          exact hqn (by simpa [hcontra] using List.mem_map_of_mem (·.pid) hp)
        simp [List.filter_cons, hq, ih hnd' hp]

theorem burstsFor_eq_burst {ps : List Process} (hnd : (ps.map (·.pid)).Nodup)
    {p : Process} (hp : p ∈ ps) : burstsFor p.pid ps = p.burst := by
  simp [burstsFor, filter_pid_eq_single hnd hp]

/-! ## FCFS: tiling and conservation -/

theorem fcfsLoop_blocks_chain (ps : List Process) (hb : ∀ p ∈ ps, 0 < p.burst) :
    ∀ (blocks : List Block) (res : List (String × PResult)) (time t0 : ℚ),
      chainFrom t0 blocks time →
      chainFrom t0 (fcfsLoop ps blocks res time).blocks
        (fcfsLoop ps blocks res time).endTime := by
  induction ps with
  | nil => intro blocks res time t0 h; simpa [fcfsLoop] using h
  | cons p rest ih =>
      intro blocks res time t0 hch
      have hbp : 0 < p.burst := hb p (List.mem_cons_self _ _)
      have hb' : ∀ q ∈ rest, 0 < q.burst := fun q hq => hb q (List.mem_cons_of_mem _ hq)
      simp only [fcfsLoop]
      by_cases hlt : time < p.arrival
      · simp only [if_pos hlt]
        apply ih hb'
        have h1 := chainFrom_append_one hch hlt "IDLE"
        have h2 := chainFrom_append_one h1
          (show p.arrival < p.arrival + p.burst by linarith) p.pid
        simpa [List.append_assoc] using h2
      · simp only [if_neg hlt]
        apply ih hb'
        exact chainFrom_append_one hch (show time < time + p.burst by linarith) p.pid

/-- C1 for FCFS: the blocks tile `[min(arrival), endTime)`. -/
theorem fcfs_chain (ps : List Process) (hb : ∀ p ∈ ps, 0 < p.burst) :
    chainFrom (minArrival ps) (fcfs ps).blocks (fcfs ps).endTime :=
  fcfsLoop_blocks_chain ps hb [] [] (minArrival ps) (minArrival ps) rfl

theorem fcfsLoop_sumLen (ps : List Process) (s : String) (hs : s ≠ "IDLE") :
    ∀ (blocks : List Block) (res : List (String × PResult)) (time : ℚ),
      sumLenFor s (fcfsLoop ps blocks res time).blocks
        = sumLenFor s blocks + burstsFor s ps := by
  induction ps with
  | nil => intro blocks res time; simp [fcfsLoop, burstsFor]
  | cons p rest ih =>
      intro blocks res time
      simp only [fcfsLoop]
      by_cases hpid : p.pid = s
      · by_cases hlt : time < p.arrival <;>
          simp [hlt, ih, sumLenFor_append, sumLenFor_one, sumLenFor_cons, sumLenFor_nil,
            hpid, Ne.symm hs, burstsFor, List.filter_cons] <;> ring
      · by_cases hlt : time < p.arrival <;>
          simp [hlt, ih, sumLenFor_append, sumLenFor_one, sumLenFor_cons, sumLenFor_nil,
            hpid, Ne.symm hs, burstsFor, List.filter_cons]

theorem fcfsLoop_countFor (ps : List Process) (s : String) (hs : s ≠ "IDLE") :
    ∀ (blocks : List Block) (res : List (String × PResult)) (time : ℚ),
      countFor s (fcfsLoop ps blocks res time).blocks
        = countFor s blocks + (ps.filter (fun p => decide (p.pid = s))).length := by
  induction ps with
  | nil => intro blocks res time; simp [fcfsLoop]
  | cons p rest ih =>
      intro blocks res time
      simp only [fcfsLoop]
      by_cases hpid : p.pid = s
      · by_cases hlt : time < p.arrival <;>
          simp [hlt, ih, countFor_append, countFor_one, countFor_cons, countFor_nil,
            hpid, Ne.symm hs, List.filter_cons] <;> ring
      · by_cases hlt : time < p.arrival <;>
          simp [hlt, ih, countFor_append, countFor_one, countFor_cons, countFor_nil,
            hpid, Ne.symm hs, List.filter_cons]

/-- C6 for FCFS: per-pid conservation and a single block per pid. -/
theorem fcfs_conservation (ps : List Process) (hnd : (ps.map (·.pid)).Nodup)
    (hidle : ∀ p ∈ ps, p.pid ≠ "IDLE") :
    ∀ p ∈ ps, sumLenFor p.pid (fcfs ps).blocks = p.burst ∧
      countFor p.pid (fcfs ps).blocks = 1 := by
  intro p hp
  have hs := hidle p hp
  constructor
  · rw [fcfs, fcfsLoop_sumLen ps p.pid hs, burstsFor_eq_burst hnd hp]
    simp [sumLenFor]
  · rw [fcfs, fcfsLoop_countFor ps p.pid hs, filter_pid_eq_single hnd hp]
    simp [countFor]

/-! ## The non-preemptive loop: invariants, conservation, termination -/

theorem getP_eq_getElem {ps : List Process} {i : ℕ} (h : i < ps.length) :
    getP ps i = ps[i] := by
  simp [getP, List.getD_eq_getElem?_getD, List.getElem?_eq_getElem h]

theorem getP_mem {ps : List Process} {i : ℕ} (h : i < ps.length) : getP ps i ∈ ps := by
  rw [getP_eq_getElem h]; exact List.getElem_mem h

theorem pid_ne_of_ne {ps : List Process} (hnd : (ps.map (·.pid)).Nodup) {i j : ℕ}
    (hi : i < ps.length) (hj : j < ps.length) (hne : i ≠ j) :
    (getP ps i).pid ≠ (getP ps j).pid := by
  rw [getP_eq_getElem hi, getP_eq_getElem hj]
  intro hcontra
  apply hne
  have hi' : i < (ps.map (·.pid)).length := by simpa using hi
  have hj' : j < (ps.map (·.pid)).length := by simpa using hj
  have : (ps.map (·.pid))[i] = (ps.map (·.pid))[j] := by
    simpa using hcontra
  exact (List.Nodup.getElem_inj_iff hnd).mp this

theorem npAdmit_mem {ps : List Process} {time : ℚ} {used : List ℕ} {i : ℕ} :
    i ∈ npAdmit ps time used ↔
      i < ps.length ∧ i ∉ used ∧ (getP ps i).arrival ≤ time := by
  simp [npAdmit, List.mem_filter, List.elem_iff, and_comm, and_assoc, and_left_comm]

theorem npAdmit_nodup (ps : List Process) (time : ℚ) (used : List ℕ) :
    (npAdmit ps time used).Nodup :=
  List.Nodup.filter _ (List.nodup_range _)

/-- The `min?` characterisation over `ℚ`. -/
theorem min?_spec {l : List ℚ} {a : ℚ} (h : l.min? = some a) :
    a ∈ l ∧ ∀ b ∈ l, a ≤ b := by
  refine ⟨List.min?_mem (fun x y => min_choice x y) h, fun b hb => ?_⟩
  exact (List.le_min?_iff (fun x y z => le_min_iff) h).mp le_rfl b hb

theorem npInv_init (ps : List Process) : NPInv ps (npInit ps) := by
  refine ⟨rfl, by simp [npInit], by simp [npInit], by simp [npInit],
    by simp [npInit], by simp [npInit], ?_, ?_⟩ <;>
    · intro i hi
      simp [npInit, sumLenFor, countFor]

theorem npInv_exit {ps : List Process} {st : NPState} (hinv : NPInv ps st)
    (hc : ps.length ≤ st.completed) :
    ∀ p ∈ ps, sumLenFor p.pid st.blocks = p.burst ∧ countFor p.pid st.blocks = 1 := by
  have hsub : st.used ⊆ List.range ps.length := fun i hi =>
    List.mem_range.mpr (hinv.used_lt i hi)
  have hlen : st.used.length ≤ ps.length := by
    simpa using (List.subperm_of_subset hinv.used_nd hsub).length_le
  have hcard := hinv.card
  have hused_len : st.used.length = ps.length := by omega
  have hperm : List.Perm st.used (List.range ps.length) := by
    apply (List.subperm_of_subset hinv.used_nd hsub).perm_of_length_le
    simp [hused_len]
  have hready : st.ready = [] := by
    have : st.ready.length = 0 := by omega
    exact List.length_eq_zero.mp this
  intro p hp
  obtain ⟨i, hi, hpi⟩ := List.mem_iff_getElem.mp hp
  have hgi : getP ps i = p := by rw [getP_eq_getElem hi, hpi]
  have hiu : i ∈ st.used := hperm.mem_iff.mpr (List.mem_range.mpr hi)
  have hcond : i ∈ st.used ∧ i ∉ st.ready := by simp [hiu, hready]
  constructor
  · have := hinv.sums i hi
    rw [hgi] at this
    simpa [hcond] using this
  · have := hinv.counts i hi
    rw [hgi] at this
    simpa [hcond] using this

theorem npBody_none_false {ps : List Process} {cmp : ℕ → ℕ → Prop} [DecidableRel cmp]
    {st : NPState} (hinv : NPInv ps st) (hc : st.completed < ps.length)
    (hbody : npBody ps cmp st = none) : False := by
  rw [npBody] at hbody
  by_cases hre : (st.ready ++ npAdmit ps st.time st.used).isEmpty
  · rw [if_pos hre] at hbody
    have hre' := List.isEmpty_iff.mp hre
    have hready : st.ready = [] := by
      rcases List.append_eq_nil.mp hre' with ⟨h1, _⟩; exact h1
    have hadm : npAdmit ps st.time st.used = [] := by
      rcases List.append_eq_nil.mp hre' with ⟨_, h2⟩; exact h2
    rcases hmin : (((List.range ps.length).filter
        (fun i => !((st.used ++ npAdmit ps st.time st.used).contains i))).map
        (fun i => (getP ps i).arrival)).min? with _ | next
    · -- break: every index is already in `used`, contradicting `completed < n`
      have hfil : ((List.range ps.length).filter
          (fun i => !((st.used ++ npAdmit ps st.time st.used).contains i))) = [] := by
        have := List.min?_eq_none_iff.mp hmin
        simpa using this
      have hall : ∀ i, i < ps.length → i ∈ st.used := by
        intro i hi
        by_contra hiu
        have : i ∈ ((List.range ps.length).filter
            (fun i => !((st.used ++ npAdmit ps st.time st.used).contains i))) := by
          simp [List.mem_filter, List.mem_range, hi, List.elem_iff, hadm, hiu]
        rw [hfil] at this
        simp at this
      have hsub : List.range ps.length ⊆ st.used := fun i hi =>
        hall i (List.mem_range.mp hi)
      have : ps.length ≤ st.used.length := by
        simpa using (List.subperm_of_subset (List.nodup_range _) hsub).length_le
      have hcard := hinv.card
      have hready0 : st.ready.length = 0 := by rw [hready]; rfl
      omega
    · rw [hmin] at hbody
      simp at hbody
  · rw [if_neg hre] at hbody
    rcases hsorted : List.insertionSort cmp (st.ready ++ npAdmit ps st.time st.used)
      with _ | ⟨idx, rest⟩
    · have hperm := List.perm_insertionSort cmp (st.ready ++ npAdmit ps st.time st.used)
      rw [hsorted] at hperm
      have := hperm.symm.length_eq
      simp at this
      rw [List.isEmpty_iff] at hre
      exact hre (List.append_eq_nil.mp (List.length_eq_zero.mp (by simpa using this))
        |>.1 ▸ (by
          rcases List.append_eq_nil.mp (List.length_eq_zero.mp (by simpa using this)) with ⟨h1, h2⟩
          rw [h1, h2]
          rfl))
    · rw [hsorted] at hbody
      simp at hbody

/-- Preservation of the invariant by one loop iteration. -/
theorem npBody_some_inv {ps : List Process} {cmp : ℕ → ℕ → Prop} [DecidableRel cmp]
    (hb : ∀ p ∈ ps, 0 < p.burst) (hnd : (ps.map (·.pid)).Nodup)
    (hidle : ∀ p ∈ ps, p.pid ≠ "IDLE")
    {st st' : NPState} (hinv : NPInv ps st)
    (hbody : npBody ps cmp st = some st') : NPInv ps st' := by
  rw [npBody] at hbody
  by_cases hre : (st.ready ++ npAdmit ps st.time st.used).isEmpty
  · -- idle jump
    rw [if_pos hre] at hbody
    have hre' := List.isEmpty_iff.mp hre
    obtain ⟨hready, hadm⟩ := List.append_eq_nil.mp hre'
    rcases hmin : (((List.range ps.length).filter
        (fun i => !((st.used ++ npAdmit ps st.time st.used).contains i))).map
        (fun i => (getP ps i).arrival)).min? with _ | next
    · rw [hmin] at hbody; simp at hbody
    · rw [hmin] at hbody
      simp only [Option.some.injEq] at hbody
      subst hbody
      obtain ⟨hmem, _⟩ := min?_spec hmin
      obtain ⟨i, hif, hie⟩ := List.mem_map.mp hmem
      have hif' := List.mem_filter.mp hif
      have hi : i < ps.length := List.mem_range.mp hif'.1
      have hiu : i ∉ st.used := by
        have := hif'.2
        simp [List.elem_iff, hadm] at this
        exact this
      have harr : st.time < (getP ps i).arrival := by
        by_contra hle
        push_neg at hle
        have : i ∈ npAdmit ps st.time st.used := npAdmit_mem.mpr ⟨hi, hiu, hle⟩
        rw [hadm] at this
        simp at this
      have htlt : st.time < next := by rw [← hie]; exact harr
      refine ⟨?_, ?_, ?_, ?_, ?_, ?_, ?_, ?_⟩
      · exact chainFrom_append_one hinv.chain htlt "IDLE"
      · simp only [hready, hadm, List.append_nil]
        exact fun j hj => (List.not_mem_nil j (hready ▸ hj)).elim
      · simpa [hadm] using hinv.used_lt
      · simpa [hadm] using hinv.used_nd
      · simp [hready, hadm]
      · simpa [hready, hadm] using hinv.card
      · intro j hj
        rw [sumLenFor_append, sumLenFor_one]
        have hjp : (getP ps j).pid ≠ "IDLE" := hidle _ (getP_mem hj)
        simp only [hready, hadm, List.append_nil, List.not_mem_nil]
        have := hinv.sums j hj
        simp [Ne.symm hjp, hready] at this ⊢
        exact this
      · intro j hj
        rw [countFor_append, countFor_one]
        have hjp : (getP ps j).pid ≠ "IDLE" := hidle _ (getP_mem hj)
        simp only [hready, hadm, List.append_nil, List.not_mem_nil]
        have := hinv.counts j hj
        simp [Ne.symm hjp, hready] at this ⊢
        exact this
  · -- dispatch
    rw [if_neg hre] at hbody
    rcases hsorted : List.insertionSort cmp (st.ready ++ npAdmit ps st.time st.used)
      with _ | ⟨idx, rest⟩
    · rw [hsorted] at hbody; simp at hbody
    · rw [hsorted] at hbody
      simp only [Option.some.injEq] at hbody
      subst hbody
      have hperm : List.Perm (idx :: rest) (st.ready ++ npAdmit ps st.time st.used) := by
        rw [← hsorted]; exact List.perm_insertionSort _ _
      have hready1_nd : (st.ready ++ npAdmit ps st.time st.used).Nodup := by
        rw [List.nodup_append]
        refine ⟨hinv.ready_nd, npAdmit_nodup _ _ _, ?_⟩
        intro a ha ha'
        exact (npAdmit_mem.mp ha').2.1 (hinv.ready_sub a ha)
      have hsorted_nd : (idx :: rest).Nodup := (hperm.nodup_iff).mpr hready1_nd
      have hidxr : idx ∉ rest := (List.nodup_cons.mp hsorted_nd).1
      have hrest_nd : rest.Nodup := (List.nodup_cons.mp hsorted_nd).2
      have hmem_iff : ∀ j, j ∈ idx :: rest ↔
          j ∈ st.ready ∨ j ∈ npAdmit ps st.time st.used := by
        intro j
        rw [hperm.mem_iff, List.mem_append]
      have hidx_mem : idx ∈ st.ready ∨ idx ∈ npAdmit ps st.time st.used :=
        (hmem_iff idx).mp (List.mem_cons_self _ _)
      have hidx_used1 : idx ∈ st.used ++ npAdmit ps st.time st.used := by
        rcases hidx_mem with h | h
        · exact List.mem_append.mpr (Or.inl (hinv.ready_sub idx h))
        · exact List.mem_append.mpr (Or.inr h)
      have hidx_lt : idx < ps.length := by
        rcases List.mem_append.mp hidx_used1 with h | h
        · exact hinv.used_lt idx h
        · exact (npAdmit_mem.mp h).1
      have hidx_burst : 0 < (getP ps idx).burst := hb _ (getP_mem hidx_lt)
      refine ⟨?_, ?_, ?_, ?_, ?_, ?_, ?_, ?_⟩
      · exact chainFrom_append_one hinv.chain
          (show st.time < st.time + (getP ps idx).burst by linarith) _
      · intro j hj
        have : j ∈ idx :: rest := List.mem_cons_of_mem _ hj
        rcases (hmem_iff j).mp this with h | h
        · exact List.mem_append.mpr (Or.inl (hinv.ready_sub j h))
        · exact List.mem_append.mpr (Or.inr h)
      · intro j hj
        rcases List.mem_append.mp hj with h | h
        · exact hinv.used_lt j h
        · exact (npAdmit_mem.mp h).1
      · rw [List.nodup_append]
        refine ⟨hinv.used_nd, npAdmit_nodup _ _ _, ?_⟩
        intro a ha ha'
        exact (npAdmit_mem.mp ha').2.1 ha
      · exact hrest_nd
      · have h1 : (idx :: rest).length =
            st.ready.length + (npAdmit ps st.time st.used).length := by
          simpa using hperm.length_eq
        have h2 := hinv.card
        simp only [List.length_cons] at h1
        simp only [NPState.completed, NPState.ready, NPState.used, List.length_append]
        omega
      · intro j hj
        rw [sumLenFor_append, sumLenFor_one]
        by_cases hji : j = idx
        · subst hji
          have hold : sumLenFor (getP ps j).pid st.blocks = 0 := by
            have := hinv.sums j hj
            rcases hidx_mem with h | h
            · simpa [h] using this
            · simpa [(npAdmit_mem.mp h).2.1] using this
          have hnew : j ∈ st.used ++ npAdmit ps st.time st.used ∧ j ∉ rest :=
            ⟨hidx_used1, hidxr⟩
          rw [hold, if_pos rfl, if_pos hnew]
          ring
        · have hpne : (getP ps idx).pid ≠ (getP ps j).pid :=
            pid_ne_of_ne hnd hidx_lt hj (fun h => hji h.symm)
          have hcond : (j ∈ st.used ++ npAdmit ps st.time st.used ∧ j ∉ rest) ↔
              (j ∈ st.used ∧ j ∉ st.ready) := by
            constructor
            · rintro ⟨hju, hjr⟩
              rcases List.mem_append.mp hju with h | h
              · refine ⟨h, fun hjready => hjr ?_⟩
                have : j ∈ idx :: rest := (hmem_iff j).mpr (Or.inl hjready)
                rcases List.mem_cons.mp this with h' | h'
                · exact absurd h' hji
                · exact h'
              · exfalso
                apply hjr
                have : j ∈ idx :: rest := (hmem_iff j).mpr (Or.inr h)
                rcases List.mem_cons.mp this with h' | h'
                · exact absurd h' hji
                · exact h'
            · rintro ⟨hju, hjr⟩
              refine ⟨List.mem_append.mpr (Or.inl hju), fun hjrest => ?_⟩
              rcases (hmem_iff j).mp (List.mem_cons_of_mem _ hjrest) with h | h
              · exact hjr h
              · exact (npAdmit_mem.mp h).2.1 hju
          rw [if_neg hpne, hinv.sums j hj]
          by_cases hcnd : j ∈ st.used ∧ j ∉ st.ready
          · rw [if_pos hcnd, if_pos (hcond.mpr hcnd)]; ring
          · rw [if_neg hcnd, if_neg (fun h => hcnd (hcond.mp h))]; ring
      · intro j hj
        rw [countFor_append, countFor_one]
        by_cases hji : j = idx
        · subst hji
          have hold : countFor (getP ps j).pid st.blocks = 0 := by
            have := hinv.counts j hj
            rcases hidx_mem with h | h
            · simpa [h] using this
            · simpa [(npAdmit_mem.mp h).2.1] using this
          have hnew : j ∈ st.used ++ npAdmit ps st.time st.used ∧ j ∉ rest :=
            ⟨hidx_used1, hidxr⟩
          rw [hold, if_pos rfl, if_pos hnew]
        · have hpne : (getP ps idx).pid ≠ (getP ps j).pid :=
            pid_ne_of_ne hnd hidx_lt hj (fun h => hji h.symm)
          have hcond : (j ∈ st.used ++ npAdmit ps st.time st.used ∧ j ∉ rest) ↔
              (j ∈ st.used ∧ j ∉ st.ready) := by
            constructor
            · rintro ⟨hju, hjr⟩
              rcases List.mem_append.mp hju with h | h
              · refine ⟨h, fun hjready => hjr ?_⟩
                have : j ∈ idx :: rest := (hmem_iff j).mpr (Or.inl hjready)
                rcases List.mem_cons.mp this with h' | h'
                · exact absurd h' hji
                · exact h'
              · exfalso
                apply hjr
                have : j ∈ idx :: rest := (hmem_iff j).mpr (Or.inr h)
                rcases List.mem_cons.mp this with h' | h'
                · exact absurd h' hji
                · exact h'
            · rintro ⟨hju, hjr⟩
              refine ⟨List.mem_append.mpr (Or.inl hju), fun hjrest => ?_⟩
              rcases (hmem_iff j).mp (List.mem_cons_of_mem _ hjrest) with h | h
              · exact hjr h
              · exact (npAdmit_mem.mp h).2.1 hju
          rw [if_neg hpne, hinv.counts j hj]
          by_cases hcnd : j ∈ st.used ∧ j ∉ st.ready
          · rw [if_pos hcnd, if_pos (hcond.mpr hcnd)]
          · rw [if_neg hcnd, if_neg (fun h => hcnd (hcond.mp h))]

/-- Whatever the non-preemptive loop returns under the invariant satisfies
tiling and conservation. -/
theorem npLoop_good (ps : List Process) (cmp : ℕ → ℕ → Prop) [DecidableRel cmp]
    (hb : ∀ p ∈ ps, 0 < p.burst) (hnd : (ps.map (·.pid)).Nodup)
    (hidle : ∀ p ∈ ps, p.pid ≠ "IDLE") :
    ∀ (fuel : ℕ) (st : NPState) (r : SimResult), NPInv ps st →
      npLoop ps cmp fuel st = some r →
      chainFrom (minArrival ps) r.blocks r.endTime ∧
        ∀ p ∈ ps, sumLenFor p.pid r.blocks = p.burst ∧ countFor p.pid r.blocks = 1 := by
  intro fuel
  induction fuel with
  | zero => intro st r _ h; simp [npLoop] at h
  | succ fuel ih =>
      intro st r hinv hr
      rw [npLoop] at hr
      by_cases hcex : st.completed < ps.length
      · rw [if_pos hcex] at hr
        rcases hbody : npBody ps cmp st with _ | st'
        · exact (npBody_none_false hinv hcex hbody).elim
        · rw [hbody] at hr
          exact ih st' r (npBody_some_inv hb hnd hidle hinv hbody) hr
      · rw [if_neg hcex] at hr
        have hr' : r = ⟨st.blocks, st.res, st.time⟩ := by
          simpa using hr.symm
        subst hr'
        exact ⟨hinv.chain, npInv_exit hinv (le_of_not_lt hcex)⟩

theorem npBody_measure {ps : List Process} {cmp : ℕ → ℕ → Prop} [DecidableRel cmp]
    {st st' : NPState} (hc : st.completed < ps.length)
    (hbody : npBody ps cmp st = some st') :
    npMeasure ps st' < npMeasure ps st := by
  rw [npBody] at hbody
  by_cases hre : (st.ready ++ npAdmit ps st.time st.used).isEmpty
  · rw [if_pos hre] at hbody
    have hre' := List.isEmpty_iff.mp hre
    obtain ⟨hready, hadm⟩ := List.append_eq_nil.mp hre'
    rcases hmin : (((List.range ps.length).filter
        (fun i => !((st.used ++ npAdmit ps st.time st.used).contains i))).map
        (fun i => (getP ps i).arrival)).min? with _ | next
    · rw [hmin] at hbody; simp at hbody
    · rw [hmin] at hbody
      simp only [Option.some.injEq] at hbody
      subst hbody
      obtain ⟨hmem, _⟩ := min?_spec hmin
      obtain ⟨i, hif, hie⟩ := List.mem_map.mp hmem
      have hif' := List.mem_filter.mp hif
      have hi : i < ps.length := List.mem_range.mp hif'.1
      have hiu : i ∉ st.used := by
        have := hif'.2
        simp [List.elem_iff, hadm] at this
        exact this
      have hinew : i ∈ npAdmit ps next st.used := by
        apply npAdmit_mem.mpr
        exact ⟨hi, hiu, le_of_eq hie⟩
      have hne : npAdmit ps next st.used ≠ [] := by
        intro hcontra
        rw [hcontra] at hinew
        simp at hinew
      unfold npMeasure
      dsimp only
      rw [hready, hadm]
      simp only [List.append_nil, List.nil_append]
      rw [if_neg hne]
      simp
  · rw [if_neg hre] at hbody
    rcases hsorted : List.insertionSort cmp (st.ready ++ npAdmit ps st.time st.used)
      with _ | ⟨idx, rest⟩
    · rw [hsorted] at hbody; simp at hbody
    · rw [hsorted] at hbody
      simp only [Option.some.injEq] at hbody
      subst hbody
      have hre2 : ¬(st.ready ++ npAdmit ps st.time st.used = []) := by
        intro hcontra
        rw [List.isEmpty_iff] at hre
        exact hre hcontra
      unfold npMeasure
      dsimp only
      rw [if_neg hre2]
      have h1 : (if (rest : List ℕ) ++
          npAdmit ps (st.time + (getP ps idx).burst)
            (st.used ++ npAdmit ps st.time st.used) = [] then 1 else 0) ≤ 1 := by
        split <;> omega
      omega

theorem npLoop_terminates (ps : List Process) (cmp : ℕ → ℕ → Prop) [DecidableRel cmp] :
    ∀ (fuel : ℕ) (st : NPState), npMeasure ps st < fuel →
      ∃ r, npLoop ps cmp fuel st = some r := by
  intro fuel
  induction fuel with
  | zero => intro st h; omega
  | succ fuel ih =>
      intro st h
      rw [npLoop]
      by_cases hcex : st.completed < ps.length
      · rw [if_pos hcex]
        rcases hbody : npBody ps cmp st with _ | st'
        · exact ⟨_, rfl⟩
        · exact ih st' (by
            have := npBody_measure hcex hbody
            omega)
      · rw [if_neg hcex]; exact ⟨_, rfl⟩

/-- Fuel sufficient for the whole non-preemptive simulation. -/
theorem np_terminates (ps : List Process) (cmp : ℕ → ℕ → Prop) [DecidableRel cmp] :
    ∃ r, npLoop ps cmp (2 * ps.length + 2) (npInit ps) = some r := by
  apply npLoop_terminates
  have : ps.length - (npInit ps).completed = ps.length := by simp [npInit]
  simp only [npMeasure, this]
  split <;> omega

/-! ## SRTF: the selection scan -/

theorem srtfPickAux_some {ps : List Process} {rem : List ℚ} {done : List Bool}
    {time : ℚ} :
    ∀ (l : List ℕ) (b : ℕ),
      ∃ c, srtfPickAux ps rem done time l (some b) = some c := by
  intro l
  induction l with
  | nil => intro b; exact ⟨b, rfl⟩
  | cons i is ih =>
      intro b
      rw [srtfPickAux]
      by_cases hcand : srtfCand ps rem done time i
      · rw [if_pos hcand]
        split
        · exact ih i
        · exact ih b
      · rw [if_neg hcand]
        exact ih b

theorem srtfPickAux_none_iff {ps : List Process} {rem : List ℚ} {done : List Bool}
    {time : ℚ} :
    ∀ (l : List ℕ),
      (srtfPickAux ps rem done time l none = none ↔
        ∀ i ∈ l, ¬ srtfCand ps rem done time i) := by
  intro l
  induction l with
  | nil => simp [srtfPickAux]
  | cons i is ih =>
      rw [srtfPickAux]
      by_cases hcand : srtfCand ps rem done time i
      · rw [if_pos hcand]
        obtain ⟨c, hc⟩ := srtfPickAux_some is i
        rw [hc]
        simp [hcand]
      · rw [if_neg hcand]
        rw [ih]
        constructor
        · intro h j hj
          rcases List.mem_cons.mp hj with rfl | hj
          · exact hcand
          · exact h j hj
        · intro h j hj
          exact h j (List.mem_cons_of_mem _ hj)

theorem srtfPickAux_mem {ps : List Process} {rem : List ℚ} {done : List Bool}
    {time : ℚ} :
    ∀ (l : List ℕ) (best : Option ℕ) (c : ℕ),
      srtfPickAux ps rem done time l best = some c →
      c ∈ l ∨ best = some c := by
  intro l
  induction l with
  | nil => intro best c h; exact Or.inr h
  | cons i is ih =>
      intro best c h
      rcases best with _ | b
      · rw [srtfPickAux] at h
        by_cases hcand : srtfCand ps rem done time i
        · rw [if_pos hcand] at h
          rcases ih _ _ h with h' | h'
          · exact Or.inl (List.mem_cons_of_mem _ h')
          · have : i = c := by simpa using h'
            exact Or.inl (by simp [this])
        · rw [if_neg hcand] at h
          rcases ih _ _ h with h' | h'
          · exact Or.inl (List.mem_cons_of_mem _ h')
          · simp at h'
      · rw [srtfPickAux] at h
        by_cases hcand : srtfCand ps rem done time i
        · rw [if_pos hcand] at h
          split at h
          · rcases ih _ _ h with h' | h'
            · exact Or.inl (List.mem_cons_of_mem _ h')
            · have : i = c := by simpa using h'
              exact Or.inl (by simp [this])
          · rcases ih _ _ h with h' | h'
            · exact Or.inl (List.mem_cons_of_mem _ h')
            · exact Or.inr h'
        · rw [if_neg hcand] at h
          rcases ih _ _ h with h' | h'
          · exact Or.inl (List.mem_cons_of_mem _ h')
          · exact Or.inr h'

theorem srtfPickAux_cand {ps : List Process} {rem : List ℚ} {done : List Bool}
    {time : ℚ} :
    ∀ (l : List ℕ) (best : Option ℕ) (c : ℕ),
      (∀ b, best = some b → srtfCand ps rem done time b) →
      srtfPickAux ps rem done time l best = some c →
      srtfCand ps rem done time c := by
  intro l
  induction l with
  | nil =>
      intro best c hbest h
      exact hbest c h
  | cons i is ih =>
      intro best c hbest h
      rcases best with _ | b
      · rw [srtfPickAux] at h
        by_cases hcand : srtfCand ps rem done time i
        · rw [if_pos hcand] at h
          exact ih _ _ (fun b hb => by
            simp only [Option.some.injEq] at hb
            exact hb ▸ hcand) h
        · rw [if_neg hcand] at h
          exact ih _ _ (by simp) h
      · rw [srtfPickAux] at h
        by_cases hcand : srtfCand ps rem done time i
        · rw [if_pos hcand] at h
          split at h
          · exact ih _ _ (fun b' hb' => by
              simp only [Option.some.injEq] at hb'
              exact hb' ▸ hcand) h
          · exact ih _ _ (fun b' hb' => by
              simp only [Option.some.injEq] at hb'
              exact hb' ▸ hbest b rfl) h
        · rw [if_neg hcand] at h
          exact ih _ _ hbest h

theorem srtfPick_none_iff {ps : List Process} {rem : List ℚ} {done : List Bool}
    {time : ℚ} :
    srtfPick ps rem done time = none ↔
      ∀ i, i < ps.length → ¬ srtfCand ps rem done time i := by
  rw [srtfPick, srtfPickAux_none_iff]
  constructor
  · intro h i hi; exact h i (List.mem_range.mpr hi)
  · intro h i hi; exact h i (List.mem_range.mp hi)

theorem srtfPick_some_spec {ps : List Process} {rem : List ℚ} {done : List Bool}
    {time : ℚ} {c : ℕ} (h : srtfPick ps rem done time = some c) :
    c < ps.length ∧ srtfCand ps rem done time c := by
  constructor
  · rcases srtfPickAux_mem _ _ _ h with h' | h'
    · exact List.mem_range.mp h'
    · simp at h'
  · exact srtfPickAux_cand _ _ _ (by simp) h

/-! ## SRTF: chain and conservation invariants -/

theorem getD_map_burst {ps : List Process} {i : ℕ} (h : i < ps.length) :
    (ps.map (·.burst)).getD i 0 = (getP ps i).burst := by
  rw [getP_eq_getElem h]
  simp [List.getD_eq_getElem?_getD, List.getElem?_eq_getElem h]

theorem srtfInv_init (ps : List Process) : SrtfInv ps (srtfInit ps) := by
  refine ⟨by simp [srtfInit], by simp [srtfInit], ?_, ?_, ?_⟩
  · exact Or.inl ⟨rfl, rfl, rfl, rfl⟩
  · intro i hi
    simp only [srtfInit]
    rw [getD_map_burst hi]
    simp [sumLenFor]
  · intro i hi
    simp [srtfInit, List.getD_eq_getElem?_getD, List.getElem?_replicate, hi]

theorem srtfBody_inv {ps : List Process} (hnd : (ps.map (·.pid)).Nodup)
    (hidle : ∀ p ∈ ps, p.pid ≠ "IDLE") {st : SrtfState} (hinv : SrtfInv ps st) :
    SrtfInv ps (srtfBody ps st) := by
  rcases hpick : srtfPick ps st.rem st.done st.time with _ | best
  · -- no candidate: idle tick
    by_cases hlast : st.lastPID = some "IDLE"
    · have hbody : srtfBody ps st = { st with time := st.time + 1 } := by
        rw [srtfBody, hpick, if_pos hlast]
      rw [hbody]
      refine ⟨hinv.remlen, hinv.donelen, ?_, ?_, hinv.done_rem⟩
      · rcases hinv.chain with ⟨h1, _, _, _⟩ | ⟨s, h1, h2, h3⟩
        · rw [h1] at hlast; simp at hlast
        · refine Or.inr ⟨s, h1, h2, ?_⟩
          show st.blockStart < st.time + 1
          linarith
      · intro i hi
        show sumLenFor (getP ps i).pid st.blocks
            + (if st.lastPID = some (getP ps i).pid then st.time + 1 - st.blockStart else 0)
            + st.rem.getD i 0 = (getP ps i).burst
        have hpne : st.lastPID ≠ some (getP ps i).pid := by
          rw [hlast]
          intro hcontra
          simp only [Option.some.injEq] at hcontra
          exact hidle _ (getP_mem hi) hcontra.symm
        have := hinv.sums i hi
        rw [if_neg hpne] at this ⊢
        exact this
    · have hbody : srtfBody ps st = { st with
          blocks := match st.lastPID with
            | some s => st.blocks ++ [⟨s, st.blockStart, st.time⟩]
            | none => st.blocks,
          lastPID := some "IDLE", blockStart := st.time, time := st.time + 1 } := by
        rw [srtfBody, hpick, if_neg hlast]
      rw [hbody]
      have hpne2 : ∀ i, i < ps.length →
          ¬((some "IDLE" : Option String) = some (getP ps i).pid) := by
        intro i hi hcontra
        simp only [Option.some.injEq] at hcontra
        exact hidle _ (getP_mem hi) hcontra.symm
      rcases hinv.chain with ⟨h1, h2, h3, h4⟩ | ⟨s, h1, h2, h3⟩
      · refine ⟨hinv.remlen, hinv.donelen, ?_, ?_, hinv.done_rem⟩
        · refine Or.inr ⟨"IDLE", rfl, ?_, ?_⟩
          · show chainFrom (minArrival ps)
                (match st.lastPID with
                  | some s => st.blocks ++ [⟨s, st.blockStart, st.time⟩]
                  | none => st.blocks) st.time
            rw [h1]
            show chainFrom (minArrival ps) st.blocks st.time
            rw [h2, h4]
            exact rfl
          · show st.time < st.time + 1
            linarith
        · intro i hi
          show sumLenFor (getP ps i).pid
              (match st.lastPID with
                | some s => st.blocks ++ [⟨s, st.blockStart, st.time⟩]
                | none => st.blocks)
              + (if (some "IDLE" : Option String) = some (getP ps i).pid then
                  st.time + 1 - st.time else 0)
              + st.rem.getD i 0 = (getP ps i).burst
          rw [h1]
          show sumLenFor (getP ps i).pid st.blocks
              + (if (some "IDLE" : Option String) = some (getP ps i).pid then
                  st.time + 1 - st.time else 0)
              + st.rem.getD i 0 = (getP ps i).burst
          rw [if_neg (hpne2 i hi)]
          have := hinv.sums i hi
          rw [h1] at this
          rw [if_neg (by simp : ¬((none : Option String) = some (getP ps i).pid))] at this
          linarith
      · refine ⟨hinv.remlen, hinv.donelen, ?_, ?_, hinv.done_rem⟩
        · refine Or.inr ⟨"IDLE", rfl, ?_, ?_⟩
          · show chainFrom (minArrival ps)
                (match st.lastPID with
                  | some s => st.blocks ++ [⟨s, st.blockStart, st.time⟩]
                  | none => st.blocks) st.time
            rw [h1]
            show chainFrom (minArrival ps)
                (st.blocks ++ [⟨s, st.blockStart, st.time⟩]) st.time
            exact chainFrom_append_one h2 h3 s
          · show st.time < st.time + 1
            linarith
        · intro i hi
          show sumLenFor (getP ps i).pid
              (match st.lastPID with
                | some s => st.blocks ++ [⟨s, st.blockStart, st.time⟩]
                | none => st.blocks)
              + (if (some "IDLE" : Option String) = some (getP ps i).pid then
                  st.time + 1 - st.time else 0)
              + st.rem.getD i 0 = (getP ps i).burst
          rw [h1]
          show sumLenFor (getP ps i).pid
              (st.blocks ++ [⟨s, st.blockStart, st.time⟩])
              + (if (some "IDLE" : Option String) = some (getP ps i).pid then
                  st.time + 1 - st.time else 0)
              + st.rem.getD i 0 = (getP ps i).burst
          rw [if_neg (hpne2 i hi), sumLenFor_append, sumLenFor_one]
          have hsum := hinv.sums i hi
          rw [h1] at hsum
          by_cases hsi : s = (getP ps i).pid
          · rw [if_pos hsi]
            rw [if_pos (by rw [hsi])] at hsum
            linarith
          · rw [if_neg hsi]
            rw [if_neg (by simpa using hsi)] at hsum
            linarith
  · -- dispatch one tick of `best`
    obtain ⟨hblt, hcand⟩ := srtfPick_some_spec hpick
    obtain ⟨hdonef, harr, hrpos⟩ := hcand
    have hbrem : best < st.rem.length := by rw [hinv.remlen]; exact hblt
    have hbdone : best < st.done.length := by rw [hinv.donelen]; exact hblt
    have hset_self : (st.rem.set best (st.rem.getD best 0 - 1)).getD best 0 =
        st.rem.getD best 0 - 1 := getD_set_self hbrem _ _
    have hset_ne : ∀ j, j ≠ best →
        (st.rem.set best (st.rem.getD best 0 - 1)).getD j 0 = st.rem.getD j 0 :=
      fun j hj => getD_set_ne (fun h => hj h.symm) _ _
    -- the new blocks and block start, shared by both completion branches
    have hchain' :
        (if st.lastPID = some (getP ps best).pid then st.blockStart else st.time)
          < st.time + 1 ∧
        chainFrom (minArrival ps)
          (if st.lastPID = some (getP ps best).pid then st.blocks
            else match st.lastPID with
              | some s => st.blocks ++ [⟨s, st.blockStart, st.time⟩]
              | none => st.blocks)
          (if st.lastPID = some (getP ps best).pid then st.blockStart else st.time) := by
      by_cases hsame : st.lastPID = some (getP ps best).pid
      · rcases hinv.chain with ⟨h1, _, _, _⟩ | ⟨s, h1, h2, h3⟩
        · rw [h1] at hsame; simp at hsame
        · rw [if_pos hsame, if_pos hsame]
          exact ⟨by linarith, h2⟩
      · rcases hinv.chain with ⟨h1, h2, h3, h4⟩ | ⟨s, h1, h2, h3⟩
        · rw [if_neg hsame, if_neg hsame, h1]
          refine ⟨by linarith, ?_⟩
          show chainFrom (minArrival ps) st.blocks st.time
          rw [h2, h4]
          exact rfl
        · rw [if_neg hsame, if_neg hsame, h1]
          refine ⟨by linarith, ?_⟩
          show chainFrom (minArrival ps)
              (st.blocks ++ [⟨s, st.blockStart, st.time⟩]) st.time
          exact chainFrom_append_one h2 h3 s
    have hsums' : ∀ i, i < ps.length →
        sumLenFor (getP ps i).pid
            (if st.lastPID = some (getP ps best).pid then st.blocks
              else match st.lastPID with
                | some s => st.blocks ++ [⟨s, st.blockStart, st.time⟩]
                | none => st.blocks)
          + (if (some (getP ps best).pid : Option String) = some (getP ps i).pid then
              st.time + 1 -
                (if st.lastPID = some (getP ps best).pid then st.blockStart else st.time)
             else 0)
          + (st.rem.set best (st.rem.getD best 0 - 1)).getD i 0 = (getP ps i).burst := by
      intro i hi
      have hsum := hinv.sums i hi
      by_cases hib : i = best
      · subst hib
        rw [hset_self, if_pos rfl]
        by_cases hsame : st.lastPID = some (getP ps i).pid
        · rw [if_pos hsame, if_pos hsame]
          rw [if_pos hsame] at hsum
          linarith
        · rw [if_neg hsame, if_neg hsame]
          rw [if_neg hsame] at hsum
          rcases hlp : st.lastPID with _ | s
          · show sumLenFor (getP ps i).pid st.blocks + (st.time + 1 - st.time)
                + (st.rem.getD i 0 - 1) = (getP ps i).burst
            linarith
          · show sumLenFor (getP ps i).pid
                (st.blocks ++ [⟨s, st.blockStart, st.time⟩]) + (st.time + 1 - st.time)
                + (st.rem.getD i 0 - 1) = (getP ps i).burst
            rw [sumLenFor_append, sumLenFor_one]
            have hsne : ¬(s = (getP ps i).pid) := by
              intro hcontra
              rw [hlp, hcontra] at hsame
              exact hsame rfl
            rw [if_neg hsne]
            linarith
      · have hpne : (getP ps best).pid ≠ (getP ps i).pid :=
          pid_ne_of_ne hnd hblt hi (fun h => hib h.symm)
        rw [hset_ne i hib,
          if_neg (show ¬((some (getP ps best).pid : Option String) = some (getP ps i).pid) by
            intro hcontra
            exact hpne (by simpa using hcontra))]
        by_cases hsame : st.lastPID = some (getP ps best).pid
        · have hine : st.lastPID ≠ some (getP ps i).pid := by
            rw [hsame]
            simpa using hpne
          rw [if_pos hsame]
          rw [if_neg hine] at hsum
          linarith
        · rw [if_neg hsame]
          rcases hlp : st.lastPID with _ | s
          · rw [hlp] at hsum
            rw [if_neg (by simp : ¬((none : Option String) = some (getP ps i).pid))] at hsum
            show sumLenFor (getP ps i).pid st.blocks + 0 + st.rem.getD i 0 = (getP ps i).burst
            linarith
          · rw [hlp] at hsum
            show sumLenFor (getP ps i).pid
                (st.blocks ++ [⟨s, st.blockStart, st.time⟩]) + 0
                + st.rem.getD i 0 = (getP ps i).burst
            rw [sumLenFor_append, sumLenFor_one]
            by_cases hsi : s = (getP ps i).pid
            · rw [if_pos hsi]
              rw [if_pos (by rw [hsi])] at hsum
              linarith
            · rw [if_neg hsi]
              rw [if_neg (by simpa using hsi)] at hsum
              linarith
    have hdr' : ∀ (newdone : List Bool), newdone = st.done.set best true ∨ newdone = st.done →
        ((st.rem.set best (st.rem.getD best 0 - 1)).getD best 0 = 0 ∨ newdone = st.done) →
        ∀ i, i < ps.length → newdone.getD i false = true →
          (st.rem.set best (st.rem.getD best 0 - 1)).getD i 0 = 0 := by
      intro newdone hnd0 hz i hi hdi
      by_cases hib : i = best
      · subst hib
        rcases hz with hz | hz
        · exact hz
        · rw [hz, hdonef] at hdi
          simp at hdi
      · rw [hset_ne i hib]
        rcases hnd0 with h | h
        · rw [h, getD_set_ne (fun hcontra => hib hcontra.symm)] at hdi
          exact hinv.done_rem i hi hdi
        · rw [h] at hdi
          exact hinv.done_rem i hi hdi
    by_cases hdone0 : (st.rem.set best (st.rem.getD best 0 - 1)).getD best 0 = 0
    · have hbody : srtfBody ps st =
          { time := st.time + 1,
            rem := st.rem.set best (st.rem.getD best 0 - 1),
            started := if st.started.getD best false then st.started
              else st.started.set best true,
            lastPID := some (getP ps best).pid,
            blockStart := if st.lastPID = some (getP ps best).pid then st.blockStart
              else st.time,
            done := st.done.set best true,
            blocks := if st.lastPID = some (getP ps best).pid then st.blocks
              else match st.lastPID with
                | some s => st.blocks ++ [⟨s, st.blockStart, st.time⟩]
                | none => st.blocks,
            res := match mapGet (if st.started.getD best false then st.res
                else mapSet st.res (getP ps best).pid
                  ⟨st.time, 0, 0, 0, st.time - (getP ps best).arrival,
                    (getP ps best).arrival, (getP ps best).burst, (getP ps best).priority⟩)
                (getP ps best).pid with
              | some r => mapSet (if st.started.getD best false then st.res
                  else mapSet st.res (getP ps best).pid
                    ⟨st.time, 0, 0, 0, st.time - (getP ps best).arrival,
                      (getP ps best).arrival, (getP ps best).burst, (getP ps best).priority⟩)
                  (getP ps best).pid
                  { r with completion := st.time + 1,
                           tat := st.time + 1 - (getP ps best).arrival,
                           wt := st.time + 1 - (getP ps best).arrival - (getP ps best).burst }
              | none => (if st.started.getD best false then st.res
                  else mapSet st.res (getP ps best).pid
                    ⟨st.time, 0, 0, 0, st.time - (getP ps best).arrival,
                      (getP ps best).arrival, (getP ps best).burst, (getP ps best).priority⟩) } := by
        rw [srtfBody, hpick]
        show (if (st.rem.set best (st.rem.getD best 0 - 1)).getD best 0 = 0 then _ else _) = _
        rw [if_pos hdone0]
      rw [hbody]
      refine ⟨by simpa using hinv.remlen, by simpa using hinv.donelen, ?_, ?_, ?_⟩
      · exact Or.inr ⟨(getP ps best).pid, rfl, hchain'.2, hchain'.1⟩
      · intro i hi
        exact hsums' i hi
      · intro i hi hdi
        exact hdr' (st.done.set best true) (Or.inl rfl) (Or.inl hdone0) i hi hdi
    · have hbody : srtfBody ps st =
          { time := st.time + 1,
            rem := st.rem.set best (st.rem.getD best 0 - 1),
            started := if st.started.getD best false then st.started
              else st.started.set best true,
            lastPID := some (getP ps best).pid,
            blockStart := if st.lastPID = some (getP ps best).pid then st.blockStart
              else st.time,
            done := st.done,
            blocks := if st.lastPID = some (getP ps best).pid then st.blocks
              else match st.lastPID with
                | some s => st.blocks ++ [⟨s, st.blockStart, st.time⟩]
                | none => st.blocks,
            res := if st.started.getD best false then st.res
              else mapSet st.res (getP ps best).pid
                ⟨st.time, 0, 0, 0, st.time - (getP ps best).arrival,
                  (getP ps best).arrival, (getP ps best).burst, (getP ps best).priority⟩ } := by
        rw [srtfBody, hpick]
        show (if (st.rem.set best (st.rem.getD best 0 - 1)).getD best 0 = 0 then _ else _) = _
        rw [if_neg hdone0]
      rw [hbody]
      refine ⟨by simpa using hinv.remlen, hinv.donelen, ?_, ?_, ?_⟩
      · exact Or.inr ⟨(getP ps best).pid, rfl, hchain'.2, hchain'.1⟩
      · intro i hi
        exact hsums' i hi
      · intro i hi hdi
        exact hdr' st.done (Or.inr rfl) (Or.inr rfl) i hi hdi

theorem srtfLoop_some {ps : List Process} (hnd : (ps.map (·.pid)).Nodup)
    (hidle : ∀ p ∈ ps, p.pid ≠ "IDLE") :
    ∀ (fuel : ℕ) (st stf : SrtfState), SrtfInv ps st →
      srtfLoop ps fuel st = some stf →
      SrtfInv ps stf ∧ ¬(stf.done.count true < ps.length) := by
  intro fuel
  induction fuel with
  | zero => intro st stf _ h; simp [srtfLoop] at h
  | succ fuel ih =>
      intro st stf hinv h
      rw [srtfLoop] at h
      by_cases hc : st.done.count true < ps.length
      · rw [if_pos hc] at h
        exact ih _ _ (srtfBody_inv hnd hidle hinv) h
      · rw [if_neg hc] at h
        simp only [Option.some.injEq] at h
        subst h
        exact ⟨hinv, hc⟩

theorem srtfFinish_good {ps : List Process} {st : SrtfState} (hinv : SrtfInv ps st)
    (hexit : ¬(st.done.count true < ps.length)) :
    chainFrom (minArrival ps) (srtfFinish st).blocks (srtfFinish st).endTime ∧
      ∀ i, i < ps.length → sumLenFor (getP ps i).pid (srtfFinish st).blocks =
        (getP ps i).burst := by
  have hcnt : st.done.count true = st.done.length := by
    have h1 := count_true_le_length st.done
    have h2 : ps.length ≤ st.done.count true := le_of_not_lt hexit
    have h3 := hinv.donelen
    omega
  have hall : ∀ i, i < ps.length → st.done.getD i false = true := by
    intro i hi
    exact all_true_of_count_eq hcnt i (by rw [hinv.donelen]; exact hi)
  have hrem0 : ∀ i, i < ps.length → st.rem.getD i 0 = 0 := fun i hi =>
    hinv.done_rem i hi (hall i hi)
  have hchainB : chainFrom (minArrival ps)
      (match st.lastPID with
        | some s => st.blocks ++ [⟨s, st.blockStart, st.time⟩]
        | none => st.blocks) st.time := by
    rcases hinv.chain with ⟨h1, h2, h3, h4⟩ | ⟨s, h1, h2, h3⟩
    · rw [h1]
      show chainFrom (minArrival ps) st.blocks st.time
      rw [h2, h4]
      exact rfl
    · rw [h1]
      show chainFrom (minArrival ps)
          (st.blocks ++ [⟨s, st.blockStart, st.time⟩]) st.time
      exact chainFrom_append_one h2 h3 s
  have hsumB : ∀ i, i < ps.length → sumLenFor (getP ps i).pid
      (match st.lastPID with
        | some s => st.blocks ++ [⟨s, st.blockStart, st.time⟩]
        | none => st.blocks) = (getP ps i).burst := by
    intro i hi
    have hsum := hinv.sums i hi
    rw [hrem0 i hi] at hsum
    rcases hlp : st.lastPID with _ | s
    · rw [hlp] at hsum
      rw [if_neg (by simp : ¬((none : Option String) = some (getP ps i).pid))] at hsum
      show sumLenFor (getP ps i).pid st.blocks = (getP ps i).burst
      linarith
    · rw [hlp] at hsum
      show sumLenFor (getP ps i).pid
          (st.blocks ++ [⟨s, st.blockStart, st.time⟩]) = (getP ps i).burst
      rw [sumLenFor_append, sumLenFor_one]
      by_cases hsi : s = (getP ps i).pid
      · rw [if_pos hsi]
        rw [if_pos (by rw [hsi])] at hsum
        linarith
      · rw [if_neg hsi]
        rw [if_neg (by simpa using hsi)] at hsum
        linarith
  have hfilter : (match st.lastPID with
      | some s => st.blocks ++ [⟨s, st.blockStart, st.time⟩]
      | none => st.blocks : List Block).filter (fun b => decide (b.start < b.stop)) =
      (match st.lastPID with
        | some s => st.blocks ++ [⟨s, st.blockStart, st.time⟩]
        | none => st.blocks : List Block) := by
    apply List.filter_eq_self.mpr
    intro b hb
    simpa using chainFrom_pos hchainB b hb
  constructor
  · show chainFrom (minArrival ps)
        ((match st.lastPID with
          | some s => st.blocks ++ [⟨s, st.blockStart, st.time⟩]
          | none => st.blocks : List Block).filter
            (fun b => decide (b.start < b.stop))) st.time
    rw [hfilter]
    exact hchainB
  · intro i hi
    show sumLenFor (getP ps i).pid
        ((match st.lastPID with
          | some s => st.blocks ++ [⟨s, st.blockStart, st.time⟩]
          | none => st.blocks : List Block).filter
            (fun b => decide (b.start < b.stop))) =
      (getP ps i).burst
    rw [hfilter]
    exact hsumB i hi

/-- C1 and C6 for SRTF: whenever `srtf` returns, the blocks tile the interval
and conserve each process's burst. -/
theorem srtf_good {ps : List Process} (hnd : (ps.map (·.pid)).Nodup)
    (hidle : ∀ p ∈ ps, p.pid ≠ "IDLE") {fuel : ℕ} {r : SimResult}
    (h : srtf ps fuel = some r) :
    chainFrom (minArrival ps) r.blocks r.endTime ∧
      ∀ p ∈ ps, sumLenFor p.pid r.blocks = p.burst := by
  unfold srtf at h
  rcases hloop : srtfLoop ps fuel (srtfInit ps) with _ | stf
  · rw [hloop] at h; simp at h
  · rw [hloop] at h
    simp only [Option.map_some', Option.some.injEq] at h
    subst h
    obtain ⟨hinv, hexit⟩ := srtfLoop_some hnd hidle fuel _ _ (srtfInv_init ps) hloop
    obtain ⟨hch, hsums⟩ := srtfFinish_good hinv hexit
    refine ⟨hch, ?_⟩
    intro p hp
    obtain ⟨i, hi, hpi⟩ := List.mem_iff_getElem.mp hp
    have hgi : getP ps i = p := by rw [getP_eq_getElem hi, hpi]
    have := hsums i hi
    rw [hgi] at this
    exact this

theorem sum_getD_set {rem : List ℚ} {i : ℕ} {n : ℕ} (hn : rem.length = n)
    (hi : i < n) (v : ℚ) :
    ∑ j ∈ Finset.range n, (rem.set i v).getD j 0 =
      (∑ j ∈ Finset.range n, rem.getD j 0) - rem.getD i 0 + v := by
  have hil : i < rem.length := by omega
  have hcongr : ∀ j ∈ Finset.range n, (rem.set i v).getD j 0 =
      Function.update (fun j => rem.getD j 0) i v j := by
    intro j _
    by_cases hj : j = i
    · subst hj
      rw [getD_set_self hil, Function.update_same]
    · rw [getD_set_ne (fun h => hj h.symm), Function.update_noteq hj]
  rw [Finset.sum_congr rfl hcongr,
    Finset.sum_update_of_mem (Finset.mem_range.mpr hi),
    Finset.sum_eq_sum_diff_singleton_add (Finset.mem_range.mpr hi)
      (fun j => rem.getD j 0)]
  ring

theorem srtfNat_init (ps : List Process) (hb : ∀ p ∈ ps, 0 < p.burst)
    (hint : ∀ p ∈ ps, ∃ k : ℕ, p.burst = (k : ℚ)) : SrtfNat ps (srtfInit ps) := by
  refine ⟨by simp [srtfInit], by simp [srtfInit], ?_, ?_⟩
  · intro i hi
    show ∃ k : ℕ, (ps.map (·.burst)).getD i 0 = (k : ℚ)
    rw [getD_map_burst hi]
    exact hint _ (getP_mem hi)
  · intro i hi _
    show 1 ≤ (ps.map (·.burst)).getD i 0
    rw [getD_map_burst hi]
    obtain ⟨k, hk⟩ := hint _ (getP_mem hi)
    have hpos := hb _ (getP_mem hi)
    rw [hk] at hpos ⊢
    have : 0 < k := by exact_mod_cast hpos
    exact_mod_cast this

theorem srtfBody_nat {ps : List Process} {st : SrtfState} (hnat : SrtfNat ps st) :
    SrtfNat ps (srtfBody ps st) := by
  rcases hpick : srtfPick ps st.rem st.done st.time with _ | best
  · by_cases hlast : st.lastPID = some "IDLE" <;>
      · rw [srtfBody, hpick]
        simp only [hlast]
        first
          | exact ⟨hnat.remlen, hnat.donelen, hnat.natRem, hnat.posRem⟩
          | (simp only [if_neg hlast]
             exact ⟨hnat.remlen, hnat.donelen, hnat.natRem, hnat.posRem⟩)
  · obtain ⟨hblt, hcand⟩ := srtfPick_some_spec hpick
    obtain ⟨hdonef, harr, hrpos⟩ := hcand
    have hbrem : best < st.rem.length := by rw [hnat.remlen]; exact hblt
    have hbdone : best < st.done.length := by rw [hnat.donelen]; exact hblt
    obtain ⟨k, hk⟩ := hnat.natRem best hblt
    have hk1 : 1 ≤ k := by
      have := hnat.posRem best hblt hdonef
      rw [hk] at this
      exact_mod_cast this
    have hset_self : (st.rem.set best (st.rem.getD best 0 - 1)).getD best 0 =
        st.rem.getD best 0 - 1 := getD_set_self hbrem _ _
    have hset_ne : ∀ j, j ≠ best →
        (st.rem.set best (st.rem.getD best 0 - 1)).getD j 0 = st.rem.getD j 0 :=
      fun j hj => getD_set_ne (fun h => hj h.symm) _ _
    have hnat' : ∀ i, i < ps.length → ∃ m : ℕ,
        (st.rem.set best (st.rem.getD best 0 - 1)).getD i 0 = (m : ℚ) := by
      intro i hi
      by_cases hib : i = best
      · subst hib
        refine ⟨k - 1, ?_⟩
        rw [hset_self, hk]
        push_cast [Nat.cast_sub hk1]
        ring
      · rw [hset_ne i hib]
        exact hnat.natRem i hi
    have hrl : (st.rem.set best (st.rem.getD best 0 - 1)).length = ps.length := by
      simpa using hnat.remlen
    by_cases hdone0 : (st.rem.set best (st.rem.getD best 0 - 1)).getD best 0 = 0
    · rw [srtfBody, hpick]
      show SrtfNat ps (if (st.rem.set best (st.rem.getD best 0 - 1)).getD best 0 = 0
        then _ else _)
      rw [if_pos hdone0]
      refine ⟨hrl, by simpa using hnat.donelen, hnat', ?_⟩
      intro i hi hdi
      by_cases hib : i = best
      · subst hib
        rw [getD_set_self (by rw [hnat.donelen]; exact hi)] at hdi
        simp at hdi
      · rw [getD_set_ne (fun h => hib h.symm)] at hdi
        rw [hset_ne i hib]
        exact hnat.posRem i hi hdi
    · rw [srtfBody, hpick]
      show SrtfNat ps (if (st.rem.set best (st.rem.getD best 0 - 1)).getD best 0 = 0
        then _ else _)
      rw [if_neg hdone0]
      refine ⟨hrl, hnat.donelen, hnat', ?_⟩
      intro i hi hdi
      by_cases hib : i = best
      · subst hib
        rw [hset_self, hk] at hdone0 ⊢
        have hk2 : 2 ≤ k := by
          rcases Nat.lt_or_ge k 2 with h | h
          · interval_cases k
            exfalso; apply hdone0; norm_num
          · exact h
        have : (2 : ℚ) ≤ (k : ℚ) := by exact_mod_cast hk2
        linarith
      · rw [hset_ne i hib]
        exact hnat.posRem i hi hdi

theorem sum_nat_cast {n : ℕ} {f : ℕ → ℚ} (h : ∀ i, i < n → ∃ k : ℕ, f i = (k : ℚ)) :
    ∃ m : ℕ, (∑ i ∈ Finset.range n, f i) = (m : ℚ) := by
  induction n with
  | zero => exact ⟨0, by simp⟩
  | succ n ih =>
      obtain ⟨m, hm⟩ := ih (fun i hi => h i (by omega))
      obtain ⟨k, hk⟩ := h n (by omega)
      refine ⟨m + k, ?_⟩
      rw [Finset.sum_range_succ, hm, hk]
      push_cast
      ring

theorem srtfBody_measure {ps : List Process} {st : SrtfState} (hnat : SrtfNat ps st)
    (hc : st.done.count true < ps.length) :
    srtfMeasure ps (srtfBody ps st) < srtfMeasure ps st := by
  obtain ⟨i0, hi0len, hi0f⟩ := exists_false_of_count_lt (by rw [hnat.donelen]; exact hc)
  have hi0 : i0 < ps.length := by rw [← hnat.donelen]; exact hi0len
  rcases hpick : srtfPick ps st.rem st.done st.time with _ | best
  · -- idle tick: `time` advances towards the last arrival
    have hnc := srtfPick_none_iff.mp hpick i0 hi0
    have hrpos := hnat.posRem i0 hi0 hi0f
    have harr : st.time < (getP ps i0).arrival := by
      by_contra hle
      push_neg at hle
      exact hnc ⟨hi0f, hle, by linarith⟩
    have hmax : st.time < maxArrival ps := lt_of_lt_of_le harr (le_maxArrival (getP_mem hi0))
    have hceil1 : 1 ≤ ⌈maxArrival ps - st.time⌉ := by
      have : (0 : ℤ) < ⌈maxArrival ps - st.time⌉ := Int.ceil_pos.mpr (by linarith)
      omega
    have hstep : ∀ (st' : SrtfState), st'.time = st.time + 1 → st'.rem = st.rem →
        srtfMeasure ps st' < srtfMeasure ps st := by
      intro st' ht hr
      unfold srtfMeasure sumRem
      rw [ht, hr]
      have h1 : maxArrival ps - (st.time + 1) = (maxArrival ps - st.time) - 1 := by ring
      rw [h1, Int.ceil_sub_one]
      have h2 : (⌈maxArrival ps - st.time⌉ - 1).toNat = ⌈maxArrival ps - st.time⌉.toNat - 1 := by
        omega
      rw [h2]
      have h3 : 1 ≤ ⌈maxArrival ps - st.time⌉.toNat := by omega
      omega
    by_cases hlast : st.lastPID = some "IDLE"
    · apply hstep
      · rw [srtfBody, hpick, if_pos hlast]
      · rw [srtfBody, hpick, if_pos hlast]
    · apply hstep
      · rw [srtfBody, hpick, if_neg hlast]
      · rw [srtfBody, hpick, if_neg hlast]
  · -- dispatch: total remaining work decreases by one
    obtain ⟨hblt, hcand⟩ := srtfPick_some_spec hpick
    obtain ⟨hdonef, harr, hrpos⟩ := hcand
    have hbrem : best < st.rem.length := by rw [hnat.remlen]; exact hblt
    have hrem1 := hnat.posRem best hblt hdonef
    have hnonneg : ∀ j ∈ Finset.range ps.length, 0 ≤ st.rem.getD j 0 := by
      intro j hj
      obtain ⟨k, hk⟩ := hnat.natRem j (Finset.mem_range.mp hj)
      rw [hk]
      positivity
    have hsum_ge : 1 ≤ sumRem ps st := by
      have := Finset.single_le_sum hnonneg (Finset.mem_range.mpr hblt)
      unfold sumRem
      linarith
    obtain ⟨m, hm⟩ : ∃ m : ℕ, sumRem ps st = (m : ℚ) :=
      sum_nat_cast (fun i hi => hnat.natRem i hi)
    have hm1 : 1 ≤ m := by
      have : (1 : ℚ) ≤ (m : ℚ) := hm ▸ hsum_ge
      exact_mod_cast this
    have hstep2 : ∀ (st' : SrtfState), st'.time = st.time + 1 →
        st'.rem = st.rem.set best (st.rem.getD best 0 - 1) →
        srtfMeasure ps st' < srtfMeasure ps st := by
      intro st' ht hr
      have hsums' : sumRem ps st' = sumRem ps st - 1 := by
        unfold sumRem
        rw [hr, sum_getD_set hnat.remlen hblt]
        show (∑ j ∈ Finset.range ps.length, st.rem.getD j 0) - st.rem.getD best 0 +
          (st.rem.getD best 0 - 1) = _
        ring
      unfold srtfMeasure
      rw [ht, hsums', hm]
      have hceil2 : ⌈(m : ℚ) - 1⌉ = (m : ℤ) - 1 := by
        rw [Int.ceil_sub_one, Int.ceil_natCast]
      have hceil3 : ⌈(m : ℚ)⌉ = (m : ℤ) := Int.ceil_natCast m
      rw [hceil2, hceil3]
      have hmono : (⌈maxArrival ps - (st.time + 1)⌉).toNat ≤
          (⌈maxArrival ps - st.time⌉).toNat := by
        have h1 : maxArrival ps - (st.time + 1) ≤ maxArrival ps - st.time := by linarith
        have h2 := Int.ceil_mono h1
        omega
      omega
    by_cases hdone0 : (st.rem.set best (st.rem.getD best 0 - 1)).getD best 0 = 0
    · apply hstep2
      · rw [srtfBody, hpick]
        show (if (st.rem.set best (st.rem.getD best 0 - 1)).getD best 0 = 0
          then _ else _ : SrtfState).time = _
        rw [if_pos hdone0]
      · rw [srtfBody, hpick]
        show (if (st.rem.set best (st.rem.getD best 0 - 1)).getD best 0 = 0
          then _ else _ : SrtfState).rem = _
        rw [if_pos hdone0]
    · apply hstep2
      · rw [srtfBody, hpick]
        show (if (st.rem.set best (st.rem.getD best 0 - 1)).getD best 0 = 0
          then _ else _ : SrtfState).time = _
        rw [if_neg hdone0]
      · rw [srtfBody, hpick]
        show (if (st.rem.set best (st.rem.getD best 0 - 1)).getD best 0 = 0
          then _ else _ : SrtfState).rem = _
        rw [if_neg hdone0]

theorem srtfLoop_terminates (ps : List Process) :
    ∀ (fuel : ℕ) (st : SrtfState), SrtfNat ps st → srtfMeasure ps st < fuel →
      ∃ stf, srtfLoop ps fuel st = some stf := by
  intro fuel
  induction fuel with
  | zero => intro st _ h; omega
  | succ fuel ih =>
      intro st hnat h
      rw [srtfLoop]
      by_cases hc : st.done.count true < ps.length
      · rw [if_pos hc]
        apply ih _ (srtfBody_nat hnat)
        have := srtfBody_measure hnat hc
        omega
      · rw [if_neg hc]
        exact ⟨st, rfl⟩

/-- C3 for SRTF: with positive integer bursts, `srtf` returns with fuel
`srtfMeasure` of the initial state plus one. -/
theorem srtf_terminates (ps : List Process) (hb : ∀ p ∈ ps, 0 < p.burst)
    (hint : ∀ p ∈ ps, ∃ k : ℕ, p.burst = (k : ℚ)) :
    ∃ r, srtf ps (srtfMeasure ps (srtfInit ps) + 1) = some r := by
  obtain ⟨stf, hstf⟩ := srtfLoop_terminates ps (srtfMeasure ps (srtfInit ps) + 1)
    (srtfInit ps) (srtfNat_init ps hb hint) (by omega)
  exact ⟨srtfFinish stf, by rw [srtf, hstf]; rfl⟩

/-- C3 counterexample: on a fractional burst the SRTF tick loop never
finishes, whatever the fuel.  After two iterations the remaining burst is
`-1/2`: the process is never a candidate again and never enters `done`, so
every further iteration is an idle tick. -/
theorem srtfLoop_stuck (started : List Bool) (blocks : List Block)
    (res : List (String × PResult)) (bstart : ℚ) :
    ∀ (fuel : ℕ) (t : ℚ),
      srtfLoop [⟨"P1", 0, 1/2, 0⟩] fuel
        ⟨t, [-(1/2)], started, some "IDLE", bstart, [false], blocks, res⟩ = none := by
  intro fuel
  induction fuel with
  | zero => intro t; rfl
  | succ fuel ih =>
      intro t
      rw [srtfLoop]
      rw [if_pos (by decide : List.count true [false] < [
        (⟨"P1", 0, 1/2, 0⟩ : Process)].length)]
      have hbody : srtfBody [⟨"P1", 0, 1/2, 0⟩]
          ⟨t, [-(1/2)], started, some "IDLE", bstart, [false], blocks, res⟩ =
          ⟨t + 1, [-(1/2)], started, some "IDLE", bstart, [false], blocks, res⟩ := by
        have hpick : srtfPick [(⟨"P1", 0, 1/2, 0⟩ : Process)] [-(1/2)] [false] t = none := by
          apply srtfPickAux_none_iff _ |>.mpr
          intro i hi
          have hi' : i < 1 := List.mem_range.mp hi
          interval_cases i
          intro hcand
          obtain ⟨_, _, hpos⟩ := hcand
          norm_num at hpos
        rw [srtfBody, hpick]
        rfl
      rw [hbody]
      exact ih (t + 1)

theorem srtf_diverges : ∀ fuel : ℕ, srtf [⟨"P1", 0, 1/2, 0⟩] fuel = none := by
  have h1 : srtfBody [⟨"P1", 0, 1/2, 0⟩] (srtfInit [⟨"P1", 0, 1/2, 0⟩]) =
      ⟨1, [-(1/2)], [true], some "P1", 0, [false], [],
        [("P1", ⟨0, 0, 0, 0, 0, 0, 1/2, 0⟩)]⟩ := by
    with_unfolding_all decide
  have h2 : srtfBody [⟨"P1", 0, 1/2, 0⟩]
      ⟨1, [-(1/2)], [true], some "P1", 0, [false], [],
        [("P1", ⟨0, 0, 0, 0, 0, 0, 1/2, 0⟩)]⟩ =
      ⟨2, [-(1/2)], [true], some "IDLE", 1, [false], [⟨"P1", 0, 1⟩],
        [("P1", ⟨0, 0, 0, 0, 0, 0, 1/2, 0⟩)]⟩ := by
    with_unfolding_all decide
  intro fuel
  match fuel with
  | 0 => rfl
  | 1 =>
      rw [srtf]
      rw [show srtfLoop [⟨"P1", 0, 1/2, 0⟩] 1 (srtfInit [⟨"P1", 0, 1/2, 0⟩]) = none by
        rw [srtfLoop, if_pos (by with_unfolding_all decide), h1]
        rfl]
      rfl
  | (f + 2) =>
      rw [srtf]
      rw [show srtfLoop [⟨"P1", 0, 1/2, 0⟩] (f + 2) (srtfInit [⟨"P1", 0, 1/2, 0⟩]) =
          none by
        rw [srtfLoop, if_pos (by with_unfolding_all decide), h1,
          srtfLoop, if_pos (by with_unfolding_all decide), h2]
        exact srtfLoop_stuck _ _ _ _ f 2]
      rfl

theorem remLex_trans {ps : List Process} {rem : List ℚ} {a b c : ℕ}
    (h1 : remLex ps rem a b) (h2 : remLex ps rem b c) : remLex ps rem a c := by
  rcases h1 with h1 | ⟨h1, h1'⟩ <;> rcases h2 with h2 | ⟨h2, h2'⟩
  · exact Or.inl (lt_trans h1 h2)
  · exact Or.inl (lt_of_lt_of_eq h1 h2)
  · exact Or.inl (lt_of_eq_of_lt h1 h2)
  · exact Or.inr ⟨h1.trans h2, le_trans h1' h2'⟩

theorem pairwise_arrival_mono {ps : List Process} (hsort : List.Pairwise procLe ps) :
    ∀ a b, a < b → b < ps.length → (getP ps a).arrival ≤ (getP ps b).arrival := by
  intro a b hab hb
  have ha : a < ps.length := lt_trans hab hb
  rw [getP_eq_getElem ha, getP_eq_getElem hb]
  have h := List.pairwise_iff_getElem.mp hsort a b ha hb hab
  rcases h with h | ⟨h, _⟩
  · linarith
  · linarith

theorem srtfPickAux_min {ps : List Process} {rem : List ℚ} {done : List Bool}
    {time : ℚ}
    (hmono : ∀ a b, a < b → b < ps.length → (getP ps a).arrival ≤ (getP ps b).arrival) :
    ∀ (l : List ℕ) (best : Option ℕ) (c : ℕ),
      (∀ x ∈ l, x < ps.length) →
      List.Pairwise (· < ·) l →
      (∀ b, best = some b →
        b < ps.length ∧ srtfCand ps rem done time b ∧ ∀ x ∈ l, b < x) →
      srtfPickAux ps rem done time l best = some c →
      (∀ x ∈ l, srtfCand ps rem done time x → remLex ps rem c x) ∧
      (∀ b, best = some b → remLex ps rem c b) := by
  intro l
  induction l with
  | nil =>
      intro best c _ _ hbest h
      refine ⟨by simp, ?_⟩
      intro b hb
      rw [hb] at h
      simp only [srtfPickAux, Option.some.injEq] at h
      subst h
      exact Or.inr ⟨rfl, le_refl _⟩
  | cons i is ih =>
      intro best c hlt hpw hbest h
      have hilt : i < ps.length := hlt i (List.mem_cons_self _ _)
      have his : ∀ x ∈ is, x < ps.length := fun x hx => hlt x (List.mem_cons_of_mem _ hx)
      have hpw' : List.Pairwise (· < ·) is := (List.pairwise_cons.mp hpw).2
      have hi_lt_is : ∀ x ∈ is, i < x := (List.pairwise_cons.mp hpw).1
      rcases hb : best with _ | b
      · rw [hb] at h
        rw [srtfPickAux] at h
        by_cases hcand : srtfCand ps rem done time i
        · rw [if_pos hcand] at h
          obtain ⟨hmin_is, hmin_best⟩ := ih (some i) c his hpw'
            (fun b' hb' => by
              simp only [Option.some.injEq] at hb'
              subst hb'
              exact ⟨hilt, hcand, hi_lt_is⟩) h
          refine ⟨?_, by simp⟩
          intro x hx hcx
          rcases List.mem_cons.mp hx with rfl | hx
          · exact hmin_best x rfl
          · exact hmin_is x hx hcx
        · rw [if_neg hcand] at h
          obtain ⟨hmin_is, hmin_best⟩ := ih none c his hpw' (by simp) h
          refine ⟨?_, by simp⟩
          intro x hx hcx
          rcases List.mem_cons.mp hx with rfl | hx
          · exact absurd hcx hcand
          · exact hmin_is x hx hcx
      · rw [hb] at h
        rw [srtfPickAux] at h
        obtain ⟨hblt2, hbcand, hbl⟩ := hbest b hb
        have hbi : b < i := hbl i (List.mem_cons_self _ _)
        by_cases hcand : srtfCand ps rem done time i
        · rw [if_pos hcand] at h
          have harr_not : ¬((getP ps i).arrival < (getP ps b).arrival) := by
            have := hmono b i hbi hilt
            linarith
          by_cases hrepl : rem.getD i 0 < rem.getD b 0
              ∨ (rem.getD i 0 = rem.getD b 0 ∧ (getP ps i).arrival < (getP ps b).arrival)
              ∨ (rem.getD i 0 = rem.getD b 0 ∧ (getP ps i).pid < (getP ps b).pid)
          · rw [if_pos hrepl] at h
            have hib_lex : remLex ps rem i b := by
              rcases hrepl with h1 | ⟨h1, h2⟩ | ⟨h1, h2⟩
              · exact Or.inl h1
              · exact absurd h2 harr_not
              · exact Or.inr ⟨h1, le_of_lt h2⟩
            obtain ⟨hmin_is, hmin_best⟩ := ih (some i) c his hpw'
              (fun b' hb' => by
                simp only [Option.some.injEq] at hb'
                subst hb'
                exact ⟨hilt, hcand, hi_lt_is⟩) h
            have hci : remLex ps rem c i := hmin_best i rfl
            refine ⟨?_, ?_⟩
            · intro x hx hcx
              rcases List.mem_cons.mp hx with rfl | hx
              · exact hci
              · exact hmin_is x hx hcx
            · intro b' hb'
              simp only [Option.some.injEq] at hb'
              subst hb'
              exact remLex_trans hci hib_lex
          · rw [if_neg hrepl] at h
            have hbi_lex : remLex ps rem b i := by
              push_neg at hrepl
              obtain ⟨h1, _, h3⟩ := hrepl
              rcases lt_trichotomy (rem.getD b 0) (rem.getD i 0) with hlt2 | heq | hgt
              · exact Or.inl hlt2
              · refine Or.inr ⟨heq, ?_⟩
                have := h3 heq.symm
                exact le_of_not_lt this
              · exact absurd hgt (not_lt.mpr h1)
            obtain ⟨hmin_is, hmin_best⟩ := ih (some b) c his hpw'
              (fun b' hb' => by
                simp only [Option.some.injEq] at hb'
                subst hb'
                exact ⟨hblt2, hbcand, fun x hx => lt_trans hbi (hi_lt_is x hx)⟩) h
            have hcb : remLex ps rem c b := hmin_best b rfl
            refine ⟨?_, ?_⟩
            · intro x hx hcx
              rcases List.mem_cons.mp hx with rfl | hx
              · exact remLex_trans hcb hbi_lex
              · exact hmin_is x hx hcx
            · intro b' hb'
              simp only [Option.some.injEq] at hb'
              subst hb'
              exact hcb
        · rw [if_neg hcand] at h
          obtain ⟨hmin_is, hmin_best⟩ := ih (some b) c his hpw'
            (fun b' hb' => by
              simp only [Option.some.injEq] at hb'
              subst hb'
              exact ⟨hblt2, hbcand, fun x hx => lt_trans hbi (hi_lt_is x hx)⟩) h
          refine ⟨?_, ?_⟩
          · intro x hx hcx
            rcases List.mem_cons.mp hx with rfl | hx
            · exact absurd hcx hcand
            · exact hmin_is x hx hcx
          · intro b' hb'
            simp only [Option.some.injEq] at hb'
            subst hb'
            exact hmin_best b rfl

/-- On input sorted by `(arrival, pid)` — as `readProcesses` supplies — the
SRTF selection returns, among arrived incomplete processes, the one with the
least `(remaining, pid)`: the arrival time plays no role in the tie-break. -/
theorem srtfPick_min {ps : List Process} {rem : List ℚ} {done : List Bool}
    {time : ℚ} {c : ℕ} (hsort : List.Pairwise procLe ps)
    (h : srtfPick ps rem done time = some c) :
    ∀ j, j < ps.length → srtfCand ps rem done time j → remLex ps rem c j := by
  have hmin := srtfPickAux_min (pairwise_arrival_mono hsort) (List.range ps.length)
    none c (fun x hx => List.mem_range.mp hx) (List.pairwise_lt_range _) (by simp) h
  intro j hj hcj
  exact hmin.1 j (List.mem_range.mpr hj) hcj

/-! ## Round Robin: helper lemmas -/

theorem rrAdmit_mem {ps : List Process} {time : ℚ} {arrived : List Bool} {i : ℕ} :
    i ∈ rrAdmit ps time arrived ↔
      i < ps.length ∧ arrived.getD i false = false ∧ (getP ps i).arrival ≤ time := by
  simp [rrAdmit, List.mem_filter, List.mem_range, and_assoc]

theorem rrAdmit_nodup (ps : List Process) (time : ℚ) (arrived : List Bool) :
    (rrAdmit ps time arrived).Nodup :=
  List.Nodup.filter _ (List.nodup_range _)

theorem setTrues_length (arrived : List Bool) (l : List ℕ) :
    (setTrues arrived l).length = arrived.length := by
  induction l generalizing arrived with
  | nil => rfl
  | cons x xs ih =>
      show (setTrues (arrived.set x true) xs).length = arrived.length
      rw [ih]
      simp

theorem setTrues_getD_not_mem {arrived : List Bool} {l : List ℕ} {i : ℕ}
    (h : i ∉ l) : (setTrues arrived l).getD i false = arrived.getD i false := by
  induction l generalizing arrived with
  | nil => rfl
  | cons x xs ih =>
      have hx : i ≠ x := fun hcontra => h (hcontra ▸ List.mem_cons_self _ _)
      show (setTrues (arrived.set x true) xs).getD i false = arrived.getD i false
      rw [ih (fun hcontra => h (List.mem_cons_of_mem _ hcontra))]
      exact getD_set_ne (fun hcontra => hx hcontra.symm) _ _

theorem setTrues_getD_mem {arrived : List Bool} {l : List ℕ} {i : ℕ}
    (hi : i < arrived.length) (h : i ∈ l) :
    (setTrues arrived l).getD i false = true := by
  induction l generalizing arrived with
  | nil => simp at h
  | cons x xs ih =>
      show (setTrues (arrived.set x true) xs).getD i false = true
      by_cases hmem : i ∈ xs
      · exact ih (by simpa using hi) hmem
      · have hix : i = x := by
          rcases List.mem_cons.mp h with h' | h'
          · exact h'
          · exact absurd h' hmem
        subst hix
        rw [setTrues_getD_not_mem hmem]
        exact getD_set_self hi _ _

theorem setTrues_getD_true {arrived : List Bool} {l : List ℕ} {i : ℕ}
    (h : arrived.getD i false = true) :
    (setTrues arrived l).getD i false = true := by
  induction l generalizing arrived with
  | nil => exact h
  | cons x xs ih =>
      show (setTrues (arrived.set x true) xs).getD i false = true
      apply ih
      by_cases hix : i = x
      · subst hix
        by_cases hlt : i < arrived.length
        · exact getD_set_self hlt _ _
        · rw [List.getD_eq_getElem?_getD, List.getElem?_eq_none (by simpa using le_of_not_lt hlt)] at h
          simp at h
      · rw [getD_set_ne (fun hcontra => hix hcontra.symm)]
        exact h

theorem count_le_of_pointwise {a b : List Bool} (hlen : a.length = b.length)
    (hmono : ∀ i, i < a.length → a.getD i false = true → b.getD i false = true) :
    a.count true ≤ b.count true := by
  induction a generalizing b with
  | nil => simp
  | cons x xs ih =>
      rcases b with _ | ⟨y, ys⟩
      · simp at hlen
      · have hlen' : xs.length = ys.length := by simpa using hlen
        have hmono' : ∀ i, i < xs.length → xs.getD i false = true →
            ys.getD i false = true := by
          intro i hi hx
          have := hmono (i + 1) (by simpa using hi) (by simpa using hx)
          simpa using this
        have hxy : x = true → y = true := by
          intro hx
          have := hmono 0 (by simp) (by simpa using hx)
          simpa using this
        have := ih hlen' hmono'
        cases x
        · cases y <;> simp [List.count_cons] <;> omega
        · rw [hxy rfl]
          simp [List.count_cons]
          omega

theorem count_lt_of_pointwise {a b : List Bool} (hlen : a.length = b.length)
    (hmono : ∀ i, i < a.length → a.getD i false = true → b.getD i false = true)
    {i0 : ℕ} (hi0 : i0 < a.length) (ha0 : a.getD i0 false = false)
    (hb0 : b.getD i0 false = true) :
    a.count true < b.count true := by
  induction a generalizing b i0 with
  | nil => simp at hi0
  | cons x xs ih =>
      rcases b with _ | ⟨y, ys⟩
      · simp at hlen
      · have hlen' : xs.length = ys.length := by simpa using hlen
        have hmono' : ∀ i, i < xs.length → xs.getD i false = true →
            ys.getD i false = true := by
          intro i hi hx
          have := hmono (i + 1) (by simpa using hi) (by simpa using hx)
          simpa using this
        rcases i0 with _ | i0
        · have hx : x = false := by simpa using ha0
          have hy : y = true := by simpa using hb0
          subst hx; subst hy
          have := count_le_of_pointwise hlen' hmono'
          simp [List.count_cons]
          omega
        · have hi0' : i0 < xs.length := by simpa using hi0
          have ha0' : xs.getD i0 false = false := by simpa using ha0
          have hb0' : ys.getD i0 false = true := by simpa using hb0
          have hstrict := ih hlen' hmono' hi0' ha0' hb0'
          have hxy : x = true → y = true := by
            intro hx
            have := hmono 0 (by simp) (by simpa using hx)
            simpa using this
          cases x
          · cases y <;> simp [List.count_cons] <;> omega
          · rw [hxy rfl]
            simp [List.count_cons]
            omega

theorem mapGet_mapSet_self (m : List (String × PResult)) (k : String) (v : PResult) :
    mapGet (mapSet m k v) k = some v := by
  induction m with
  | nil => simp [mapSet, mapGet]
  | cons p rest ih =>
      rcases p with ⟨k', v'⟩
      by_cases h : k' = k
      · simp [mapSet, mapGet, h]
      · simp [mapSet, mapGet, h, ih]

theorem mapGet_mapSet_ne (m : List (String × PResult)) {k k' : String}
    (h : k ≠ k') (v : PResult) :
    mapGet (mapSet m k v) k' = mapGet m k' := by
  induction m with
  | nil => simp [mapSet, mapGet, h]
  | cons p rest ih =>
      rcases p with ⟨k2, v2⟩
      by_cases h2 : k2 = k
      · subst h2
        simp [mapSet, mapGet, h]
      · by_cases h3 : k2 = k'
        · subst h3
          simp [mapSet, mapGet, h2, Ne.symm h]
        · simp [mapSet, mapGet, h2, h3, ih]

/-- `Math.min(q, r)` under the quantum guard: positive on positive input and
never more than `r`. -/
theorem jsMin_spec {q : JSNum} (hq : q.gtZero = true) (r : ℚ) (hr : 0 < r) :
    0 < q.minWith r ∧ q.minWith r ≤ r := by
  rcases q with qq | _ | _ | _
  · have : 0 < qq := by simpa [JSNum.gtZero] using hq
    exact ⟨lt_min this hr, min_le_right _ _⟩
  · simp [JSNum.gtZero] at hq
  · exact ⟨hr, le_refl r⟩
  · simp [JSNum.gtZero] at hq

theorem rrInv_init (ps : List Process) (hb : ∀ p ∈ ps, 0 < p.burst) :
    RRInv ps (rrInit ps) := by
  have hrepl : ∀ i, (List.replicate ps.length false).getD i false = false := by
    intro i
    by_cases hi : i < ps.length
    · simp [List.getD_eq_getElem?_getD, List.getElem?_replicate, hi]
    · simp [List.getD_eq_getElem?_getD, List.getElem?_eq_none
        (by simpa using le_of_not_lt hi : (List.replicate ps.length false).length ≤ i)]
  refine ⟨by simp [rrInit], ?_, by simp [rrInit], rfl, ?_, ?_, ?_, ?_, ?_, ?_, ?_, ?_⟩
  · show (setTrues (List.replicate ps.length false) _).length = ps.length
    rw [setTrues_length]
    simp
  · intro i hi
    exact (rrAdmit_mem.mp hi).1
  · exact rrAdmit_nodup _ _ _
  · intro i hi
    exact setTrues_getD_mem (by simpa using (rrAdmit_mem.mp hi).1) hi
  · intro i hi
    show 0 < (ps.map (·.burst)).getD i 0
    rw [getD_map_burst (rrAdmit_mem.mp hi).1]
    exact hb _ (getP_mem (rrAdmit_mem.mp hi).1)
  · intro i hi harr
    constructor
    · show (ps.map (·.burst)).getD i 0 = (getP ps i).burst
      exact getD_map_burst hi
    · show minArrival ps < (getP ps i).arrival
      by_contra hle
      push_neg at hle
      have hmem : i ∈ rrAdmit ps (minArrival ps) (List.replicate ps.length false) :=
        rrAdmit_mem.mpr ⟨hi, hrepl i, hle⟩
      have h2 : ((rrInit ps).arrived).getD i false = true :=
        setTrues_getD_mem (by simpa using hi) hmem
      rw [h2] at harr
      simp at harr
  · intro i hi
    show sumLenFor (getP ps i).pid [] + (ps.map (·.burst)).getD i 0 = (getP ps i).burst
    rw [getD_map_burst hi]
    simp [sumLenFor]
  · intro i hi harr hq
    exfalso
    apply hq
    by_contra hmem
    have h2 : ((rrInit ps).arrived).getD i false = false :=
      (setTrues_getD_not_mem hmem).trans (hrepl i)
    rw [h2] at harr
    simp at harr
  · intro i hi hfs
    exfalso
    have h2 : ((rrInit ps).firstStart).getD i none = none := by
      show (List.replicate ps.length (none : Option ℚ)).getD i none = none
      simp [List.getD_eq_getElem?_getD, List.getElem?_replicate, hi]
    rw [h2] at hfs
    simp at hfs

theorem rrBody_inv {ps : List Process} {q : JSNum} {st st' : RRState}
    (hb : ∀ p ∈ ps, 0 < p.burst) (hnd : (ps.map (·.pid)).Nodup)
    (hidle : ∀ p ∈ ps, p.pid ≠ "IDLE") (hq : q.gtZero = true)
    (hinv : RRInv ps st) (hbody : rrBody ps q st = some st') : RRInv ps st' := by
  rcases hqueue : st.queue with _ | ⟨i, rest⟩
  · -- idle branch
    rw [rrBody, hqueue] at hbody
    rcases hfind : (List.range ps.length).find? (fun j => !(st.arrived.getD j false))
      with _ | nextIdx
    · rw [hfind] at hbody; simp at hbody
    · rw [hfind] at hbody
      simp only [Option.some.injEq] at hbody
      subst hbody
      have hnlt : nextIdx < ps.length :=
        List.mem_range.mp (List.mem_of_find?_eq_some hfind)
      have hnarr : st.arrived.getD nextIdx false = false := by
        have := List.find?_some hfind
        simpa using this
      obtain ⟨hnrem, hnlt_t⟩ := hinv.unarr nextIdx hnlt hnarr
      refine ⟨hinv.remlen, ?_, hinv.fslen, ?_, ?_, ?_, ?_, ?_, ?_, ?_, ?_, hinv.fs_res⟩
      · show (setTrues st.arrived _).length = ps.length
        rw [setTrues_length]
        exact hinv.arrlen
      · exact chainFrom_append_one hinv.chain hnlt_t "IDLE"
      · intro j hj
        have hj2 : j ∈ ([] ++ rrAdmit ps (getP ps nextIdx).arrival st.arrived :
          List ℕ) := hj
        rw [List.nil_append] at hj2
        exact (rrAdmit_mem.mp hj2).1
      · show (([] : List ℕ) ++ rrAdmit ps (getP ps nextIdx).arrival st.arrived).Nodup
        rw [List.nil_append]
        exact rrAdmit_nodup _ _ _
      · intro j hj
        have hj2 : j ∈ ([] ++ rrAdmit ps (getP ps nextIdx).arrival st.arrived :
          List ℕ) := hj
        rw [List.nil_append] at hj2
        have hjl : j < st.arrived.length := by
          rw [hinv.arrlen]
          exact (rrAdmit_mem.mp hj2).1
        exact setTrues_getD_mem hjl hj2
      · intro j hj
        have hj2 : j ∈ ([] ++ rrAdmit ps (getP ps nextIdx).arrival st.arrived :
          List ℕ) := hj
        rw [List.nil_append] at hj2
        obtain ⟨hjlt, hjarr, _⟩ := rrAdmit_mem.mp hj2
        show 0 < st.rem.getD j 0
        rw [(hinv.unarr j hjlt hjarr).1]
        exact hb _ (getP_mem hjlt)
      · intro j hj harr'
        have hjmem : j ∉ rrAdmit ps (getP ps nextIdx).arrival st.arrived := by
          intro hcontra
          have hjl : j < st.arrived.length := by
            rw [hinv.arrlen]
            exact (rrAdmit_mem.mp hcontra).1
          rw [setTrues_getD_mem hjl hcontra] at harr'
          simp at harr'
        have hjarr : st.arrived.getD j false = false := by
          rw [setTrues_getD_not_mem hjmem] at harr'
          exact harr'
        refine ⟨(hinv.unarr j hj hjarr).1, ?_⟩
        by_contra hle
        push_neg at hle
        exact hjmem (rrAdmit_mem.mpr ⟨hj, hjarr, hle⟩)
      · intro j hj
        show sumLenFor (getP ps j).pid
            (st.blocks ++ [⟨"IDLE", st.time, (getP ps nextIdx).arrival⟩]) +
            st.rem.getD j 0 = (getP ps j).burst
        rw [sumLenFor_append, sumLenFor_one,
          if_neg (fun hcontra => hidle _ (getP_mem hj) hcontra.symm)]
        have := hinv.sums j hj
        linarith
      · intro j hj harr' hq'
        have hq2 : j ∉ ([] ++ rrAdmit ps (getP ps nextIdx).arrival st.arrived :
          List ℕ) := hq'
        rw [List.nil_append] at hq2
        have hjarr : st.arrived.getD j false = true := by
          by_contra hfalse
          have hjarr0 : st.arrived.getD j false = false := by
            cases h : st.arrived.getD j false
            · rfl
            · exact absurd h hfalse
          rw [setTrues_getD_not_mem hq2, hjarr0] at harr'
          simp at harr'
        have := hinv.fin j hj hjarr (by rw [hqueue]; simp)
        exact this
  · -- dispatch branch
    rw [rrBody, hqueue] at hbody
    have hilt : i < ps.length := hinv.queue_lt i (by rw [hqueue]; exact List.mem_cons_self _ _)
    have hipos : 0 < st.rem.getD i 0 :=
      hinv.queue_pos i (by rw [hqueue]; exact List.mem_cons_self _ _)
    have hiarr : st.arrived.getD i false = true :=
      hinv.queue_arr i (by rw [hqueue]; exact List.mem_cons_self _ _)
    have hind : i ∉ rest := by
      have := hinv.queue_nd
      rw [hqueue] at this
      exact (List.nodup_cons.mp this).1
    have hrestnd : rest.Nodup := by
      have := hinv.queue_nd
      rw [hqueue] at this
      exact (List.nodup_cons.mp this).2
    have hrest_mem : ∀ j ∈ rest, j ∈ st.queue := by
      intro j hj; rw [hqueue]; exact List.mem_cons_of_mem _ hj
    obtain ⟨hrunpos, hrunle⟩ := jsMin_spec hq (st.rem.getD i 0) hipos
    have hirem : i < st.rem.length := by rw [hinv.remlen]; exact hilt
    have hrem1self : (st.rem.set i (st.rem.getD i 0 - q.minWith (st.rem.getD i 0))).getD i 0
        = st.rem.getD i 0 - q.minWith (st.rem.getD i 0) := getD_set_self hirem _ _
    have hrem1ne : ∀ j, j ≠ i →
        (st.rem.set i (st.rem.getD i 0 - q.minWith (st.rem.getD i 0))).getD j 0
          = st.rem.getD j 0 := fun j hj => getD_set_ne (fun h => hj h.symm) _ _
    have hires1 : (mapGet (if (st.firstStart.getD i none).isSome then st.res
        else mapSet st.res (getP ps i).pid
          ⟨st.time, 0, 0, 0, st.time - (getP ps i).arrival, (getP ps i).arrival,
            (getP ps i).burst, (getP ps i).priority⟩) (getP ps i).pid).isSome = true := by
      by_cases hfs : (st.firstStart.getD i none).isSome
      · rw [if_pos hfs]
        exact hinv.fs_res i hilt hfs
      · rw [if_neg hfs, mapGet_mapSet_self]
        rfl
    have hres1_ne : ∀ s, s ≠ (getP ps i).pid →
        mapGet (if (st.firstStart.getD i none).isSome then st.res
          else mapSet st.res (getP ps i).pid
            ⟨st.time, 0, 0, 0, st.time - (getP ps i).arrival, (getP ps i).arrival,
              (getP ps i).burst, (getP ps i).priority⟩) s = mapGet st.res s := by
      intro s hs
      by_cases hfs : (st.firstStart.getD i none).isSome
      · rw [if_pos hfs]
      · rw [if_neg hfs, mapGet_mapSet_ne _ (fun h => hs h.symm)]
    have hfs1len : (if (st.firstStart.getD i none).isSome then st.firstStart
        else st.firstStart.set i (some st.time)).length = ps.length := by
      by_cases hfs : (st.firstStart.getD i none).isSome
      · rw [if_pos hfs]; exact hinv.fslen
      · rw [if_neg hfs]; simpa using hinv.fslen
    have hfs1_ne : ∀ j, j ≠ i →
        (if (st.firstStart.getD i none).isSome then st.firstStart
          else st.firstStart.set i (some st.time)).getD j none
          = st.firstStart.getD j none := by
      intro j hj
      by_cases hfs : (st.firstStart.getD i none).isSome
      · rw [if_pos hfs]
      · rw [if_neg hfs, getD_set_ne (fun h => hj h.symm)]
    -- facts shared between the two completion branches
    have hqlt' : ∀ j, j ∈ rest ++ rrAdmit ps (st.time + q.minWith (st.rem.getD i 0))
        st.arrived → j < ps.length := by
      intro j hj
      rcases List.mem_append.mp hj with h | h
      · exact hinv.queue_lt j (hrest_mem j h)
      · exact (rrAdmit_mem.mp h).1
    have hadm_disj : ∀ j ∈ rest ++ rrAdmit ps
        (st.time + q.minWith (st.rem.getD i 0)) st.arrived, j ≠ i := by
      intro j hj
      rcases List.mem_append.mp hj with h | h
      · exact fun hc => hind (hc ▸ h)
      · intro hc
        have := (rrAdmit_mem.mp h).2.1
        rw [hc, hiarr] at this
        simp at this
    have hqnd' : (rest ++ rrAdmit ps (st.time + q.minWith (st.rem.getD i 0))
        st.arrived).Nodup := by
      rw [List.nodup_append]
      refine ⟨hrestnd, rrAdmit_nodup _ _ _, ?_⟩
      intro a ha ha'
      have h1 := hinv.queue_arr a (hrest_mem a ha)
      have h2 := (rrAdmit_mem.mp ha').2.1
      rw [h1] at h2
      simp at h2
    have hqarr' : ∀ j, j ∈ rest ++ rrAdmit ps (st.time + q.minWith (st.rem.getD i 0))
        st.arrived → (setTrues st.arrived (rrAdmit ps
          (st.time + q.minWith (st.rem.getD i 0)) st.arrived)).getD j false = true := by
      intro j hj
      rcases List.mem_append.mp hj with h | h
      · exact setTrues_getD_true (hinv.queue_arr j (hrest_mem j h))
      · exact setTrues_getD_mem (by rw [hinv.arrlen]; exact (rrAdmit_mem.mp h).1) h
    have hqpos' : ∀ j, j ∈ rest ++ rrAdmit ps (st.time + q.minWith (st.rem.getD i 0))
        st.arrived → 0 < (st.rem.set i (st.rem.getD i 0 -
          q.minWith (st.rem.getD i 0))).getD j 0 := by
      intro j hj
      rw [hrem1ne j (hadm_disj j hj)]
      rcases List.mem_append.mp hj with h | h
      · exact hinv.queue_pos j (hrest_mem j h)
      · obtain ⟨hjlt, hjarr, _⟩ := rrAdmit_mem.mp h
        rw [(hinv.unarr j hjlt hjarr).1]
        exact hb _ (getP_mem hjlt)
    have hunarr' : ∀ j, j < ps.length →
        (setTrues st.arrived (rrAdmit ps (st.time + q.minWith (st.rem.getD i 0))
          st.arrived)).getD j false = false →
        (st.rem.set i (st.rem.getD i 0 - q.minWith (st.rem.getD i 0))).getD j 0
            = (getP ps j).burst ∧
          st.time + q.minWith (st.rem.getD i 0) < (getP ps j).arrival := by
      intro j hj harr'
      have hjmem : j ∉ rrAdmit ps (st.time + q.minWith (st.rem.getD i 0)) st.arrived := by
        intro hcontra
        have hjl : j < st.arrived.length := by
          rw [hinv.arrlen]
          exact (rrAdmit_mem.mp hcontra).1
        rw [setTrues_getD_mem hjl hcontra] at harr'
        simp at harr'
      have hjarr : st.arrived.getD j false = false := by
        rw [setTrues_getD_not_mem hjmem] at harr'
        exact harr'
      have hji : j ≠ i := by
        intro hc
        rw [hc, hiarr] at hjarr
        simp at hjarr
      refine ⟨by rw [hrem1ne j hji]; exact (hinv.unarr j hj hjarr).1, ?_⟩
      by_contra hle
      push_neg at hle
      exact hjmem (rrAdmit_mem.mpr ⟨hj, hjarr, hle⟩)
    have hsums' : ∀ j, j < ps.length →
        sumLenFor (getP ps j).pid (st.blocks ++ [⟨(getP ps i).pid, st.time,
          st.time + q.minWith (st.rem.getD i 0)⟩]) +
          (st.rem.set i (st.rem.getD i 0 - q.minWith (st.rem.getD i 0))).getD j 0
          = (getP ps j).burst := by
      intro j hj
      rw [sumLenFor_append, sumLenFor_one_mk]
      have hsum := hinv.sums j hj
      by_cases hji : j = i
      · subst hji
        rw [if_pos rfl, hrem1self]
        linarith
      · rw [if_neg (pid_ne_of_ne hnd hilt hj (fun h => hji h.symm)), hrem1ne j hji]
        linarith
    by_cases hrepos : 0 < (st.rem.set i (st.rem.getD i 0 -
        q.minWith (st.rem.getD i 0))).getD i 0
    · -- the process still has remaining burst: re-enqueued at the back
      have hbody2 : (if 0 < (st.rem.set i (st.rem.getD i 0 -
          q.minWith (st.rem.getD i 0))).getD i 0 then
            some (⟨st.time + q.minWith (st.rem.getD i 0),
              st.rem.set i (st.rem.getD i 0 - q.minWith (st.rem.getD i 0)),
              (if (st.firstStart.getD i none).isSome then st.firstStart
                else st.firstStart.set i (some st.time)),
              (rest ++ rrAdmit ps (st.time + q.minWith (st.rem.getD i 0))
                st.arrived) ++ [i],
              setTrues st.arrived (rrAdmit ps (st.time + q.minWith (st.rem.getD i 0))
                st.arrived),
              st.blocks ++ [⟨(getP ps i).pid, st.time,
                st.time + q.minWith (st.rem.getD i 0)⟩],
              (if (st.firstStart.getD i none).isSome then st.res
                else mapSet st.res (getP ps i).pid
                  ⟨st.time, 0, 0, 0, st.time - (getP ps i).arrival, (getP ps i).arrival,
                    (getP ps i).burst, (getP ps i).priority⟩)⟩ : RRState)
          else _) = some st' := hbody
      rw [if_pos hrepos] at hbody2
      simp only [Option.some.injEq] at hbody2
      subst hbody2
      refine ⟨by simpa using hinv.remlen, ?_, hfs1len, ?_, ?_, ?_, ?_, ?_, ?_, ?_, ?_, ?_⟩
      · show (setTrues st.arrived _).length = ps.length
        rw [setTrues_length]
        exact hinv.arrlen
      · exact chainFrom_append_one hinv.chain (by linarith) _
      · intro j hj
        rcases List.mem_append.mp hj with h | h
        · exact hqlt' j h
        · rw [List.mem_singleton.mp h]
          exact hilt
      · rw [List.nodup_append]
        refine ⟨hqnd', List.nodup_singleton _, ?_⟩
        intro a ha ha'
        rw [List.mem_singleton.mp ha'] at ha
        exact hadm_disj i ha rfl
      · intro j hj
        rcases List.mem_append.mp hj with h | h
        · exact hqarr' j h
        · rw [List.mem_singleton.mp h]
          exact setTrues_getD_true hiarr
      · intro j hj
        rcases List.mem_append.mp hj with h | h
        · exact hqpos' j h
        · rw [List.mem_singleton.mp h]
          exact hrepos
      · exact hunarr'
      · exact hsums'
      · intro j hj harr' hq'
        have hji : j ≠ i := by
          intro hc
          apply hq'
          rw [hc]
          exact List.mem_append.mpr (Or.inr (List.mem_singleton.mpr rfl))
        have hjq : j ∉ rest ++ rrAdmit ps (st.time + q.minWith (st.rem.getD i 0))
            st.arrived := fun hc => hq' (List.mem_append.mpr (Or.inl hc))
        have hjadm : j ∉ rrAdmit ps (st.time + q.minWith (st.rem.getD i 0)) st.arrived :=
          fun hc => hjq (List.mem_append.mpr (Or.inr hc))
        have hjarr : st.arrived.getD j false = true := by
          by_contra hfalse
          rw [setTrues_getD_not_mem hjadm] at harr'
          exact hfalse harr'
        have hjoldq : j ∉ st.queue := by
          rw [hqueue]
          intro hc
          rcases List.mem_cons.mp hc with h | h
          · exact hji h
          · exact hjq (List.mem_append.mpr (Or.inl h))
        obtain ⟨hr0, hrs⟩ := hinv.fin j hj hjarr hjoldq
        refine ⟨by rw [hrem1ne j hji]; exact hr0, ?_⟩
        rw [hres1_ne _ (pid_ne_of_ne hnd hj hilt hji)]
        exact hrs
      · intro j hj hfs'
        by_cases hji : j = i
        · subst hji
          exact hires1
        · rw [hfs1_ne j hji] at hfs'
          rw [hres1_ne _ (pid_ne_of_ne hnd hj hilt hji)]
          exact hinv.fs_res j hj hfs'
    · -- the process finished: finalise its result record
      have hbody2 : (if 0 < (st.rem.set i (st.rem.getD i 0 -
          q.minWith (st.rem.getD i 0))).getD i 0 then _
          else
            some (⟨st.time + q.minWith (st.rem.getD i 0),
              st.rem.set i (st.rem.getD i 0 - q.minWith (st.rem.getD i 0)),
              (if (st.firstStart.getD i none).isSome then st.firstStart
                else st.firstStart.set i (some st.time)),
              rest ++ rrAdmit ps (st.time + q.minWith (st.rem.getD i 0)) st.arrived,
              setTrues st.arrived (rrAdmit ps (st.time + q.minWith (st.rem.getD i 0))
                st.arrived),
              st.blocks ++ [⟨(getP ps i).pid, st.time,
                st.time + q.minWith (st.rem.getD i 0)⟩],
              (match mapGet (if (st.firstStart.getD i none).isSome then st.res
                  else mapSet st.res (getP ps i).pid
                    ⟨st.time, 0, 0, 0, st.time - (getP ps i).arrival, (getP ps i).arrival,
                      (getP ps i).burst, (getP ps i).priority⟩) (getP ps i).pid with
                | some r => mapSet (if (st.firstStart.getD i none).isSome then st.res
                    else mapSet st.res (getP ps i).pid
                      ⟨st.time, 0, 0, 0, st.time - (getP ps i).arrival,
                        (getP ps i).arrival, (getP ps i).burst, (getP ps i).priority⟩)
                    (getP ps i).pid
                    { r with completion := st.time + q.minWith (st.rem.getD i 0),
                             tat := st.time + q.minWith (st.rem.getD i 0)
                               - (getP ps i).arrival,
                             wt := st.time + q.minWith (st.rem.getD i 0)
                               - (getP ps i).arrival - (getP ps i).burst }
                | none => (if (st.firstStart.getD i none).isSome then st.res
                    else mapSet st.res (getP ps i).pid
                      ⟨st.time, 0, 0, 0, st.time - (getP ps i).arrival,
                        (getP ps i).arrival, (getP ps i).burst,
                        (getP ps i).priority⟩))⟩ : RRState)) = some st' := hbody
      rw [if_neg hrepos] at hbody2
      simp only [Option.some.injEq] at hbody2
      subst hbody2
      have hres2_self : (mapGet (match mapGet (if (st.firstStart.getD i none).isSome
          then st.res else mapSet st.res (getP ps i).pid
            ⟨st.time, 0, 0, 0, st.time - (getP ps i).arrival, (getP ps i).arrival,
              (getP ps i).burst, (getP ps i).priority⟩) (getP ps i).pid with
          | some r => mapSet (if (st.firstStart.getD i none).isSome then st.res
              else mapSet st.res (getP ps i).pid
                ⟨st.time, 0, 0, 0, st.time - (getP ps i).arrival,
                  (getP ps i).arrival, (getP ps i).burst, (getP ps i).priority⟩)
              (getP ps i).pid
              { r with completion := st.time + q.minWith (st.rem.getD i 0),
                       tat := st.time + q.minWith (st.rem.getD i 0)
                         - (getP ps i).arrival,
                       wt := st.time + q.minWith (st.rem.getD i 0)
                         - (getP ps i).arrival - (getP ps i).burst }
          | none => (if (st.firstStart.getD i none).isSome then st.res
              else mapSet st.res (getP ps i).pid
                ⟨st.time, 0, 0, 0, st.time - (getP ps i).arrival,
                  (getP ps i).arrival, (getP ps i).burst, (getP ps i).priority⟩))
          (getP ps i).pid).isSome = true := by
        split
        · rw [mapGet_mapSet_self]
          rfl
        · next hg =>
            rw [hg] at hires1
            simp at hires1
      have hres2_ne : ∀ s, s ≠ (getP ps i).pid →
          mapGet (match mapGet (if (st.firstStart.getD i none).isSome then st.res
              else mapSet st.res (getP ps i).pid
                ⟨st.time, 0, 0, 0, st.time - (getP ps i).arrival, (getP ps i).arrival,
                  (getP ps i).burst, (getP ps i).priority⟩) (getP ps i).pid with
            | some r => mapSet (if (st.firstStart.getD i none).isSome then st.res
                else mapSet st.res (getP ps i).pid
                  ⟨st.time, 0, 0, 0, st.time - (getP ps i).arrival,
                    (getP ps i).arrival, (getP ps i).burst, (getP ps i).priority⟩)
                (getP ps i).pid
                { r with completion := st.time + q.minWith (st.rem.getD i 0),
                         tat := st.time + q.minWith (st.rem.getD i 0)
                           - (getP ps i).arrival,
                         wt := st.time + q.minWith (st.rem.getD i 0)
                           - (getP ps i).arrival - (getP ps i).burst }
            | none => (if (st.firstStart.getD i none).isSome then st.res
                else mapSet st.res (getP ps i).pid
                  ⟨st.time, 0, 0, 0, st.time - (getP ps i).arrival,
                    (getP ps i).arrival, (getP ps i).burst, (getP ps i).priority⟩)) s
            = mapGet st.res s := by
        intro s hs
        split
        · rw [mapGet_mapSet_ne _ (fun h => hs h.symm)]
          exact hres1_ne s hs
        · exact hres1_ne s hs
      refine ⟨by simpa using hinv.remlen, ?_, hfs1len, ?_, ?_, hqnd', hqarr', hqpos',
        hunarr', hsums', ?_, ?_⟩
      · show (setTrues st.arrived _).length = ps.length
        rw [setTrues_length]
        exact hinv.arrlen
      · exact chainFrom_append_one hinv.chain (by linarith) _
      · exact hqlt'
      · intro j hj harr' hq'
        by_cases hji : j = i
        · subst hji
          refine ⟨?_, hres2_self⟩
          have h1 : (st.rem.set j (st.rem.getD j 0 - q.minWith (st.rem.getD j 0))).getD j 0
              = st.rem.getD j 0 - q.minWith (st.rem.getD j 0) := hrem1self
          push_neg at hrepos
          rw [h1] at hrepos ⊢
          linarith
        · have hjq : j ∉ rest ++ rrAdmit ps (st.time + q.minWith (st.rem.getD i 0))
              st.arrived := hq'
          have hjadm : j ∉ rrAdmit ps (st.time + q.minWith (st.rem.getD i 0)) st.arrived :=
            fun hc => hjq (List.mem_append.mpr (Or.inr hc))
          have hjarr : st.arrived.getD j false = true := by
            by_contra hfalse
            rw [setTrues_getD_not_mem hjadm] at harr'
            exact hfalse harr'
          have hjoldq : j ∉ st.queue := by
            rw [hqueue]
            intro hc
            rcases List.mem_cons.mp hc with h | h
            · exact hji h
            · exact hjq (List.mem_append.mpr (Or.inl h))
          obtain ⟨hr0, hrs⟩ := hinv.fin j hj hjarr hjoldq
          refine ⟨by rw [hrem1ne j hji]; exact hr0, ?_⟩
          rw [hres2_ne _ (pid_ne_of_ne hnd hj hilt hji)]
          exact hrs
      · intro j hj hfs'
        by_cases hji : j = i
        · subst hji
          exact hres2_self
        · rw [hfs1_ne j hji] at hfs'
          rw [hres2_ne _ (pid_ne_of_ne hnd hj hilt hji)]
          exact hinv.fs_res j hj hfs'

theorem rrInv_exit {ps : List Process} {st : RRState} (hinv : RRInv ps st)
    (hqe : st.queue = [])
    (hall : ∀ i, i < ps.length → st.arrived.getD i false = true) :
    (∀ p ∈ ps, sumLenFor p.pid st.blocks = p.burst) ∧
      (∀ p ∈ ps, (mapGet st.res p.pid).isSome = true) := by
  have key : ∀ p ∈ ps, sumLenFor p.pid st.blocks = p.burst ∧
      (mapGet st.res p.pid).isSome = true := by
    intro p hp
    obtain ⟨i, hi, hpi⟩ := List.mem_iff_getElem.mp hp
    have hgi : getP ps i = p := by rw [getP_eq_getElem hi, hpi]
    obtain ⟨hr0, hrs⟩ := hinv.fin i hi (hall i hi) (by rw [hqe]; simp)
    have hsum := hinv.sums i hi
    rw [hr0] at hsum
    rw [hgi] at hsum hrs
    exact ⟨by linarith, hrs⟩
  exact ⟨fun p hp => (key p hp).1, fun p hp => (key p hp).2⟩

theorem rrBody_none {ps : List Process} {q : JSNum} {st : RRState}
    (hbody : rrBody ps q st = none) :
    st.queue = [] ∧ ∀ i, i < ps.length → st.arrived.getD i false = true := by
  rcases hqueue : st.queue with _ | ⟨i, rest⟩
  · rw [rrBody, hqueue] at hbody
    rcases hfind : (List.range ps.length).find? (fun j => !(st.arrived.getD j false))
      with _ | nextIdx
    · refine ⟨rfl, ?_⟩
      intro j hj
      have := List.find?_eq_none.mp hfind j (List.mem_range.mpr hj)
      simpa using this
    · rw [hfind] at hbody
      simp at hbody
  · exfalso
    rw [rrBody, hqueue] at hbody
    have hbody2 : (if 0 < (st.rem.set i (st.rem.getD i 0 -
        q.minWith (st.rem.getD i 0))).getD i 0 then
          some (⟨st.time + q.minWith (st.rem.getD i 0),
            st.rem.set i (st.rem.getD i 0 - q.minWith (st.rem.getD i 0)),
            (if (st.firstStart.getD i none).isSome then st.firstStart
              else st.firstStart.set i (some st.time)),
            (rest ++ rrAdmit ps (st.time + q.minWith (st.rem.getD i 0)) st.arrived)
              ++ [i],
            setTrues st.arrived (rrAdmit ps (st.time + q.minWith (st.rem.getD i 0))
              st.arrived),
            st.blocks ++ [⟨(getP ps i).pid, st.time,
              st.time + q.minWith (st.rem.getD i 0)⟩],
            (if (st.firstStart.getD i none).isSome then st.res
              else mapSet st.res (getP ps i).pid
                ⟨st.time, 0, 0, 0, st.time - (getP ps i).arrival, (getP ps i).arrival,
                  (getP ps i).burst, (getP ps i).priority⟩)⟩ : RRState)
        else
          some (⟨st.time + q.minWith (st.rem.getD i 0),
            st.rem.set i (st.rem.getD i 0 - q.minWith (st.rem.getD i 0)),
            (if (st.firstStart.getD i none).isSome then st.firstStart
              else st.firstStart.set i (some st.time)),
            rest ++ rrAdmit ps (st.time + q.minWith (st.rem.getD i 0)) st.arrived,
            setTrues st.arrived (rrAdmit ps (st.time + q.minWith (st.rem.getD i 0))
              st.arrived),
            st.blocks ++ [⟨(getP ps i).pid, st.time,
              st.time + q.minWith (st.rem.getD i 0)⟩],
            (match mapGet (if (st.firstStart.getD i none).isSome then st.res
                else mapSet st.res (getP ps i).pid
                  ⟨st.time, 0, 0, 0, st.time - (getP ps i).arrival, (getP ps i).arrival,
                    (getP ps i).burst, (getP ps i).priority⟩) (getP ps i).pid with
              | some r => mapSet (if (st.firstStart.getD i none).isSome then st.res
                  else mapSet st.res (getP ps i).pid
                    ⟨st.time, 0, 0, 0, st.time - (getP ps i).arrival,
                      (getP ps i).arrival, (getP ps i).burst, (getP ps i).priority⟩)
                  (getP ps i).pid
                  { r with completion := st.time + q.minWith (st.rem.getD i 0),
                           tat := st.time + q.minWith (st.rem.getD i 0)
                             - (getP ps i).arrival,
                           wt := st.time + q.minWith (st.rem.getD i 0)
                             - (getP ps i).arrival - (getP ps i).burst }
              | none => (if (st.firstStart.getD i none).isSome then st.res
                  else mapSet st.res (getP ps i).pid
                    ⟨st.time, 0, 0, 0, st.time - (getP ps i).arrival,
                      (getP ps i).arrival, (getP ps i).burst,
                      (getP ps i).priority⟩))⟩ : RRState)) = none := hbody
    split at hbody2 <;> simp at hbody2

/-- Whatever the Round-Robin loop returns under the invariant satisfies
tiling, conservation, and has a result entry for every process. -/
theorem rrLoop_good (ps : List Process) (q : JSNum)
    (hb : ∀ p ∈ ps, 0 < p.burst) (hnd : (ps.map (·.pid)).Nodup)
    (hidle : ∀ p ∈ ps, p.pid ≠ "IDLE") (hq : q.gtZero = true) :
    ∀ (fuel : ℕ) (st : RRState) (r : SimResult), RRInv ps st →
      rrLoop ps q fuel st = some r →
      chainFrom (minArrival ps) r.blocks r.endTime ∧
        (∀ p ∈ ps, sumLenFor p.pid r.blocks = p.burst) ∧
        (∀ p ∈ ps, (mapGet r.results p.pid).isSome = true) := by
  intro fuel
  induction fuel with
  | zero => intro st r _ h; simp [rrLoop] at h
  | succ fuel ih =>
      intro st r hinv hr
      rw [rrLoop] at hr
      by_cases hc : 0 < st.queue.length ∨ st.arrived.count true < ps.length
      · rw [if_pos hc] at hr
        rcases hbody : rrBody ps q st with _ | st'
        · rw [hbody] at hr
          simp only [Option.some.injEq] at hr
          subst hr
          obtain ⟨hqe, hall⟩ := rrBody_none hbody
          obtain ⟨h1, h2⟩ := rrInv_exit hinv hqe hall
          exact ⟨hinv.chain, h1, h2⟩
        · rw [hbody] at hr
          exact ih st' r (rrBody_inv hb hnd hidle hq hinv hbody) hr
      · rw [if_neg hc] at hr
        simp only [Option.some.injEq] at hr
        subst hr
        push_neg at hc
        obtain ⟨hq0, hcnt⟩ := hc
        have hqe : st.queue = [] := by
          have : st.queue.length = 0 := by omega
          exact List.length_eq_zero.mp this
        have hcnt_eq : st.arrived.count true = st.arrived.length := by
          have h1 := count_true_le_length st.arrived
          have h2 := hinv.arrlen
          omega
        have hall : ∀ i, i < ps.length → st.arrived.getD i false = true := by
          intro i hi
          exact all_true_of_count_eq hcnt_eq i (by rw [hinv.arrlen]; exact hi)
        obtain ⟨h1, h2⟩ := rrInv_exit hinv hqe hall
        exact ⟨hinv.chain, h1, h2⟩

theorem rrPhi_pos {q : JSNum} (hq : q.gtZero = true) {r : ℚ} (hr : 0 < r) :
    0 < rrPhi q r := by
  rcases q with qq | _ | _ | _
  · have hqq : 0 < qq := by simpa [JSNum.gtZero] using hq
    unfold rrPhi
    rw [if_neg (by linarith)]
    have : (0 : ℤ) < ⌈r / qq⌉ := Int.ceil_pos.mpr (by positivity)
    show 0 < (⌈r / qq⌉).toNat
    omega
  · simp [JSNum.gtZero] at hq
  · unfold rrPhi
    rw [if_neg (by linarith)]
    show (0 : ℕ) < 1
    omega
  · simp [JSNum.gtZero] at hq

theorem rrPhi_lt {q : JSNum} (hq : q.gtZero = true) {r : ℚ} (hr : 0 < r) :
    rrPhi q (r - q.minWith r) < rrPhi q r := by
  rcases q with qq | _ | _ | _
  · have hqq : 0 < qq := by simpa [JSNum.gtZero] using hq
    by_cases hle : r ≤ qq
    · have hmin : JSNum.minWith (.num qq) r = r := by
        simp [JSNum.minWith, min_eq_right hle]
      rw [hmin]
      have h0 : rrPhi (.num qq) (r - r) = 0 := by
        unfold rrPhi
        rw [if_pos (by linarith)]
      rw [h0]
      exact rrPhi_pos hq hr
    · push_neg at hle
      have hmin : JSNum.minWith (.num qq) r = qq := by
        simp [JSNum.minWith, min_eq_left (le_of_lt hle)]
      rw [hmin]
      have hpos' : 0 < r - qq := by linarith
      have hdiv : (r - qq) / qq = r / qq - 1 := by
        field_simp
      unfold rrPhi
      rw [if_neg (by linarith), if_neg (by linarith)]
      show (⌈(r - qq) / qq⌉).toNat < (⌈r / qq⌉).toNat
      rw [hdiv, Int.ceil_sub_one]
      have h2 : (1 : ℤ) < ⌈r / qq⌉ := by
        rw [Int.lt_ceil]
        push_cast
        rw [lt_div_iff hqq]
        linarith
      omega
  · simp [JSNum.gtZero] at hq
  · have h0 : rrPhi .posInf (r - JSNum.minWith .posInf r) = 0 := by
      unfold rrPhi JSNum.minWith
      rw [if_pos (by linarith)]
    rw [h0]
    exact rrPhi_pos hq hr
  · simp [JSNum.gtZero] at hq

theorem sum_phi_set (q : JSNum) {rem : List ℚ} {i : ℕ} {n : ℕ}
    (hn : rem.length = n) (hi : i < n) (v : ℚ) :
    (∑ j ∈ Finset.range n, rrPhi q ((rem.set i v).getD j 0)) + rrPhi q (rem.getD i 0) =
      (∑ j ∈ Finset.range n, rrPhi q (rem.getD j 0)) + rrPhi q v := by
  have hil : i < rem.length := by omega
  have hcongr : ∀ j ∈ Finset.range n, rrPhi q ((rem.set i v).getD j 0) =
      Function.update (fun j => rrPhi q (rem.getD j 0)) i (rrPhi q v) j := by
    intro j _
    by_cases hj : j = i
    · subst hj
      rw [getD_set_self hil, Function.update_same]
    · rw [getD_set_ne (fun h => hj h.symm), Function.update_noteq hj]
  rw [Finset.sum_congr rfl hcongr,
    Finset.sum_update_of_mem (Finset.mem_range.mpr hi),
    Finset.sum_eq_sum_diff_singleton_add (Finset.mem_range.mpr hi)
      (fun j => rrPhi q (rem.getD j 0))]
  ring

theorem rrBody_measure {ps : List Process} {q : JSNum} {st st' : RRState}
    (hq : q.gtZero = true) (hinv : RRInv ps st)
    (hbody : rrBody ps q st = some st') :
    rrMeasure ps q st' < rrMeasure ps q st := by
  have hcnt_mono : ∀ (l : List ℕ),
      st.arrived.count true ≤ (setTrues st.arrived l).count true := by
    intro l
    apply count_le_of_pointwise (by rw [setTrues_length])
    intro j _ hj
    exact setTrues_getD_true hj
  rcases hqueue : st.queue with _ | ⟨i, rest⟩
  · -- idle branch: one more process is admitted
    rw [rrBody, hqueue] at hbody
    rcases hfind : (List.range ps.length).find? (fun j => !(st.arrived.getD j false))
      with _ | nextIdx
    · rw [hfind] at hbody; simp at hbody
    · rw [hfind] at hbody
      simp only [Option.some.injEq] at hbody
      subst hbody
      have hnlt : nextIdx < ps.length :=
        List.mem_range.mp (List.mem_of_find?_eq_some hfind)
      have hnarr : st.arrived.getD nextIdx false = false := by
        have := List.find?_some hfind
        simpa using this
      have hnmem : nextIdx ∈ rrAdmit ps (getP ps nextIdx).arrival st.arrived :=
        rrAdmit_mem.mpr ⟨hnlt, hnarr, le_refl _⟩
      have hcnt : st.arrived.count true <
          (setTrues st.arrived (rrAdmit ps (getP ps nextIdx).arrival
            st.arrived)).count true := by
        apply count_lt_of_pointwise (by rw [setTrues_length])
          (fun j _ hj => setTrues_getD_true hj)
          (by rw [hinv.arrlen]; exact hnlt) hnarr
        exact setTrues_getD_mem (by rw [hinv.arrlen]; exact hnlt) hnmem
      have hcnt_le : (setTrues st.arrived (rrAdmit ps (getP ps nextIdx).arrival
          st.arrived)).count true ≤ ps.length := by
        have := count_true_le_length (setTrues st.arrived
          (rrAdmit ps (getP ps nextIdx).arrival st.arrived))
        rw [setTrues_length, hinv.arrlen] at this
        exact this
      unfold rrMeasure
      refine Nat.add_lt_add_left ?_ _
      show ps.length - (setTrues st.arrived (rrAdmit ps (getP ps nextIdx).arrival
        st.arrived)).count true < ps.length - st.arrived.count true
      omega
  · -- dispatch branch: the head needs one dispatch fewer
    have hilt : i < ps.length :=
      hinv.queue_lt i (by rw [hqueue]; exact List.mem_cons_self _ _)
    have hipos : 0 < st.rem.getD i 0 :=
      hinv.queue_pos i (by rw [hqueue]; exact List.mem_cons_self _ _)
    have hphi_lt := rrPhi_lt hq hipos
    have hsum := sum_phi_set q hinv.remlen hilt
      (st.rem.getD i 0 - q.minWith (st.rem.getD i 0))
    have hstep : ∀ (s' : RRState),
        s'.rem = st.rem.set i (st.rem.getD i 0 - q.minWith (st.rem.getD i 0)) →
        st.arrived.count true ≤ s'.arrived.count true →
        rrMeasure ps q s' < rrMeasure ps q st := by
      intro s' hrem hcnt
      unfold rrMeasure
      rw [hrem]
      have hA : (∑ j ∈ Finset.range ps.length,
          rrPhi q ((st.rem.set i (st.rem.getD i 0 -
            q.minWith (st.rem.getD i 0))).getD j 0)) <
          ∑ j ∈ Finset.range ps.length, rrPhi q (st.rem.getD j 0) := by
        omega
      have hmul : (∑ j ∈ Finset.range ps.length,
          rrPhi q ((st.rem.set i (st.rem.getD i 0 -
            q.minWith (st.rem.getD i 0))).getD j 0)) * (ps.length + 1) +
            (ps.length + 1) ≤
          (∑ j ∈ Finset.range ps.length, rrPhi q (st.rem.getD j 0)) * (ps.length + 1) := by
        have h1 : (∑ j ∈ Finset.range ps.length,
            rrPhi q ((st.rem.set i (st.rem.getD i 0 -
              q.minWith (st.rem.getD i 0))).getD j 0)) + 1 ≤
            ∑ j ∈ Finset.range ps.length, rrPhi q (st.rem.getD j 0) := hA
        calc (∑ j ∈ Finset.range ps.length,
            rrPhi q ((st.rem.set i (st.rem.getD i 0 -
              q.minWith (st.rem.getD i 0))).getD j 0)) * (ps.length + 1) +
              (ps.length + 1)
            = ((∑ j ∈ Finset.range ps.length,
                rrPhi q ((st.rem.set i (st.rem.getD i 0 -
                  q.minWith (st.rem.getD i 0))).getD j 0)) + 1) * (ps.length + 1) := by
              ring
          _ ≤ (∑ j ∈ Finset.range ps.length, rrPhi q (st.rem.getD j 0)) *
              (ps.length + 1) := Nat.mul_le_mul_right _ h1
      have hs' : ps.length - s'.arrived.count true ≤ ps.length := by omega
      omega
    rw [rrBody, hqueue] at hbody
    by_cases hrepos : 0 < (st.rem.set i (st.rem.getD i 0 -
        q.minWith (st.rem.getD i 0))).getD i 0
    · have hbody2 : (if 0 < (st.rem.set i (st.rem.getD i 0 -
          q.minWith (st.rem.getD i 0))).getD i 0 then
            some (⟨st.time + q.minWith (st.rem.getD i 0),
              st.rem.set i (st.rem.getD i 0 - q.minWith (st.rem.getD i 0)),
              (if (st.firstStart.getD i none).isSome then st.firstStart
                else st.firstStart.set i (some st.time)),
              (rest ++ rrAdmit ps (st.time + q.minWith (st.rem.getD i 0))
                st.arrived) ++ [i],
              setTrues st.arrived (rrAdmit ps (st.time + q.minWith (st.rem.getD i 0))
                st.arrived),
              st.blocks ++ [⟨(getP ps i).pid, st.time,
                st.time + q.minWith (st.rem.getD i 0)⟩],
              (if (st.firstStart.getD i none).isSome then st.res
                else mapSet st.res (getP ps i).pid
                  ⟨st.time, 0, 0, 0, st.time - (getP ps i).arrival, (getP ps i).arrival,
                    (getP ps i).burst, (getP ps i).priority⟩)⟩ : RRState)
          else _) = some st' := hbody
      rw [if_pos hrepos] at hbody2
      simp only [Option.some.injEq] at hbody2
      subst hbody2
      exact hstep _ rfl (hcnt_mono _)
    · have hbody2 : (if 0 < (st.rem.set i (st.rem.getD i 0 -
          q.minWith (st.rem.getD i 0))).getD i 0 then _
          else
            some (⟨st.time + q.minWith (st.rem.getD i 0),
              st.rem.set i (st.rem.getD i 0 - q.minWith (st.rem.getD i 0)),
              (if (st.firstStart.getD i none).isSome then st.firstStart
                else st.firstStart.set i (some st.time)),
              rest ++ rrAdmit ps (st.time + q.minWith (st.rem.getD i 0)) st.arrived,
              setTrues st.arrived (rrAdmit ps (st.time + q.minWith (st.rem.getD i 0))
                st.arrived),
              st.blocks ++ [⟨(getP ps i).pid, st.time,
                st.time + q.minWith (st.rem.getD i 0)⟩],
              (match mapGet (if (st.firstStart.getD i none).isSome then st.res
                  else mapSet st.res (getP ps i).pid
                    ⟨st.time, 0, 0, 0, st.time - (getP ps i).arrival, (getP ps i).arrival,
                      (getP ps i).burst, (getP ps i).priority⟩) (getP ps i).pid with
                | some r => mapSet (if (st.firstStart.getD i none).isSome then st.res
                    else mapSet st.res (getP ps i).pid
                      ⟨st.time, 0, 0, 0, st.time - (getP ps i).arrival,
                        (getP ps i).arrival, (getP ps i).burst, (getP ps i).priority⟩)
                    (getP ps i).pid
                    { r with completion := st.time + q.minWith (st.rem.getD i 0),
                             tat := st.time + q.minWith (st.rem.getD i 0)
                               - (getP ps i).arrival,
                             wt := st.time + q.minWith (st.rem.getD i 0)
                               - (getP ps i).arrival - (getP ps i).burst }
                | none => (if (st.firstStart.getD i none).isSome then st.res
                    else mapSet st.res (getP ps i).pid
                      ⟨st.time, 0, 0, 0, st.time - (getP ps i).arrival,
                        (getP ps i).arrival, (getP ps i).burst,
                        (getP ps i).priority⟩))⟩ : RRState)) = some st' := hbody
      rw [if_neg hrepos] at hbody2
      simp only [Option.some.injEq] at hbody2
      subst hbody2
      exact hstep _ rfl (hcnt_mono _)

theorem rrLoop_terminates (ps : List Process) (q : JSNum)
    (hb : ∀ p ∈ ps, 0 < p.burst) (hnd : (ps.map (·.pid)).Nodup)
    (hidle : ∀ p ∈ ps, p.pid ≠ "IDLE") (hq : q.gtZero = true) :
    ∀ (fuel : ℕ) (st : RRState), RRInv ps st → rrMeasure ps q st < fuel →
      ∃ r, rrLoop ps q fuel st = some r := by
  intro fuel
  induction fuel with
  | zero => intro st _ hm; omega
  | succ fuel ih =>
      intro st hinv hm
      rw [rrLoop]
      by_cases hc : 0 < st.queue.length ∨ st.arrived.count true < ps.length
      · rw [if_pos hc]
        rcases hbody : rrBody ps q st with _ | st'
        · exact ⟨_, rfl⟩
        · have hm' := rrBody_measure hq hinv hbody
          exact ih st' (rrBody_inv hb hnd hidle hq hinv hbody) (by omega)
      · rw [if_neg hc]
        exact ⟨_, rfl⟩

/-- Any result `roundRobin` returns on valid input tiles the timeline,
conserves bursts, and records every process. -/
theorem rr_good {ps : List Process} {q : JSNum} {fuel : ℕ} {r : SimResult}
    (hb : ∀ p ∈ ps, 0 < p.burst) (hnd : (ps.map (·.pid)).Nodup)
    (hidle : ∀ p ∈ ps, p.pid ≠ "IDLE")
    (h : roundRobin ps q fuel = .ok (some r)) :
    chainFrom (minArrival ps) r.blocks r.endTime ∧
      (∀ p ∈ ps, sumLenFor p.pid r.blocks = p.burst) ∧
      (∀ p ∈ ps, (mapGet r.results p.pid).isSome = true) := by
  rw [roundRobin] at h
  by_cases hq : q.gtZero
  · rw [if_pos hq] at h
    simp only [Except.ok.injEq] at h
    exact rrLoop_good ps q hb hnd hidle hq fuel (rrInit ps) r (rrInv_init ps hb) h
  · rw [if_neg hq] at h
    simp at h

/-- With enough fuel, `roundRobin` terminates on any quantum passing the
guard, integer or not. -/
theorem rr_terminates (ps : List Process) (q : JSNum)
    (hb : ∀ p ∈ ps, 0 < p.burst) (hnd : (ps.map (·.pid)).Nodup)
    (hidle : ∀ p ∈ ps, p.pid ≠ "IDLE") (hq : q.gtZero = true) :
    ∃ fuel r, roundRobin ps q fuel = .ok (some r) := by
  obtain ⟨r, hr⟩ := rrLoop_terminates ps q hb hnd hidle hq
    (rrMeasure ps q (rrInit ps) + 1) (rrInit ps) (rrInv_init ps hb) (by omega)
  exact ⟨_, r, by rw [roundRobin, if_pos hq, hr]⟩

/-- On an arrival-sorted process list the admission sweep returns indices in
arrival order. -/
theorem rrAdmit_sorted {ps : List Process} (hsort : List.Pairwise procLe ps)
    (t : ℚ) (arrived : List Bool) :
    List.Pairwise (fun a b => (getP ps a).arrival ≤ (getP ps b).arrival)
      (rrAdmit ps t arrived) := by
  have h1 : List.Pairwise (· < ·) (List.range ps.length) := List.pairwise_lt_range _
  have h2 := h1.filter
    (fun k => !(arrived.getD k false) && decide ((getP ps k).arrival ≤ t))
  refine h2.imp_of_mem ?_
  intro a b _ hb hab
  have hb2 : b < ps.length := List.mem_range.mp (List.mem_of_mem_filter hb)
  exact pairwise_arrival_mono hsort a b hab hb2

/-- Shape of one Round-Robin dispatch: the head runs for
`min(quantum, remaining)`; newly arrived processes are appended to the queue
first, and the head is re-enqueued after them iff it still has remaining
burst (src/script.js lines 257-269). -/
theorem rrBody_dispatch {ps : List Process} {q : JSNum} {st st' : RRState}
    {i : ℕ} {rest : List ℕ}
    (hqueue : st.queue = i :: rest) (hbody : rrBody ps q st = some st') :
    st'.time = st.time + q.minWith (st.rem.getD i 0) ∧
    st'.rem = st.rem.set i (st.rem.getD i 0 - q.minWith (st.rem.getD i 0)) ∧
    st'.queue = (if 0 < (st.rem.set i (st.rem.getD i 0 -
        q.minWith (st.rem.getD i 0))).getD i 0
      then (rest ++ rrAdmit ps (st.time + q.minWith (st.rem.getD i 0))
        st.arrived) ++ [i]
      else rest ++ rrAdmit ps (st.time + q.minWith (st.rem.getD i 0))
        st.arrived) := by
  rw [rrBody, hqueue] at hbody
  by_cases hrepos : 0 < (st.rem.set i (st.rem.getD i 0 -
      q.minWith (st.rem.getD i 0))).getD i 0
  · have hbody2 : (if 0 < (st.rem.set i (st.rem.getD i 0 -
        q.minWith (st.rem.getD i 0))).getD i 0 then
          some (⟨st.time + q.minWith (st.rem.getD i 0),
            st.rem.set i (st.rem.getD i 0 - q.minWith (st.rem.getD i 0)),
            (if (st.firstStart.getD i none).isSome then st.firstStart
              else st.firstStart.set i (some st.time)),
            (rest ++ rrAdmit ps (st.time + q.minWith (st.rem.getD i 0))
              st.arrived) ++ [i],
            setTrues st.arrived (rrAdmit ps (st.time + q.minWith (st.rem.getD i 0))
              st.arrived),
            st.blocks ++ [⟨(getP ps i).pid, st.time,
              st.time + q.minWith (st.rem.getD i 0)⟩],
            (if (st.firstStart.getD i none).isSome then st.res
              else mapSet st.res (getP ps i).pid
                ⟨st.time, 0, 0, 0, st.time - (getP ps i).arrival, (getP ps i).arrival,
                  (getP ps i).burst, (getP ps i).priority⟩)⟩ : RRState)
        else _) = some st' := hbody
    rw [if_pos hrepos] at hbody2
    simp only [Option.some.injEq] at hbody2
    subst hbody2
    exact ⟨rfl, rfl, by rw [if_pos hrepos]⟩
  · have hbody2 : (if 0 < (st.rem.set i (st.rem.getD i 0 -
        q.minWith (st.rem.getD i 0))).getD i 0 then _
        else
          some (⟨st.time + q.minWith (st.rem.getD i 0),
            st.rem.set i (st.rem.getD i 0 - q.minWith (st.rem.getD i 0)),
            (if (st.firstStart.getD i none).isSome then st.firstStart
              else st.firstStart.set i (some st.time)),
            rest ++ rrAdmit ps (st.time + q.minWith (st.rem.getD i 0)) st.arrived,
            setTrues st.arrived (rrAdmit ps (st.time + q.minWith (st.rem.getD i 0))
              st.arrived),
            st.blocks ++ [⟨(getP ps i).pid, st.time,
              st.time + q.minWith (st.rem.getD i 0)⟩],
            (match mapGet (if (st.firstStart.getD i none).isSome then st.res
                else mapSet st.res (getP ps i).pid
                  ⟨st.time, 0, 0, 0, st.time - (getP ps i).arrival, (getP ps i).arrival,
                    (getP ps i).burst, (getP ps i).priority⟩) (getP ps i).pid with
              | some r => mapSet (if (st.firstStart.getD i none).isSome then st.res
                  else mapSet st.res (getP ps i).pid
                    ⟨st.time, 0, 0, 0, st.time - (getP ps i).arrival,
                      (getP ps i).arrival, (getP ps i).burst, (getP ps i).priority⟩)
                  (getP ps i).pid
                  { r with completion := st.time + q.minWith (st.rem.getD i 0),
                           tat := st.time + q.minWith (st.rem.getD i 0)
                             - (getP ps i).arrival,
                           wt := st.time + q.minWith (st.rem.getD i 0)
                             - (getP ps i).arrival - (getP ps i).burst }
              | none => (if (st.firstStart.getD i none).isSome then st.res
                  else mapSet st.res (getP ps i).pid
                    ⟨st.time, 0, 0, 0, st.time - (getP ps i).arrival,
                      (getP ps i).arrival, (getP ps i).burst,
                      (getP ps i).priority⟩))⟩ : RRState)) = some st' := hbody
    rw [if_neg hrepos] at hbody2
    simp only [Option.some.injEq] at hbody2
    subst hbody2
    exact ⟨rfl, rfl, by rw [if_neg hrepos]⟩

theorem pairwise_procLt {l : List Process} (hs : List.Pairwise procLe l)
    (hnd : (l.map (·.pid)).Nodup) : List.Pairwise procLt l := by
  rw [List.Nodup, List.pairwise_map] at hnd
  refine (hs.and hnd).imp ?_
  intro a b h
  rcases h with ⟨h1 | ⟨he, hle⟩, hne⟩
  · exact Or.inl h1
  · exact Or.inr ⟨he, lt_of_le_of_ne hle hne⟩

/-- Two arrival/pid-sorted lists that are permutations of each other and
whose pids are duplicate-free are equal. -/
theorem sorted_perm_eq {l1 l2 : List Process} (hp : l1.Perm l2)
    (hs1 : List.Pairwise procLe l1) (hs2 : List.Pairwise procLe l2)
    (hnd : (l1.map (·.pid)).Nodup) : l1 = l2 := by
  have hnd2 : (l2.map (·.pid)).Nodup := ((hp.map _).nodup_iff).mp hnd
  exact List.eq_of_perm_of_sorted hp (pairwise_procLt hs1 hnd)
    (pairwise_procLt hs2 hnd2)

/-- The caller-side sort makes the pipeline permutation-invariant: two row
lists whose validated parses are permutations of each other produce the same
sorted process list. -/
theorem readProcesses_perm {rows rows' : List RawRow} {ps ps' : List Process}
    (h : readProcessesGo rows [] = .ok ps)
    (h' : readProcessesGo rows' [] = .ok ps')
    (hperm : ps.Perm ps') (hnd : (ps.map (·.pid)).Nodup) :
    readProcesses rows = readProcesses rows' := by
  rw [readProcesses, readProcesses, h, h']
  simp only [Except.map]
  congr 1
  apply sorted_perm_eq
  · exact (List.perm_insertionSort procLe ps).trans
      (hperm.trans (List.perm_insertionSort procLe ps').symm)
  · exact List.sorted_insertionSort procLe ps
  · exact List.sorted_insertionSort procLe ps'
  · exact (((List.perm_insertionSort procLe ps).map _).nodup_iff).mpr hnd

/-- Caller-side validation fails on any row list whose pids (together with the
already-seen ones) contain a duplicate. -/
theorem readProcessesGo_dup : ∀ (rows : List RawRow) (seen : List String),
    seen.Nodup → ¬((seen ++ rows.map (·.pid)).Nodup) →
    ∃ e, readProcessesGo rows seen = .error e := by
  intro rows
  induction rows with
  | nil =>
      intro seen hs hd
      exact absurd (by simpa using hs) hd
  | cons r rest ih =>
      intro seen hs hd
      rw [readProcessesGo]
      by_cases h1 : r.pid = ""
      · rw [if_pos h1]; exact ⟨_, rfl⟩
      · rw [if_neg h1]
        by_cases h2 : seen.contains r.pid
        · rw [if_pos h2]; exact ⟨_, rfl⟩
        · rw [if_neg h2]
          rcases h3 : (!(r.atN.isFiniteNum && decide (0 ≤ r.atN.toQ))) with _ | _
          · rw [if_neg (by simp)]
            rcases h4 : (!(r.btN.isFiniteNum && decide (0 < r.btN.toQ))) with _ | _
            · rw [if_neg (by simp)]
              rcases h5 : (!r.prN.isFiniteNum) with _ | _
              · rw [if_neg (by simp)]
                have hnotin : r.pid ∉ seen := by
                  intro hmem
                  exact h2 (by simpa [List.contains_eq_any_beq] using hmem)
                have hs' : (seen ++ [r.pid]).Nodup := by
                  rw [List.nodup_append]
                  exact ⟨hs, List.nodup_singleton _, by simpa using hnotin⟩
                have hd' : ¬(((seen ++ [r.pid]) ++ rest.map (·.pid)).Nodup) := by
                  intro hcontra
                  apply hd
                  rw [List.append_assoc] at hcontra
                  simpa using hcontra
                obtain ⟨e, he⟩ := ih (seen ++ [r.pid]) hs' hd'
                rw [he]
                exact ⟨e, rfl⟩
              · rw [if_pos rfl]; exact ⟨_, rfl⟩
            · rw [if_pos rfl]; exact ⟨_, rfl⟩
          · rw [if_pos rfl]; exact ⟨_, rfl⟩

/-- Sanity: a concrete FCFS run (spec section 8, FCFS scenario). -/
theorem fcfs_scenario :
    fcfs [⟨"P1", 0, 7, 2⟩, ⟨"P2", 2, 4, 1⟩, ⟨"P3", 4, 1, 3⟩] =
      ⟨[⟨"P1", 0, 7⟩, ⟨"P2", 7, 11⟩, ⟨"P3", 11, 12⟩],
        [("P1", ⟨0, 7, 7, 0, 0, 0, 7, 2⟩),
         ("P2", ⟨7, 11, 9, 5, 5, 2, 4, 1⟩),
         ("P3", ⟨11, 12, 8, 7, 7, 4, 1, 3⟩)], 12⟩ := by
  simp +decide [fcfs, fcfsLoop, minArrival, mapSet]
  norm_num

/-! ## The claims -/

/-- C1: for every valid process set, each of the five algorithms returns
blocks that, in order, exactly tile `[min(arrival), endTime)`: the first
block starts at `min(arrival)`, every block has `end > start`, each block's
`end` is the next block's `start`, and the last block's `end` is `endTime`
(`chainFrom` states precisely this).  For the fueled loops the guarantee
applies to whatever result is returned. -/
theorem claim_C1 (ps : List Process) (fuel : ℕ) (q : JSNum)
    (hv : ValidInput ps) :
    chainFrom (minArrival ps) (fcfs ps).blocks (fcfs ps).endTime ∧
    (∀ r, sjf ps fuel = some r → chainFrom (minArrival ps) r.blocks r.endTime) ∧
    (∀ r, prioritySchedule ps fuel = some r →
      chainFrom (minArrival ps) r.blocks r.endTime) ∧
    (∀ r, srtf ps fuel = some r → chainFrom (minArrival ps) r.blocks r.endTime) ∧
    (∀ r, roundRobin ps q fuel = .ok (some r) →
      chainFrom (minArrival ps) r.blocks r.endTime) := by
  obtain ⟨hne, hnd, hall⟩ := hv
  have hb : ∀ p ∈ ps, 0 < p.burst := fun p hp => (hall p hp).2.1
  have hidle : ∀ p ∈ ps, p.pid ≠ "IDLE" := fun p hp => (hall p hp).2.2.1
  refine ⟨fcfs_chain ps hb, ?_, ?_, ?_, ?_⟩
  · intro r hr
    exact (npLoop_good ps (sjfLe ps) hb hnd hidle fuel (npInit ps) r
      (npInv_init ps) hr).1
  · intro r hr
    exact (npLoop_good ps (prLe ps) hb hnd hidle fuel (npInit ps) r
      (npInv_init ps) hr).1
  · intro r hr
    exact (srtf_good hnd hidle hr).1
  · intro r hr
    exact (rr_good hb hnd hidle hr).1

theorem claim_C1_witness :
    ValidInput [⟨"P1", 0, 1, 0⟩] ∧
    (chainFrom (minArrival [⟨"P1", 0, 1, 0⟩]) (fcfs [⟨"P1", 0, 1, 0⟩]).blocks
        (fcfs [⟨"P1", 0, 1, 0⟩]).endTime ∧
      (∀ r, sjf [⟨"P1", 0, 1, 0⟩] 5 = some r →
        chainFrom (minArrival [⟨"P1", 0, 1, 0⟩]) r.blocks r.endTime) ∧
      (∀ r, prioritySchedule [⟨"P1", 0, 1, 0⟩] 5 = some r →
        chainFrom (minArrival [⟨"P1", 0, 1, 0⟩]) r.blocks r.endTime) ∧
      (∀ r, srtf [⟨"P1", 0, 1, 0⟩] 5 = some r →
        chainFrom (minArrival [⟨"P1", 0, 1, 0⟩]) r.blocks r.endTime) ∧
      (∀ r, roundRobin [⟨"P1", 0, 1, 0⟩] (.num 1) 5 = .ok (some r) →
        chainFrom (minArrival [⟨"P1", 0, 1, 0⟩]) r.blocks r.endTime)) :=
  ⟨by with_unfolding_all decide,
    claim_C1 [⟨"P1", 0, 1, 0⟩] 5 (.num 1) (by with_unfolding_all decide)⟩

/-- C2 (amended): the SRTF scan picks, among arrived-and-incomplete
candidates, a process minimal for (remaining burst, then pid) — the arrival
tie-break level claimed by the spec is NOT applied: the pid comparison
`processes[j].pid < processes[best].pid` (src/script.js line 166) is reached
whenever remaining bursts are equal, regardless of arrivals.  On
arrival-sorted input (which the caller guarantees) the selection is exactly
the (remaining, pid)-lexicographic minimum, `remLex`. -/
theorem claim_C2 {ps : List Process} {rem : List ℚ} {done : List Bool}
    {time : ℚ} {c : ℕ} (hsort : List.Pairwise procLe ps)
    (h : srtfPick ps rem done time = some c) :
    ∀ j, j < ps.length → srtfCand ps rem done time j → remLex ps rem c j :=
  srtfPick_min hsort h

theorem claim_C2_witness :
    List.Pairwise procLe [⟨"B", 0, 3, 0⟩, ⟨"A", 1, 2, 0⟩] ∧
    srtfPick [⟨"B", 0, 3, 0⟩, ⟨"A", 1, 2, 0⟩] [2, 2] [false, false] 1 = some 1 ∧
    (∀ j, j < ([⟨"B", 0, 3, 0⟩, ⟨"A", 1, 2, 0⟩] : List Process).length →
      srtfCand [⟨"B", 0, 3, 0⟩, ⟨"A", 1, 2, 0⟩] [2, 2] [false, false] 1 j →
      remLex [⟨"B", 0, 3, 0⟩, ⟨"A", 1, 2, 0⟩] [2, 2] 1 j) :=
  ⟨by with_unfolding_all decide, by with_unfolding_all decide,
    claim_C2 (by with_unfolding_all decide) (by with_unfolding_all decide)⟩

/-- C2 counterexample: at time 1 both processes are candidates with equal
remaining burst 2; index 0 ("B") arrived strictly earlier, yet the scan
picks index 1 ("A", smaller pid), contradicting the claimed arrival-first
tie-break.  The full run shows "B" being preempted at t=1 accordingly. -/
theorem claim_C2_cex :
    srtfPick [⟨"B", 0, 3, 0⟩, ⟨"A", 1, 2, 0⟩] [2, 2] [false, false] 1 = some 1 ∧
    srtfCand [⟨"B", 0, 3, 0⟩, ⟨"A", 1, 2, 0⟩] [2, 2] [false, false] 1 0 ∧
    ([2, 2] : List ℚ).getD 0 0 = ([2, 2] : List ℚ).getD 1 0 ∧
    (getP [⟨"B", 0, 3, 0⟩, ⟨"A", 1, 2, 0⟩] 0).arrival <
      (getP [⟨"B", 0, 3, 0⟩, ⟨"A", 1, 2, 0⟩] 1).arrival ∧
    srtf [⟨"B", 0, 3, 0⟩, ⟨"A", 1, 2, 0⟩] 11 = some
      ⟨[⟨"B", 0, 1⟩, ⟨"A", 1, 3⟩, ⟨"B", 3, 5⟩],
       [("B", ⟨0, 5, 5, 2, 0, 0, 3, 0⟩), ("A", ⟨1, 3, 2, 0, 0, 1, 2, 0⟩)], 5⟩ := by
  with_unfolding_all decide

/-- C3 (amended): on valid input, FCFS is total by construction, SJF and
Priority terminate with fuel `2n+2`, Round-Robin terminates for any quantum
passing the guard, and SRTF terminates provided every burst is an integer —
the unit-tick loop decrements remaining bursts by exactly 1, so a fractional
burst never reaches 0 and the loop diverges (see the counterexample). -/
theorem claim_C3 (ps : List Process) (q : JSNum) (hv : ValidInput ps)
    (hq : q.gtZero = true) :
    (∃ r : SimResult, fcfs ps = r) ∧
    (∃ fuel r, sjf ps fuel = some r) ∧
    (∃ fuel r, prioritySchedule ps fuel = some r) ∧
    ((∀ p ∈ ps, ∃ k : ℕ, p.burst = (k : ℚ)) →
      ∃ fuel r, srtf ps fuel = some r) ∧
    (∃ fuel r, roundRobin ps q fuel = .ok (some r)) := by
  obtain ⟨hne, hnd, hall⟩ := hv
  have hb : ∀ p ∈ ps, 0 < p.burst := fun p hp => (hall p hp).2.1
  have hidle : ∀ p ∈ ps, p.pid ≠ "IDLE" := fun p hp => (hall p hp).2.2.1
  refine ⟨⟨fcfs ps, rfl⟩, ⟨2 * ps.length + 2, np_terminates ps (sjfLe ps)⟩,
    ⟨2 * ps.length + 2, np_terminates ps (prLe ps)⟩,
    fun hint => ⟨_, srtf_terminates ps hb hint⟩, ?_⟩
  obtain ⟨fuel, r, h⟩ := rr_terminates ps q hb hnd hidle hq
  exact ⟨fuel, r, h⟩

theorem claim_C3_witness :
    ValidInput [⟨"P1", 0, 1, 0⟩] ∧ JSNum.gtZero (.num 1) = true ∧
    ((∃ r : SimResult, fcfs [⟨"P1", 0, 1, 0⟩] = r) ∧
      (∃ fuel r, sjf [⟨"P1", 0, 1, 0⟩] fuel = some r) ∧
      (∃ fuel r, prioritySchedule [⟨"P1", 0, 1, 0⟩] fuel = some r) ∧
      ((∀ p ∈ ([⟨"P1", 0, 1, 0⟩] : List Process), ∃ k : ℕ, p.burst = (k : ℚ)) →
        ∃ fuel r, srtf [⟨"P1", 0, 1, 0⟩] fuel = some r) ∧
      (∃ fuel r, roundRobin [⟨"P1", 0, 1, 0⟩] (.num 1) fuel = .ok (some r))) :=
  ⟨by with_unfolding_all decide, by with_unfolding_all decide,
    claim_C3 [⟨"P1", 0, 1, 0⟩] (.num 1) (by with_unfolding_all decide)
      (by with_unfolding_all decide)⟩

/-- C3 counterexample: with the fractional burst 1/2, SRTF never returns,
whatever the fuel: after one tick the remaining burst is `-1/2`, the process
is never again a candidate and never completes, so every iteration idles. -/
theorem claim_C3_cex :
    ¬ ∃ (fuel : ℕ) (r : SimResult), srtf [⟨"P1", 0, 1/2, 0⟩] fuel = some r := by
  rintro ⟨fuel, r, h⟩
  rw [srtf_diverges fuel] at h
  cases h

/-- C4: one Round-Robin dispatch (under the loop invariant, on arrival-sorted
input) takes the queue head `i`, runs it for `min(quantum, remaining)`, and
the new queue is the old tail, then the newly admitted processes — exactly
the not-yet-admitted ones whose arrival lies in the executed interval
`(time, time + run]`, in arrival order — and the head is re-enqueued after
all of them iff it still has remaining burst. -/
theorem claim_C4 {ps : List Process} {q : JSNum} {st st' : RRState}
    {i : ℕ} {rest : List ℕ} (hsort : List.Pairwise procLe ps)
    (hinv : RRInv ps st) (hqueue : st.queue = i :: rest)
    (hbody : rrBody ps q st = some st') :
    (st'.queue = if 0 < st.rem.getD i 0 - q.minWith (st.rem.getD i 0)
      then (rest ++ rrAdmit ps (st.time + q.minWith (st.rem.getD i 0))
        st.arrived) ++ [i]
      else rest ++ rrAdmit ps (st.time + q.minWith (st.rem.getD i 0))
        st.arrived) ∧
    (∀ j, j ∈ rrAdmit ps (st.time + q.minWith (st.rem.getD i 0)) st.arrived ↔
      (j < ps.length ∧ st.arrived.getD j false = false ∧
        st.time < (getP ps j).arrival ∧
        (getP ps j).arrival ≤ st.time + q.minWith (st.rem.getD i 0))) ∧
    List.Pairwise (fun a b => (getP ps a).arrival ≤ (getP ps b).arrival)
      (rrAdmit ps (st.time + q.minWith (st.rem.getD i 0)) st.arrived) := by
  obtain ⟨ht, hrem, hqv⟩ := rrBody_dispatch hqueue hbody
  have hilt : i < ps.length :=
    hinv.queue_lt i (by rw [hqueue]; exact List.mem_cons_self _ _)
  have hirem : i < st.rem.length := by rw [hinv.remlen]; exact hilt
  have hset : (st.rem.set i (st.rem.getD i 0 -
      q.minWith (st.rem.getD i 0))).getD i 0
      = st.rem.getD i 0 - q.minWith (st.rem.getD i 0) := getD_set_self hirem _ _
  refine ⟨by rw [hqv, hset], ?_, rrAdmit_sorted hsort _ _⟩
  intro j
  constructor
  · intro hj
    obtain ⟨hjl, hja, hjar⟩ := rrAdmit_mem.mp hj
    exact ⟨hjl, hja, (hinv.unarr j hjl hja).2, hjar⟩
  · rintro ⟨hjl, hja, _, hjar⟩
    exact rrAdmit_mem.mpr ⟨hjl, hja, hjar⟩

theorem claim_C4_witness :
    (rrInit [⟨"A", 0, 2, 0⟩, ⟨"B", 1, 5, 0⟩]).queue = 0 :: [] ∧
    rrBody [⟨"A", 0, 2, 0⟩, ⟨"B", 1, 5, 0⟩] (.num 1)
        (rrInit [⟨"A", 0, 2, 0⟩, ⟨"B", 1, 5, 0⟩]) =
      some ⟨1, [1, 5], [some 0, none], [1, 0], [true, true],
        [⟨"A", 0, 1⟩], [("A", ⟨0, 0, 0, 0, 0, 0, 2, 0⟩)]⟩ ∧
    ((RRState.queue (⟨1, [1, 5], [some 0, none], [1, 0], [true, true],
        [⟨"A", 0, 1⟩], [("A", ⟨0, 0, 0, 0, 0, 0, 2, 0⟩)]⟩ : RRState) =
      if 0 < (rrInit [⟨"A", 0, 2, 0⟩, ⟨"B", 1, 5, 0⟩]).rem.getD 0 0 -
          JSNum.minWith (.num 1)
            ((rrInit [⟨"A", 0, 2, 0⟩, ⟨"B", 1, 5, 0⟩]).rem.getD 0 0)
      then (([] : List ℕ) ++ rrAdmit [⟨"A", 0, 2, 0⟩, ⟨"B", 1, 5, 0⟩]
          ((rrInit [⟨"A", 0, 2, 0⟩, ⟨"B", 1, 5, 0⟩]).time +
            JSNum.minWith (.num 1)
              ((rrInit [⟨"A", 0, 2, 0⟩, ⟨"B", 1, 5, 0⟩]).rem.getD 0 0))
          (rrInit [⟨"A", 0, 2, 0⟩, ⟨"B", 1, 5, 0⟩]).arrived) ++ [0]
      else ([] : List ℕ) ++ rrAdmit [⟨"A", 0, 2, 0⟩, ⟨"B", 1, 5, 0⟩]
          ((rrInit [⟨"A", 0, 2, 0⟩, ⟨"B", 1, 5, 0⟩]).time +
            JSNum.minWith (.num 1)
              ((rrInit [⟨"A", 0, 2, 0⟩, ⟨"B", 1, 5, 0⟩]).rem.getD 0 0))
          (rrInit [⟨"A", 0, 2, 0⟩, ⟨"B", 1, 5, 0⟩]).arrived) ∧
      (∀ j, j ∈ rrAdmit [⟨"A", 0, 2, 0⟩, ⟨"B", 1, 5, 0⟩]
          ((rrInit [⟨"A", 0, 2, 0⟩, ⟨"B", 1, 5, 0⟩]).time +
            JSNum.minWith (.num 1)
              ((rrInit [⟨"A", 0, 2, 0⟩, ⟨"B", 1, 5, 0⟩]).rem.getD 0 0))
          (rrInit [⟨"A", 0, 2, 0⟩, ⟨"B", 1, 5, 0⟩]).arrived ↔
        (j < ([⟨"A", 0, 2, 0⟩, ⟨"B", 1, 5, 0⟩] : List Process).length ∧
          (rrInit [⟨"A", 0, 2, 0⟩, ⟨"B", 1, 5, 0⟩]).arrived.getD j false = false ∧
          (rrInit [⟨"A", 0, 2, 0⟩, ⟨"B", 1, 5, 0⟩]).time <
            (getP [⟨"A", 0, 2, 0⟩, ⟨"B", 1, 5, 0⟩] j).arrival ∧
          (getP [⟨"A", 0, 2, 0⟩, ⟨"B", 1, 5, 0⟩] j).arrival ≤
            (rrInit [⟨"A", 0, 2, 0⟩, ⟨"B", 1, 5, 0⟩]).time +
              JSNum.minWith (.num 1)
                ((rrInit [⟨"A", 0, 2, 0⟩, ⟨"B", 1, 5, 0⟩]).rem.getD 0 0))) ∧
      List.Pairwise (fun a b => (getP [⟨"A", 0, 2, 0⟩, ⟨"B", 1, 5, 0⟩] a).arrival ≤
          (getP [⟨"A", 0, 2, 0⟩, ⟨"B", 1, 5, 0⟩] b).arrival)
        (rrAdmit [⟨"A", 0, 2, 0⟩, ⟨"B", 1, 5, 0⟩]
          ((rrInit [⟨"A", 0, 2, 0⟩, ⟨"B", 1, 5, 0⟩]).time +
            JSNum.minWith (.num 1)
              ((rrInit [⟨"A", 0, 2, 0⟩, ⟨"B", 1, 5, 0⟩]).rem.getD 0 0))
          (rrInit [⟨"A", 0, 2, 0⟩, ⟨"B", 1, 5, 0⟩]).arrived)) :=
  ⟨by with_unfolding_all decide, by with_unfolding_all decide,
    claim_C4 (by with_unfolding_all decide)
      (rrInv_init [⟨"A", 0, 2, 0⟩, ⟨"B", 1, 5, 0⟩] (by with_unfolding_all decide))
      (by with_unfolding_all decide :
        (rrInit [⟨"A", 0, 2, 0⟩, ⟨"B", 1, 5, 0⟩]).queue = 0 :: [])
      (by with_unfolding_all decide :
        rrBody [⟨"A", 0, 2, 0⟩, ⟨"B", 1, 5, 0⟩] (.num 1)
            (rrInit [⟨"A", 0, 2, 0⟩, ⟨"B", 1, 5, 0⟩]) =
          some ⟨1, [1, 5], [some 0, none], [1, 0], [true, true],
            [⟨"A", 0, 1⟩], [("A", ⟨0, 0, 0, 0, 0, 0, 2, 0⟩)]⟩)⟩

/-- C5 (amended): for P1(0,5), P2(1,3) and quantum 2, Round-Robin actually
produces FIVE blocks [P1 0-2, P2 2-4, P1 4-6, P2 6-7, P1 7-8] with
P1 completing at 8 and P2 at 7 — not the four blocks and P1-completion 6
claimed by the spec scenario. -/
theorem claim_C5 :
    roundRobin [⟨"P1", 0, 5, 0⟩, ⟨"P2", 1, 3, 0⟩] (.num 2) 12 =
      .ok (some ⟨[⟨"P1", 0, 2⟩, ⟨"P2", 2, 4⟩, ⟨"P1", 4, 6⟩, ⟨"P2", 6, 7⟩,
          ⟨"P1", 7, 8⟩],
        [("P1", ⟨0, 8, 8, 3, 0, 0, 5, 0⟩), ("P2", ⟨2, 7, 6, 3, 1, 1, 3, 0⟩)],
        8⟩) := by
  with_unfolding_all decide

/-- C5 counterexample: the run returns the five-block timeline with P1's
completion 8; in particular the blocks differ from the four claimed ones and
P1's completion is not 6. -/
theorem claim_C5_cex :
    roundRobin [⟨"P1", 0, 5, 0⟩, ⟨"P2", 1, 3, 0⟩] (.num 2) 12 =
      .ok (some ⟨[⟨"P1", 0, 2⟩, ⟨"P2", 2, 4⟩, ⟨"P1", 4, 6⟩, ⟨"P2", 6, 7⟩,
          ⟨"P1", 7, 8⟩],
        [("P1", ⟨0, 8, 8, 3, 0, 0, 5, 0⟩), ("P2", ⟨2, 7, 6, 3, 1, 1, 3, 0⟩)],
        8⟩) ∧
    ([⟨"P1", 0, 2⟩, ⟨"P2", 2, 4⟩, ⟨"P1", 4, 6⟩, ⟨"P2", 6, 7⟩, ⟨"P1", 7, 8⟩] :
        List Block) ≠
      [⟨"P1", 0, 2⟩, ⟨"P2", 2, 4⟩, ⟨"P1", 4, 6⟩, ⟨"P2", 6, 7⟩] ∧
    (mapGet [("P1", (⟨0, 8, 8, 3, 0, 0, 5, 0⟩ : PResult)),
        ("P2", ⟨2, 7, 6, 3, 1, 1, 3, 0⟩)] "P1").map (fun x => x.completion) =
      some 8 ∧ ((8 : ℚ) ≠ 6) := by
  with_unfolding_all decide

/-- C6: on every valid process set, every process's burst is conserved: the
total length of its blocks equals its burst, for all five algorithms (for
whatever result the fueled loops return); and under FCFS, SJF and Priority
each pid occupies exactly one block. -/
theorem claim_C6 (ps : List Process) (fuel : ℕ) (q : JSNum)
    (hv : ValidInput ps) :
    (∀ p ∈ ps, sumLenFor p.pid (fcfs ps).blocks = p.burst ∧
      countFor p.pid (fcfs ps).blocks = 1) ∧
    (∀ r, sjf ps fuel = some r → ∀ p ∈ ps,
      sumLenFor p.pid r.blocks = p.burst ∧ countFor p.pid r.blocks = 1) ∧
    (∀ r, prioritySchedule ps fuel = some r → ∀ p ∈ ps,
      sumLenFor p.pid r.blocks = p.burst ∧ countFor p.pid r.blocks = 1) ∧
    (∀ r, srtf ps fuel = some r → ∀ p ∈ ps,
      sumLenFor p.pid r.blocks = p.burst) ∧
    (∀ r, roundRobin ps q fuel = .ok (some r) → ∀ p ∈ ps,
      sumLenFor p.pid r.blocks = p.burst) := by
  obtain ⟨hne, hnd, hall⟩ := hv
  have hb : ∀ p ∈ ps, 0 < p.burst := fun p hp => (hall p hp).2.1
  have hidle : ∀ p ∈ ps, p.pid ≠ "IDLE" := fun p hp => (hall p hp).2.2.1
  refine ⟨fcfs_conservation ps hnd hidle, ?_, ?_, ?_, ?_⟩
  · intro r hr
    exact (npLoop_good ps (sjfLe ps) hb hnd hidle fuel (npInit ps) r
      (npInv_init ps) hr).2
  · intro r hr
    exact (npLoop_good ps (prLe ps) hb hnd hidle fuel (npInit ps) r
      (npInv_init ps) hr).2
  · intro r hr
    exact (srtf_good hnd hidle hr).2
  · intro r hr
    exact (rr_good hb hnd hidle hr).2.1

theorem claim_C6_witness :
    ValidInput [⟨"P1", 0, 1, 0⟩] ∧
    ((∀ p ∈ ([⟨"P1", 0, 1, 0⟩] : List Process),
        sumLenFor p.pid (fcfs [⟨"P1", 0, 1, 0⟩]).blocks = p.burst ∧
        countFor p.pid (fcfs [⟨"P1", 0, 1, 0⟩]).blocks = 1) ∧
      (∀ r, sjf [⟨"P1", 0, 1, 0⟩] 5 = some r →
        ∀ p ∈ ([⟨"P1", 0, 1, 0⟩] : List Process),
          sumLenFor p.pid r.blocks = p.burst ∧ countFor p.pid r.blocks = 1) ∧
      (∀ r, prioritySchedule [⟨"P1", 0, 1, 0⟩] 5 = some r →
        ∀ p ∈ ([⟨"P1", 0, 1, 0⟩] : List Process),
          sumLenFor p.pid r.blocks = p.burst ∧ countFor p.pid r.blocks = 1) ∧
      (∀ r, srtf [⟨"P1", 0, 1, 0⟩] 5 = some r →
        ∀ p ∈ ([⟨"P1", 0, 1, 0⟩] : List Process),
          sumLenFor p.pid r.blocks = p.burst) ∧
      (∀ r, roundRobin [⟨"P1", 0, 1, 0⟩] (.num 1) 5 = .ok (some r) →
        ∀ p ∈ ([⟨"P1", 0, 1, 0⟩] : List Process),
          sumLenFor p.pid r.blocks = p.burst)) :=
  ⟨by with_unfolding_all decide,
    claim_C6 [⟨"P1", 0, 1, 0⟩] 5 (.num 1) (by with_unfolding_all decide)⟩

/-- C7 (amended): the engine functions themselves are NOT permutation
invariant (see the counterexample: `fcfs` consumes its list in the given
order); the internal sort lives in the caller, `readProcesses`.  The
pipeline is permutation-invariant: two row lists whose validated parses are
permutations of each other (with duplicate-free pids) produce the same
sorted process list, hence identical inputs to every engine.  Determinism
holds trivially: the engines are pure functions of their input. -/
theorem claim_C7 {rows rows' : List RawRow} {ps ps' : List Process}
    (h : readProcessesGo rows [] = .ok ps)
    (h' : readProcessesGo rows' [] = .ok ps')
    (hperm : ps.Perm ps') (hnd : (ps.map (·.pid)).Nodup) :
    readProcesses rows = readProcesses rows' :=
  readProcesses_perm h h' hperm hnd

theorem claim_C7_witness :
    readProcessesGo [⟨"A", .num 1, .num 1, .num 0⟩,
        ⟨"B", .num 0, .num 1, .num 0⟩] [] =
      .ok [⟨"A", 1, 1, 0⟩, ⟨"B", 0, 1, 0⟩] ∧
    readProcessesGo [⟨"B", .num 0, .num 1, .num 0⟩,
        ⟨"A", .num 1, .num 1, .num 0⟩] [] =
      .ok [⟨"B", 0, 1, 0⟩, ⟨"A", 1, 1, 0⟩] ∧
    List.Perm [⟨"A", 1, 1, 0⟩, ⟨"B", 0, 1, 0⟩]
      ([⟨"B", 0, 1, 0⟩, ⟨"A", 1, 1, 0⟩] : List Process) ∧
    readProcesses [⟨"A", .num 1, .num 1, .num 0⟩, ⟨"B", .num 0, .num 1, .num 0⟩] =
      readProcesses [⟨"B", .num 0, .num 1, .num 0⟩, ⟨"A", .num 1, .num 1, .num 0⟩] :=
  ⟨by with_unfolding_all decide, by with_unfolding_all decide,
    by with_unfolding_all decide,
    claim_C7
      (by with_unfolding_all decide :
        readProcessesGo [⟨"A", .num 1, .num 1, .num 0⟩,
            ⟨"B", .num 0, .num 1, .num 0⟩] [] =
          .ok [⟨"A", 1, 1, 0⟩, ⟨"B", 0, 1, 0⟩])
      (by with_unfolding_all decide :
        readProcessesGo [⟨"B", .num 0, .num 1, .num 0⟩,
            ⟨"A", .num 1, .num 1, .num 0⟩] [] =
          .ok [⟨"B", 0, 1, 0⟩, ⟨"A", 1, 1, 0⟩])
      (by with_unfolding_all decide) (by with_unfolding_all decide)⟩

/-- C7 counterexample: `fcfs` applied directly to a permuted (valid) process
list yields a different result — the engine dispatches in list order, so
permutation invariance holds only through the caller-side sort. -/
theorem claim_C7_cex :
    ValidInput [⟨"A", 1, 1, 0⟩, ⟨"B", 0, 1, 0⟩] ∧
    List.Perm [⟨"A", 1, 1, 0⟩, ⟨"B", 0, 1, 0⟩]
      ([⟨"B", 0, 1, 0⟩, ⟨"A", 1, 1, 0⟩] : List Process) ∧
    fcfs [⟨"A", 1, 1, 0⟩, ⟨"B", 0, 1, 0⟩] ≠ fcfs [⟨"B", 0, 1, 0⟩, ⟨"A", 1, 1, 0⟩] := by
  with_unfolding_all decide

/-- C8 (amended): Round-Robin throws exactly when the JavaScript test
`q > 0` fails — for any non-positive finite quantum, NaN and -Infinity; but
`Infinity > 0` is true, so a quantum of +Infinity passes the guard and the
run succeeds (see the counterexample), contradicting the claimed rejection
of all non-finite quanta. -/
theorem claim_C8 (ps : List Process) (q : JSNum) (fuel : ℕ) :
    ((∃ e, roundRobin ps q fuel = .error e) ↔ q.gtZero = false) ∧
    (∀ x : ℚ, (JSNum.num x).gtZero = true ↔ 0 < x) ∧
    JSNum.nan.gtZero = false ∧ JSNum.negInf.gtZero = false ∧
    JSNum.posInf.gtZero = true := by
  refine ⟨⟨?_, ?_⟩, ?_, rfl, rfl, rfl⟩
  · rintro ⟨e, he⟩
    by_contra hfalse
    have hq : q.gtZero = true := by
      cases hqz : q.gtZero
      · exact absurd hqz hfalse
      · rfl
    rw [roundRobin, if_pos hq] at he
    cases he
  · intro hq
    refine ⟨"Quantum must be a positive number for Round Robin", ?_⟩
    rw [roundRobin, if_neg (by rw [hq]; intro hcontra; cases hcontra)]
  · intro x
    show decide (0 < x) = true ↔ 0 < x
    exact decide_eq_true_iff

/-- C8 counterexample: the quantum +Infinity is accepted (`Infinity > 0` is
true in JavaScript) and the simulation runs to completion instead of
failing. -/
theorem claim_C8_cex :
    JSNum.posInf.gtZero = true ∧
    roundRobin [⟨"P1", 0, 1, 0⟩] .posInf 3 =
      .ok (some ⟨[⟨"P1", 0, 1⟩], [("P1", ⟨0, 1, 1, 0, 0, 0, 1, 0⟩)], 1⟩) := by
  with_unfolding_all decide

/-- C9 (amended): the scheduling functions themselves perform NO input
validation — on duplicate pids they silently merge the Map entries (see the
counterexample) and on the empty list they return an empty result.
Rejection happens only caller-side: `readProcesses` fails on any row list
whose pids contain a duplicate (and `compute` separately rejects the empty
table), so through the UI pipeline no engine ever receives such input. -/
theorem claim_C9 (rows : List RawRow) (hdup : ¬((rows.map (·.pid)).Nodup)) :
    ∃ e, readProcessesGo rows [] = .error e :=
  readProcessesGo_dup rows [] List.nodup_nil (by simpa using hdup)

theorem claim_C9_witness :
    ¬((List.map (fun r : RawRow => r.pid) [⟨"P", .num 0, .num 1, .num 0⟩,
        ⟨"P", .num 2, .num 1, .num 0⟩]).Nodup) ∧
    ∃ e, readProcessesGo [⟨"P", .num 0, .num 1, .num 0⟩,
        ⟨"P", .num 2, .num 1, .num 0⟩] [] = .error e :=
  ⟨by with_unfolding_all decide,
    claim_C9 [⟨"P", .num 0, .num 1, .num 0⟩, ⟨"P", .num 2, .num 1, .num 0⟩]
      (by with_unfolding_all decide)⟩

/-- C9 counterexample: `fcfs` on two processes sharing the pid "P" raises no
error and returns a single merged result entry — the second `res.set`
overwrites the first, so the output has one entry for two input processes. -/
theorem claim_C9_cex :
    fcfs [⟨"P", 0, 1, 0⟩, ⟨"P", 2, 1, 0⟩] =
      ⟨[⟨"P", 0, 1⟩, ⟨"IDLE", 1, 2⟩, ⟨"P", 2, 3⟩],
        [("P", ⟨2, 3, 1, 0, 0, 2, 1, 0⟩)], 3⟩ ∧
    (fcfs [⟨"P", 0, 1, 0⟩, ⟨"P", 2, 1, 0⟩]).results.length = 1 := by
  with_unfolding_all decide

/-- C10: Round-Robin terminates for every rational quantum `> 0` on every
valid process set, integer or not: each dispatch runs
`min(quantum, remaining) > 0` and the final dispatch runs exactly the
remaining time, so every remaining burst reaches exactly 0, every burst is
conserved in the timeline, and every process gets a finalized result
entry. -/
theorem claim_C10 (ps : List Process) (q : ℚ) (hq : 0 < q)
    (hv : ValidInput ps) :
    ∃ fuel r, roundRobin ps (.num q) fuel = .ok (some r) ∧
      (∀ p ∈ ps, sumLenFor p.pid r.blocks = p.burst) ∧
      (∀ p ∈ ps, (mapGet r.results p.pid).isSome = true) := by
  obtain ⟨hne, hnd, hall⟩ := hv
  have hb : ∀ p ∈ ps, 0 < p.burst := fun p hp => (hall p hp).2.1
  have hidle : ∀ p ∈ ps, p.pid ≠ "IDLE" := fun p hp => (hall p hp).2.2.1
  have hqg : (JSNum.num q).gtZero = true := by
    show decide (0 < q) = true
    exact decide_eq_true hq
  obtain ⟨fuel, r, h⟩ := rr_terminates ps (.num q) hb hnd hidle hqg
  obtain ⟨_, hcons, hpres⟩ := rr_good hb hnd hidle h
  exact ⟨fuel, r, h, hcons, hpres⟩

theorem claim_C10_witness :
    (0 : ℚ) < 1/3 ∧ ValidInput [⟨"P1", 0, 1/2, 0⟩] ∧
    (∃ fuel r, roundRobin [⟨"P1", 0, 1/2, 0⟩] (.num (1/3)) fuel = .ok (some r) ∧
      (∀ p ∈ ([⟨"P1", 0, 1/2, 0⟩] : List Process),
        sumLenFor p.pid r.blocks = p.burst) ∧
      (∀ p ∈ ([⟨"P1", 0, 1/2, 0⟩] : List Process),
        (mapGet r.results p.pid).isSome = true)) :=
  ⟨by norm_num, by with_unfolding_all decide,
    claim_C10 [⟨"P1", 0, 1/2, 0⟩] (1/3) (by norm_num)
      (by with_unfolding_all decide)⟩
